import Mathlib

/-!
# Closest pair of points: brute force and divide and conquer

A shallow embedding of `src/divide_conquer/closest_pair.{h,cpp}` and the
properties of the two solvers `brute_force_closest_pair` and
`divide_conquer_closest_pair`.

## Modelling conventions

* **Coordinates.**  A C++ `double` holding a finite coordinate is a rational
  number; coordinates are values of `ℚ` and arithmetic on them is exact (no
  rounding, no overflow to infinity, no NaN).
* **Distances.**  A C++ `double` holding a distance is either `+∞` (the initial
  `min_dist`) or the square root of a non-negative rational.  Such a value is
  represented by `Dist`: `Dist.inf` is `+∞` and `Dist.root s` is the real
  number `√s`.  The comparisons the code performs on distances are
  transported through the (strictly monotone) square root:
  `√a < √b ↔ a < b` and, for a rational `q`, `q < √s ↔ q < 0 ∨ q * q < s`.
  So "distance `0`" is `Dist.root 0`, "distance `13`" is `Dist.root 169`,
  "distance `√2`" is `Dist.root 2`.
* **Vectors** are lists; `std::vector` indices and sizes are natural numbers.
* **`int` values** (the comparison counter in particular) are unbounded
  integers: the model is exact for every run in which the counter stays in the
  range of `int`; signed overflow is undefined behaviour in C++ and is not
  modelled.
* **Loops** `for (i = 0; i < n; ++i) for (j = i + 1; j < n; ++j)` are
  recursions over the suffixes of the vector: the outer loop peels `points[i]`
  off the front, the inner loop runs over the elements after it.
* **`std::sort`** is modelled by insertion sort (`std_sort`).  The C++ standard
  leaves the relative order of elements that are equivalent under the
  comparator unspecified; here these are points with equal `x` and equal `y`
  that differ in `id` only.
* **Reference parameters** become explicit state: the counter `int& comparisons`
  is passed in and returned.
* **Timing.**  `Timer::elapsed_ms()` reads the clock; its reading is a
  parameter `elapsed` of the two public functions.
-/

namespace ClosestPair

/-! ## Data model (`closest_pair.h`) -/

/-- A point in the plane with a user id (`struct Point`). -/
structure Point where
  x : ℚ
  y : ℚ
  id : Int
deriving DecidableEq

/-- The default constructor `Point()` gives `(0, 0)` with id `0`. -/
instance : Inhabited Point := ⟨⟨0, 0, 0⟩⟩

/-- A `double` holding a distance: `root s` is the real number `√s`, `inf` is `+∞`. -/
inductive Dist where
  | root (sq : ℚ) : Dist
  | inf : Dist
deriving DecidableEq

namespace Dist

/-- The C++ test `a < b` on two distances: `√a < √b` iff `a < b`, and every
root is below `+∞`. -/
def lt : Dist → Dist → Bool
  | root a, root b => decide (a < b)
  | root _, inf => true
  | inf, _ => false

/-- The C++ test `q < d` for a coordinate difference `q` and a distance `d`:
`q < √s` iff `q` is negative or `q * q < s`; every `q` is below `+∞`. -/
def rat_lt (q : ℚ) : Dist → Bool
  | root s => decide (q < 0) || decide (q * q < s)
  | inf => true

/-- The radicand as an element of `ℚ ∪ {⊤}`; the order of distances is the
order of their radicands. -/
def toWithTop : Dist → WithTop ℚ
  | root s => (s : WithTop ℚ)
  | inf => ⊤

/-- Distances are linearly ordered by their radicands (the square root is
strictly monotone). -/
instance : LinearOrder Dist :=
  LinearOrder.lift' toWithTop (by
    intro a b h
    cases a <;> cases b <;> simp_all [toWithTop])

/-- The distance `d` is the extended real number `r`. -/
def Denotes (d : Dist) (r : EReal) : Prop :=
  match d with
  | root s => r = ((Real.sqrt (s : ℝ) : ℝ) : EReal)
  | inf => r = ⊤

end Dist

/-- The result record `struct ClosestPairResult`. -/
structure ClosestPairResult where
  p1 : Point
  p2 : Point
  distance : Dist
  runtime_ms : ℚ
  comparisons : Int
deriving DecidableEq

/-- The radicand of the Euclidean distance: `dx * dx + dy * dy`. -/
def dist_sq (p1 p2 : Point) : ℚ :=
  let dx := p1.x - p2.x
  let dy := p1.y - p2.y
  dx * dx + dy * dy

/-- Euclidean distance `std::sqrt(dx * dx + dy * dy)` (`closest_pair.h`, line 36). -/
def distance (p1 p2 : Point) : Dist :=
  Dist.root (dist_sq p1 p2)

/-! ## Comparators and sorting (`closest_pair.cpp`, lines 8-14) -/

/-- Order by `x`, ties by `y`. -/
def compare_x (a b : Point) : Bool :=
  decide (a.x < b.x) || (decide (a.x = b.x) && decide (a.y < b.y))

/-- Order by `y`, ties by `x`. -/
def compare_y (a b : Point) : Bool :=
  decide (a.y < b.y) || (decide (a.y = b.y) && decide (a.x < b.x))

/-- The call `std::sort(v.begin(), v.end(), comp)`: insertion sort, in which an
element is placed before the first element `b` with `comp(b, a)` false. -/
def std_sort (comp : Point → Point → Bool) (v : List Point) : List Point :=
  v.insertionSort (fun a b => comp b a = false)

/-! ## Scanning loops -/

/-- The variables a pair-scanning loop updates: the locals `min_dist`, `p1`,
`p2` and the counter `comparisons` it has by reference. -/
structure Scan where
  min_dist : Dist
  p1 : Point
  p2 : Point
  comparisons : Int
deriving DecidableEq

/-- One execution of the body shared by both inner loops
(lines 29-35 and 72-78): count, measure, keep a strictly smaller distance. -/
def scan_pair (pi pj : Point) (s : Scan) : Scan :=
  let comparisons := s.comparisons + 1
  let dist := distance pi pj
  if Dist.lt dist s.min_dist then
    { min_dist := dist, p1 := pi, p2 := pj, comparisons := comparisons }
  else
    { s with comparisons := comparisons }

/-- The inner loop of `brute_force_closest_pair_impl` (lines 28-36) for a fixed
`points[i]`; `rest` holds `points[i+1], ..., points[n-1]`. -/
def brute_force_inner (pi : Point) : List Point → Scan → Scan
  | [], s => s
  | pj :: rest, s => brute_force_inner pi rest (scan_pair pi pj s)

/-- The outer loop of `brute_force_closest_pair_impl` (lines 27-37); the
argument holds `points[i], ..., points[n-1]`. -/
def brute_force_outer : List Point → Scan → Scan
  | [], s => s
  | pi :: rest, s => brute_force_outer rest (brute_force_inner pi rest s)

/-- Brute force on a vector (lines 22-45).  The returned record has
`comparisons = 0` ("will be set by caller"); `runtime_ms`, which the code leaves
unset, is `0`.  The second component is the counter after the call. -/
def brute_force_closest_pair_impl (points : List Point) (comparisons : Int) :
    ClosestPairResult × Int :=
  let s := brute_force_outer points
    { min_dist := Dist.inf, p1 := default, p2 := default, comparisons := comparisons }
  ({ p1 := s.p1, p2 := s.p2, distance := s.min_dist, runtime_ms := 0, comparisons := 0 },
    s.comparisons)

/-- The inner loop of `find_strip_closest` (lines 71-79) for a fixed
`strip[i]`: it stops at the first `strip[j]` with
`strip[j].y - strip[i].y < min_dist` false. -/
def strip_inner (pi : Point) : List Point → Scan → Scan
  | [], s => s
  | pj :: rest, s =>
    if Dist.rat_lt (pj.y - pi.y) s.min_dist then
      strip_inner pi rest (scan_pair pi pj s)
    else
      s

/-- The outer loop of `find_strip_closest` (lines 70-80). -/
def strip_outer : List Point → Scan → Scan
  | [], s => s
  | pi :: rest, s => strip_outer rest (strip_inner pi rest s)

/-- Closest pair inside the strip (lines 61-87).  The strip is sorted by
`compare_y` (in place in the code; the caller does not read it again) and
scanned with the shrinking threshold `min_dist`, which starts at `delta`.
The fields `runtime_ms` and `comparisons` the code leaves unset are `0`. -/
def find_strip_closest (strip : List Point) (delta : Dist) (comparisons : Int) :
    ClosestPairResult × Int :=
  let strip := std_sort compare_y strip
  let s := strip_outer strip
    { min_dist := delta, p1 := default, p2 := default, comparisons := comparisons }
  ({ p1 := s.p1, p2 := s.p2, distance := s.min_dist, runtime_ms := 0, comparisons := 0 },
    s.comparisons)

/-! ## The recursion (lines 99-155) -/

/-- The partition test of line 118: `p` is strictly before `mid_point` in the
order by `x`, ties by `y`. -/
def left_of (mid_point p : Point) : Bool :=
  decide (p.x < mid_point.x) || (decide (p.x = mid_point.x) && decide (p.y < mid_point.y))

/-- The strip test of line 141: `std::abs(p.x - mid_point.x) < delta`. -/
def in_strip (mid_point : Point) (delta : Dist) (p : Point) : Bool :=
  Dist.rat_lt |p.x - mid_point.x| delta

/-- Lines 133-154: choose the better half result and merge the strip result. -/
def combine (points_y : List Point) (mid_point : Point)
    (left_result right_result : ClosestPairResult) (comparisons : Int) :
    ClosestPairResult × Int :=
  let best_result :=
    if Dist.lt left_result.distance right_result.distance then left_result else right_result
  let delta := best_result.distance
  let strip := points_y.filter (in_strip mid_point delta)
  if !strip.isEmpty then
    let strip_result := find_strip_closest strip delta comparisons
    if Dist.lt strip_result.1.distance best_result.distance then
      (strip_result.1, strip_result.2)
    else
      (best_result, strip_result.2)
  else
    (best_result, comparisons)

/-- The recursive helper `closest_pair_recursive` (lines 99-155), with the
counter passed in and returned. -/
def closest_pair_recursive (points_x points_y : List Point) (comparisons : Int) :
    ClosestPairResult × Int :=
  if h : points_x.length ≤ 3 then
    brute_force_closest_pair_impl points_x comparisons
  else
    let mid := points_x.length / 2
    let mid_point := points_x.get ⟨mid, by omega⟩
    let left_y := points_y.filter (fun p => left_of mid_point p)
    let right_y := points_y.filter (fun p => !left_of mid_point p)
    let left_x := points_x.take mid
    let right_x := points_x.drop mid
    let left_result := closest_pair_recursive left_x left_y comparisons
    let right_result := closest_pair_recursive right_x right_y left_result.2
    combine points_y mid_point left_result.1 right_result.1 right_result.2
termination_by points_x.length
decreasing_by
  all_goals simp only [List.length_take, List.length_drop]
  all_goals omega

/-! ## Public interface (lines 160-216) -/

/-- The sentinel result for fewer than two points (lines 163-167, 198-202). -/
def sentinel : ClosestPairResult :=
  { p1 := default, p2 := default, distance := Dist.inf, runtime_ms := 0, comparisons := 0 }

/-- The public divide-and-conquer solver (lines 160-190) as a state
transformer on its reference parameter `std::vector<Point>& points`: the second
component is the caller's vector after the call.  The body copies `points` into
`points_x` and `points_y` (lines 176-177) and sorts the copies; it contains no
assignment to `points` or to one of its elements. -/
def divide_conquer_closest_pair_state (elapsed : ℚ) (points : List Point) :
    ClosestPairResult × List Point :=
  if points.length < 2 then
    (sentinel, points)
  else
    let comparisons : Int := 0
    let points_x := points
    let points_y := points
    let points_x := std_sort compare_x points_x
    let points_y := std_sort compare_y points_y
    let result := closest_pair_recursive points_x points_y comparisons
    ({ result.1 with runtime_ms := elapsed, comparisons := result.2 }, points)

/-- The value returned by the public divide-and-conquer solver. -/
def divide_conquer_closest_pair (elapsed : ℚ) (points : List Point) : ClosestPairResult :=
  (divide_conquer_closest_pair_state elapsed points).1

/-- The public brute-force solver (lines 195-216). -/
def brute_force_closest_pair (elapsed : ℚ) (points : List Point) : ClosestPairResult :=
  if points.length < 2 then
    sentinel
  else
    let comparisons : Int := 0
    let result := brute_force_closest_pair_impl points comparisons
    { result.1 with runtime_ms := elapsed, comparisons := result.2 }

/-! ## Specification vocabulary -/

/-- The coordinates of a point. -/
def coords (p : Point) : ℚ × ℚ := (p.x, p.y)

/-- The point with its id replaced by `0`. -/
def erase_id (p : Point) : Point := { p with id := 0 }

/-- A scan state with the ids of its pair erased. -/
def Scan.erase_ids (s : Scan) : Scan := { s with p1 := erase_id s.p1, p2 := erase_id s.p2 }

/-- A result with the ids of its pair erased. -/
def ClosestPairResult.erase_ids (r : ClosestPairResult) : ClosestPairResult :=
  { r with p1 := erase_id r.p1, p2 := erase_id r.p2 }

/-- The scan state `s` comes from `s0` by keeping it or by replacing it with a
strictly closer pair taken from two positions of `l`, in their order in `l`. -/
def Scan.Extends (l : List Point) (s0 s : Scan) : Prop :=
  (s.min_dist = s0.min_dist ∧ s.p1 = s0.p1 ∧ s.p2 = s0.p2) ∨
  (s.min_dist < s0.min_dist ∧ s.min_dist = distance s.p1 s.p2 ∧ List.Sublist [s.p1, s.p2] l)


/-! ## Traces of the recursion -/

/-- The calls of `closest_pair_recursive` that the call on `points_x`,
`points_y` gives rise to, itself first, each with its two vector arguments
(lines 104-131: the arguments of the two recursive calls are `left_x`, `left_y`
and `right_x`, `right_y`; they do not depend on the counter). -/
def recursive_calls (points_x points_y : List Point) : List (List Point × List Point) :=
  if h : points_x.length ≤ 3 then
    [(points_x, points_y)]
  else
    let mid := points_x.length / 2
    let mid_point := points_x.get ⟨mid, by omega⟩
    let left_y := points_y.filter (fun p => left_of mid_point p)
    let right_y := points_y.filter (fun p => !left_of mid_point p)
    let left_x := points_x.take mid
    let right_x := points_x.drop mid
    (points_x, points_y) :: (recursive_calls left_x left_y ++ recursive_calls right_x right_y)
termination_by points_x.length
decreasing_by
  all_goals simp only [List.length_take, List.length_drop]
  all_goals omega

/-- The arguments `strip` and `delta` of the call of `find_strip_closest` in
the combine step (lines 133-148); there is no call when the strip is empty. -/
def combine_scan (points_y : List Point) (mid_point : Point)
    (left_result right_result : ClosestPairResult) : Option (List Point × Dist) :=
  let best_result :=
    if Dist.lt left_result.distance right_result.distance then left_result else right_result
  let delta := best_result.distance
  let strip := points_y.filter (in_strip mid_point delta)
  if !strip.isEmpty then some (strip, delta) else none

/-- The strip scans performed by the call of `closest_pair_recursive` on
`points_x`, `points_y`, `comparisons`, in execution order: for every call of
`find_strip_closest` its arguments `strip` and `delta`. -/
def strip_scans (points_x points_y : List Point) (comparisons : Int) :
    List (List Point × Dist) :=
  if h : points_x.length ≤ 3 then
    []
  else
    let mid := points_x.length / 2
    let mid_point := points_x.get ⟨mid, by omega⟩
    let left_y := points_y.filter (fun p => left_of mid_point p)
    let right_y := points_y.filter (fun p => !left_of mid_point p)
    let left_x := points_x.take mid
    let right_x := points_x.drop mid
    let left_result := closest_pair_recursive left_x left_y comparisons
    let right_result := closest_pair_recursive right_x right_y left_result.2
    strip_scans left_x left_y comparisons ++ strip_scans right_x right_y left_result.2 ++
      (combine_scan points_y mid_point left_result.1 right_result.1).toList
termination_by points_x.length
decreasing_by
  all_goals simp only [List.length_take, List.length_drop]
  all_goals omega

/-- For the outer loop of `find_strip_closest` on a sorted strip: the number of
distances the inner loop evaluates for each index `i`, in order. -/
def inner_loop_counts : List Point → Scan → List Int
  | [], _ => []
  | pi :: rest, s =>
    ((strip_inner pi rest s).comparisons - s.comparisons) ::
      inner_loop_counts rest (strip_inner pi rest s)

/-- The per-index evaluation counts of the call `find_strip_closest(strip, delta)`. -/
def scan_counts (strip : List Point) (delta : Dist) : List Int :=
  inner_loop_counts (std_sort compare_y strip)
    { min_dist := delta, p1 := default, p2 := default, comparisons := 0 }

/-! ## Counting vocabulary -/

/-- The point `q` is within reach of `p` in a `y`-sorted strip scanned with a
threshold of at most `√s`: `q` is not below `p` and `q.y - p.y < √s`. -/
def in_reach (s : ℚ) (p q : Point) : Bool :=
  decide (p.y ≤ q.y) && decide ((q.y - p.y) * (q.y - p.y) < s)

/-- The elements of a list before its first two neighbours with equal
coordinates. -/
def distinct_front : List Point → List Point
  | [] => []
  | [p] => [p]
  | p :: q :: rest => if coords p = coords q then [] else p :: distinct_front (q :: rest)

/-- The number of pairs of a row `p` of `rows` and an element of `l` within
reach of `p`. -/
def reach_count (s : ℚ) (rows l : List Point) : ℕ :=
  (rows.map (fun p => l.countP (in_reach s p))).sum

/-- The cell of a point in the box of side `√s` at the dividing line
`x = mid_point.x` below `q`: whether it is in the half nearer to the line
and whether it is in the half nearer to `q`. -/
def cell (s : ℚ) (m q p : Point) : Bool × Bool :=
  (decide (4 * ((p.x - m.x) * (p.x - m.x)) < s), decide (4 * ((q.y - p.y) * (q.y - p.y)) < s))

/-- The point `p` has the coordinates of `a`. -/
def same_place (a p : Point) : Bool := decide (coords p = coords a)

/-! ## The specification of the strip scan -/

/-- The distances of all pairs `l[i]`, `l[j]` with `i < j`. -/
def pair_distances : List Point → List Dist
  | [] => []
  | p :: rest => rest.map (distance p) ++ pair_distances rest

/-- The value the specification gives for the strip scan:
`min(delta, minimum of distance(strip[i], strip[j]) over all i < j)`. -/
def strip_minimum (strip : List Point) (delta : Dist) : Dist :=
  (pair_distances strip).foldr min delta

/-! ## The engine without the sort of the strip -/

/-- The function `find_strip_closest` without the sort of line 67: the strip
is scanned in the order in which it is passed. -/
def find_strip_closest_without_sort (strip : List Point) (delta : Dist) (comparisons : Int) :
    ClosestPairResult × Int :=
  let s := strip_outer strip
    { min_dist := delta, p1 := default, p2 := default, comparisons := comparisons }
  ({ p1 := s.p1, p2 := s.p2, distance := s.min_dist, runtime_ms := 0, comparisons := 0 },
    s.comparisons)

/-- Lines 133-154 with `find_strip_closest_without_sort` in the place of
`find_strip_closest`. -/
def combine_without_sort (points_y : List Point) (mid_point : Point)
    (left_result right_result : ClosestPairResult) (comparisons : Int) :
    ClosestPairResult × Int :=
  let best_result :=
    if Dist.lt left_result.distance right_result.distance then left_result else right_result
  let delta := best_result.distance
  let strip := points_y.filter (in_strip mid_point delta)
  if !strip.isEmpty then
    let strip_result := find_strip_closest_without_sort strip delta comparisons
    if Dist.lt strip_result.1.distance best_result.distance then
      (strip_result.1, strip_result.2)
    else
      (best_result, strip_result.2)
  else
    (best_result, comparisons)

/-- The recursion `closest_pair_recursive` with the strip scanned as it is
built. -/
def closest_pair_recursive_without_sort (points_x points_y : List Point) (comparisons : Int) :
    ClosestPairResult × Int :=
  if h : points_x.length ≤ 3 then
    brute_force_closest_pair_impl points_x comparisons
  else
    let mid := points_x.length / 2
    let mid_point := points_x.get ⟨mid, by omega⟩
    let left_y := points_y.filter (fun p => left_of mid_point p)
    let right_y := points_y.filter (fun p => !left_of mid_point p)
    let left_x := points_x.take mid
    let right_x := points_x.drop mid
    let left_result := closest_pair_recursive_without_sort left_x left_y comparisons
    let right_result := closest_pair_recursive_without_sort right_x right_y left_result.2
    combine_without_sort points_y mid_point left_result.1 right_result.1 right_result.2
termination_by points_x.length
decreasing_by
  all_goals simp only [List.length_take, List.length_drop]
  all_goals omega

/-- The public solver with the strip scanned as it is built. -/
def divide_conquer_without_sort (elapsed : ℚ) (points : List Point) : ClosestPairResult :=
  if points.length < 2 then
    sentinel
  else
    let comparisons : Int := 0
    let points_x := std_sort compare_x points
    let points_y := std_sort compare_y points
    let result := closest_pair_recursive_without_sort points_x points_y comparisons
    { result.1 with runtime_ms := elapsed, comparisons := result.2 }

end ClosestPair

/-!
# Maximum coverage: greedy and brute force

A shallow embedding of `src/greedy/max_coverage.{h,cpp}`.

* A `std::unordered_set<int>` is a `Finset Int`.  A loop over the elements of
  such a set that inserts each of them into `covered` is the union with
  `covered`; a loop that counts the elements not in `covered` is the size of
  the filtered set.  Neither depends on the iteration order, which the C++
  standard leaves unspecified.
* `int` values are unbounded integers; `size_t` indices are natural numbers.
* A function that throws returns `none`: `std::vector::reserve` and the
  constructor `std::vector<int>(k)` throw `std::length_error` when a negative
  `int` is converted to their `size_t` argument.
* `Timer::elapsed_ms()` is the parameter `elapsed`.
-/

namespace MaxCoverage

/-- A user with the set of visited locations (`class User`). -/
structure User where
  id : Int
  locations : Finset Int

instance : Inhabited User := ⟨⟨0, ∅⟩⟩

/-- The result record `struct CoverageResult`. -/
structure CoverageResult where
  selected_users : List Int
  coverage : Int
  runtime_ms : ℚ
deriving DecidableEq

/-- The access `users[idx]` with an `int` index.  The code only reads valid
indices; for totality an index out of range reads a user without locations. -/
def user_at (users : List User) (idx : Int) : User :=
  users.getD idx.toNat default

/-- The helper `compute_coverage` (lines 8-17): the size of the union of the
location sets of the users at `selected_indices`. -/
def compute_coverage (users : List User) (selected_indices : List Int) : Int :=
  let covered := selected_indices.foldl
    (fun (covered : Finset Int) idx => covered ∪ (user_at users idx).locations) ∅
  (covered.card : Int)

/-- The marginal gain of a user (lines 40-45): the number of its locations
that are not in `covered`. -/
def marginal_gain (covered : Finset Int) (usr : User) : Int :=
  ((usr.locations.filter (fun loc => loc ∉ covered)).card : Int)

/-- The search for the user of maximum marginal gain (lines 36-52) over the
users from index `u` on; the state is `(best_user, max_gain)`. -/
def find_best_user (covered : Finset Int) (selected : List Bool) :
    List User → Nat → Int × Int → Int × Int
  | [], _, best => best
  | usr :: rest, u, best =>
    if selected.getD u false then
      find_best_user covered selected rest (u + 1) best
    else
      let gain := marginal_gain covered usr
      if gain > best.2 then
        find_best_user covered selected rest (u + 1) ((u : Int), gain)
      else
        find_best_user covered selected rest (u + 1) best

/-- The variables of the greedy loop: `result.selected_users`, `covered` and
the flags `selected`. -/
structure GreedyState where
  selected_users : List Int
  covered : Finset Int
  selected : List Bool

/-- The greedy loop (lines 31-67); the first argument is the number of
iterations that remain before `iteration < k && iteration < users.size()`
fails. -/
def greedy_loop (users : List User) : Nat → GreedyState → GreedyState
  | 0, st => st
  | iterations + 1, st =>
    let best := find_best_user st.covered st.selected users 0 (-1, 0)
    let best_user := best.1
    let max_gain := best.2
    if best_user = -1 ∨ max_gain = 0 then
      st
    else
      greedy_loop users iterations
        { selected_users := st.selected_users ++ [best_user],
          covered := st.covered ∪ (user_at users best_user).locations,
          selected := st.selected.set best_user.toNat true }

/-- The greedy solver `greedy_max_coverage` (lines 20-73).  For negative `k`
the call `result.selected_users.reserve(k)` throws. -/
def greedy_max_coverage (elapsed : ℚ) (users : List User) (k : Int) : Option CoverageResult :=
  if k < 0 then
    none
  else
    let st := greedy_loop users (min k.toNat users.length)
      { selected_users := [], covered := ∅, selected := List.replicate users.length false }
    some { selected_users := st.selected_users, coverage := (st.covered.card : Int),
           runtime_ms := elapsed }

/-- The variables the enumeration of combinations updates: the vector
`combination` and the fields `coverage` and `selected_users` of `result`. -/
structure Search where
  combination : List Int
  coverage : Int
  selected_users : List Int

/-- A complete combination (lines 95-101): keep it if its coverage is strictly
larger than the best so far. -/
def visit (users : List User) (st : Search) : Search :=
  let cov := compute_coverage users st.combination
  if cov > st.coverage then
    { st with coverage := cov, selected_users := st.combination }
  else
    st

/-- The recursive lambda `generate_combinations(start, depth)` (lines 93-108).
The first argument is `k - depth`, so that `depth == k` is the case `0`; the loop
`for (i = start; i < n; ++i)` is a fold over `start, ..., n - 1`. -/
def generate_combinations (users : List User) (n : Nat) : Nat → Nat → Nat → Search → Search
  | 0, _, _, st => visit users st
  | remaining + 1, start, depth, st =>
    (List.range' start (n - start)).foldl
      (fun st i => generate_combinations users n remaining (i + 1) (depth + 1)
        { st with combination := st.combination.set depth (i : Int) }) st

/-- The brute-force solver `brute_force_max_coverage` (lines 76-114).  The
warning written to `std::cerr` is not modelled.  For a negative `k` that passes
the feasibility test the constructor `std::vector<int> combination(k)` throws. -/
def brute_force_max_coverage (elapsed : ℚ) (users : List User) (k : Int) :
    Option CoverageResult :=
  let n : Int := users.length
  let k := if k > n then n else k
  if n > 20 ∨ k > 15 then
    some { selected_users := [], coverage := 0, runtime_ms := -1 }
  else if k < 0 then
    none
  else
    let st := generate_combinations users users.length k.toNat 0 0
      { combination := List.replicate k.toNat 0, coverage := 0, selected_users := [] }
    some { selected_users := st.selected_users, coverage := st.coverage, runtime_ms := elapsed }

/-! ## Specification vocabulary -/

/-- The set of locations covered by the users with indices in `S`. -/
def covered_by (users : List User) (S : Finset ℕ) : Finset Int :=
  S.biUnion (fun i => (users.getD i default).locations)

/-- The invariant of the greedy loop. -/
def GreedyState.Valid (users : List User) (st : GreedyState) : Prop :=
  st.selected.length = users.length ∧
  (∀ u : ℕ, u < users.length → (st.selected.getD u false = true ↔ (u : Int) ∈ st.selected_users)) ∧
  st.selected_users.Nodup ∧
  (∀ idx ∈ st.selected_users, 0 ≤ idx ∧ idx < users.length) ∧
  st.covered = st.selected_users.toFinset.biUnion (fun idx => (user_at users idx).locations)

/-- A strictly increasing list of indices in `[start, n)`. -/
def IsCombination (n start : ℕ) (c : List ℕ) : Prop :=
  c.Sorted (· < ·) ∧ ∀ i ∈ c, start ≤ i ∧ i < n

/-- What the enumeration has achieved when it moves from `st` to `f`, for the
complete combinations `pre ++ c` with `c` a combination of length `len` from
`start` on. -/
def Enumerated (users : List User) (n len start : ℕ) (pre : List Int) (st f : Search) : Prop :=
  st.coverage ≤ f.coverage ∧
  ((f.coverage = st.coverage ∧ f.selected_users = st.selected_users) ∨
    ∃ c : List ℕ, c.length = len ∧ IsCombination n start c ∧
      f.selected_users = pre ++ c.map (fun i : ℕ => (i : Int)) ∧
      f.coverage = compute_coverage users f.selected_users ∧ st.coverage < f.coverage) ∧
  ∀ c : List ℕ, c.length = len → IsCombination n start c →
    compute_coverage users (pre ++ c.map (fun i : ℕ => (i : Int))) ≤ f.coverage

/-- Every user in the selection added a location that the users selected
before it did not cover. -/
def GreedyState.Gaining (users : List User) (st : GreedyState) : Prop :=
  ∀ i, i < st.selected_users.length →
    compute_coverage users (st.selected_users.take i) <
      compute_coverage users (st.selected_users.take (i + 1))

end MaxCoverage

namespace ClosestPair

/-! ## Order of distances -/

namespace Dist

theorem lt_def (a b : Dist) : a < b ↔ a.toWithTop < b.toWithTop := Iff.rfl

theorem le_def (a b : Dist) : a ≤ b ↔ a.toWithTop ≤ b.toWithTop := Iff.rfl

@[simp] theorem root_le_root (a b : ℚ) : root a ≤ root b ↔ a ≤ b := by
  simp [le_def, toWithTop]

@[simp] theorem root_lt_root (a b : ℚ) : root a < root b ↔ a < b := by
  simp [lt_def, toWithTop]

@[simp] theorem le_inf (d : Dist) : d ≤ inf := by
  simp [le_def, toWithTop]

@[simp] theorem root_lt_inf (a : ℚ) : root a < inf := by
  simp [lt_def, toWithTop]

@[simp] theorem not_inf_lt (d : Dist) : ¬ inf < d := by
  simp [lt_def, toWithTop]

@[simp] theorem inf_le_iff (d : Dist) : inf ≤ d ↔ d = inf := by
  cases d <;> simp [le_def, toWithTop]

theorem lt_iff (a b : Dist) : lt a b = true ↔ a < b := by
  cases a <;> cases b <;> simp [lt]

theorem lt_eq_false_iff (a b : Dist) : lt a b = false ↔ b ≤ a := by
  rw [← not_lt, ← lt_iff]; simp

theorem rat_lt_eq_false_iff (q : ℚ) (d : Dist) :
    rat_lt q d = false ↔ ∃ s, d = root s ∧ 0 ≤ q ∧ s ≤ q * q := by
  cases d <;> simp [rat_lt]

theorem rat_lt_of_sq_lt (q : ℚ) (d : Dist) (h : root (q * q) < d) : rat_lt q d = true := by
  cases d with
  | inf => rfl
  | root s => simp only [root_lt_root] at h; simp [rat_lt, h]

/-! ### Meaning of the representation -/

/-- The test `Dist.lt` on two roots is the order of the real square roots. -/
theorem lt_root_iff_sqrt (a b : ℚ) (ha : 0 ≤ a) :
    lt (root a) (root b) = true ↔ Real.sqrt (a : ℝ) < Real.sqrt (b : ℝ) := by
  rw [Real.sqrt_lt_sqrt_iff (by exact_mod_cast ha)]
  simp only [lt, decide_eq_true_eq]
  exact_mod_cast Iff.rfl

/-- The test `Dist.rat_lt` compares a rational with the real square root. -/
theorem rat_lt_root_iff_sqrt (q s : ℚ) :
    rat_lt q (root s) = true ↔ (q : ℝ) < Real.sqrt (s : ℝ) := by
  simp only [rat_lt, Bool.or_eq_true, decide_eq_true_eq]
  by_cases hq : q < 0
  · simp only [hq, true_or, true_iff]
    exact lt_of_lt_of_le (by exact_mod_cast hq) (Real.sqrt_nonneg _)
  · simp only [hq, false_or]
    rw [Real.lt_sqrt (by exact_mod_cast (not_lt.1 hq)), sq]
    exact_mod_cast Iff.rfl

end Dist

theorem dist_sq_nonneg (p q : Point) : 0 ≤ dist_sq p q :=
  add_nonneg (mul_self_nonneg _) (mul_self_nonneg _)

theorem dist_sq_comm (p q : Point) : dist_sq p q = dist_sq q p := by
  unfold dist_sq
  ring

theorem distance_comm (p q : Point) : distance p q = distance q p := by
  unfold distance
  rw [dist_sq_comm]

theorem zero_le_distance (p q : Point) : Dist.root 0 ≤ distance p q := by
  simp [distance, dist_sq_nonneg]

theorem distance_ne_inf (p q : Point) : distance p q ≠ Dist.inf := by
  simp [distance]

/-- The value of `distance` is the real Euclidean distance. -/
theorem distance_denotes (p q : Point) :
    (distance p q).Denotes
      ((Real.sqrt (((p.x - q.x) * (p.x - q.x) + (p.y - q.y) * (p.y - q.y) : ℚ) : ℝ) : ℝ) :
        EReal) :=
  rfl

/-! ## The scanning loops -/

theorem Scan.Extends.refl (l : List Point) (s : Scan) : Scan.Extends l s s :=
  Or.inl ⟨rfl, rfl, rfl⟩

theorem Scan.Extends.trans {l : List Point} {a b c : Scan}
    (h1 : Scan.Extends l a b) (h2 : Scan.Extends l b c) : Scan.Extends l a c := by
  rcases h1 with ⟨e1, e2, e3⟩ | ⟨lt1, d1, s1⟩
  · rcases h2 with ⟨f1, f2, f3⟩ | ⟨lt2, d2, s2⟩
    · exact Or.inl ⟨f1.trans e1, f2.trans e2, f3.trans e3⟩
    · exact Or.inr ⟨e1 ▸ lt2, d2, s2⟩
  · rcases h2 with ⟨f1, f2, f3⟩ | ⟨lt2, d2, s2⟩
    · exact Or.inr ⟨f1 ▸ lt1, by rw [f1, f2, f3]; exact d1, by rw [f2, f3]; exact s1⟩
    · exact Or.inr ⟨lt2.trans lt1, d2, s2⟩

theorem Scan.Extends.mono {l l' : List Point} {a b : Scan} (hl : List.Sublist l l')
    (h : Scan.Extends l a b) : Scan.Extends l' a b := by
  rcases h with h | ⟨h1, h2, h3⟩
  · exact Or.inl h
  · exact Or.inr ⟨h1, h2, List.Sublist.trans h3 hl⟩

theorem Scan.Extends.le {l : List Point} {a b : Scan} (h : Scan.Extends l a b) :
    b.min_dist ≤ a.min_dist := by
  rcases h with ⟨h, _⟩ | ⟨h, _⟩
  · exact h.le
  · exact h.le

theorem scan_pair_comparisons (pi pj : Point) (s : Scan) :
    (scan_pair pi pj s).comparisons = s.comparisons + 1 := by
  simp only [scan_pair]
  split <;> rfl

theorem scan_pair_le_distance (pi pj : Point) (s : Scan) :
    (scan_pair pi pj s).min_dist ≤ distance pi pj := by
  simp only [scan_pair]
  split
  · exact le_refl _
  · rename_i h
    simp only [Bool.not_eq_true] at h
    exact (Dist.lt_eq_false_iff _ _).1 h

theorem scan_pair_extends (pi pj : Point) (s : Scan) :
    Scan.Extends [pi, pj] s (scan_pair pi pj s) := by
  simp only [scan_pair]
  split
  · rename_i h
    exact Or.inr ⟨(Dist.lt_iff _ _).1 h, rfl, List.Sublist.refl _⟩
  · exact Or.inl ⟨rfl, rfl, rfl⟩

/-! ### Brute force -/

theorem brute_force_inner_comparisons (pi : Point) (rest : List Point) (s : Scan) :
    (brute_force_inner pi rest s).comparisons = s.comparisons + rest.length := by
  induction rest generalizing s with
  | nil => simp [brute_force_inner]
  | cons pj rest ih =>
    simp only [brute_force_inner, ih, scan_pair_comparisons, List.length_cons]
    push_cast
    ring

theorem brute_force_inner_extends (pi : Point) (rest : List Point) (s : Scan) :
    Scan.Extends (pi :: rest) s (brute_force_inner pi rest s) := by
  induction rest generalizing s with
  | nil => exact Scan.Extends.refl _ _
  | cons pj rest ih =>
    simp only [brute_force_inner]
    refine Scan.Extends.trans ((scan_pair_extends pi pj s).mono ?_) ((ih _).mono ?_)
    · exact (List.cons_sublist_cons).2 (List.singleton_sublist.2 (List.mem_cons_self pj rest))
    · exact (List.cons_sublist_cons).2 (List.sublist_cons_self pj rest)

theorem brute_force_inner_le_distance (pi : Point) (rest : List Point) (s : Scan) :
    ∀ pj ∈ rest, (brute_force_inner pi rest s).min_dist ≤ distance pi pj := by
  induction rest generalizing s with
  | nil => simp
  | cons pj rest ih =>
    intro q hq
    simp only [brute_force_inner]
    rcases List.mem_cons.1 hq with rfl | hq
    · exact ((brute_force_inner_extends pi rest _).le).trans (scan_pair_le_distance _ _ _)
    · exact ih _ q hq

theorem brute_force_outer_comparisons (l : List Point) (s : Scan) :
    (brute_force_outer l s).comparisons = s.comparisons + ((l.length * (l.length - 1) / 2 : ℕ) : Int) := by
  induction l generalizing s with
  | nil => simp [brute_force_outer]
  | cons pi rest ih =>
    simp only [brute_force_outer, ih, brute_force_inner_comparisons, List.length_cons,
      Nat.add_sub_cancel]
    have h : (rest.length + 1) * rest.length / 2 = rest.length + rest.length * (rest.length - 1) / 2 := by
      cases hn : rest.length with
      | zero => simp
      | succ k =>
        simp only [Nat.add_sub_cancel]
        have : (k + 1 + 1) * (k + 1) = 2 * (k + 1) + (k + 1) * k := by ring
        rw [this, Nat.mul_add_div (by norm_num)]
    rw [h]
    push_cast
    ring

theorem brute_force_outer_extends (l : List Point) (s : Scan) :
    Scan.Extends l s (brute_force_outer l s) := by
  induction l generalizing s with
  | nil => exact Scan.Extends.refl _ _
  | cons pi rest ih =>
    simp only [brute_force_outer]
    exact (brute_force_inner_extends pi rest s).trans ((ih _).mono (List.sublist_cons_self _ _))

theorem brute_force_outer_pairwise (l : List Point) (s : Scan) :
    l.Pairwise (fun a b => (brute_force_outer l s).min_dist ≤ distance a b) := by
  induction l generalizing s with
  | nil => exact List.Pairwise.nil
  | cons pi rest ih =>
    simp only [brute_force_outer]
    refine List.Pairwise.cons ?_ (ih _)
    intro q hq
    exact ((brute_force_outer_extends rest _).le).trans (brute_force_inner_le_distance pi rest s q hq)

/-! ### Comparators and sorting -/

theorem compare_x_eq_false_iff (a b : Point) :
    compare_x a b = false ↔ b.x < a.x ∨ (b.x = a.x ∧ b.y ≤ a.y) := by
  unfold compare_x
  simp only [Bool.or_eq_false_iff, Bool.and_eq_false_iff, decide_eq_false_iff_not, not_lt]
  constructor
  · rintro ⟨h1, h2⟩
    rcases h1.lt_or_eq with h | h
    · exact Or.inl h
    · rcases h2 with h2 | h2
      · exact absurd h.symm h2
      · exact Or.inr ⟨h, h2⟩
  · rintro (h | ⟨h1, h2⟩)
    · exact ⟨h.le, Or.inl (ne_of_gt h)⟩
    · exact ⟨h1.le, Or.inr h2⟩

theorem compare_y_eq_false_iff (a b : Point) :
    compare_y a b = false ↔ b.y < a.y ∨ (b.y = a.y ∧ b.x ≤ a.x) := by
  unfold compare_y
  simp only [Bool.or_eq_false_iff, Bool.and_eq_false_iff, decide_eq_false_iff_not, not_lt]
  constructor
  · rintro ⟨h1, h2⟩
    rcases h1.lt_or_eq with h | h
    · exact Or.inl h
    · rcases h2 with h2 | h2
      · exact absurd h.symm h2
      · exact Or.inr ⟨h, h2⟩
  · rintro (h | ⟨h1, h2⟩)
    · exact ⟨h.le, Or.inl (ne_of_gt h)⟩
    · exact ⟨h1.le, Or.inr h2⟩

theorem left_of_eq_compare_x (mid_point p : Point) : left_of mid_point p = compare_x p mid_point :=
  rfl

theorem compare_x_total : IsTotal Point (fun a b => compare_x b a = false) :=
  ⟨fun a b => by
    simp only [compare_x_eq_false_iff]
    rcases lt_trichotomy a.x b.x with h | h | h
    · exact Or.inl (Or.inl h)
    · rcases le_total a.y b.y with h2 | h2
      · exact Or.inl (Or.inr ⟨h, h2⟩)
      · exact Or.inr (Or.inr ⟨h.symm, h2⟩)
    · exact Or.inr (Or.inl h)⟩

theorem compare_x_trans : IsTrans Point (fun a b => compare_x b a = false) :=
  ⟨fun a b c => by
    simp only [compare_x_eq_false_iff]
    rintro (h1 | ⟨h1, h1y⟩) (h2 | ⟨h2, h2y⟩)
    · exact Or.inl (h1.trans h2)
    · exact Or.inl (h2 ▸ h1)
    · exact Or.inl (h1 ▸ h2)
    · exact Or.inr ⟨h1.trans h2, h1y.trans h2y⟩⟩

theorem compare_y_total : IsTotal Point (fun a b => compare_y b a = false) :=
  ⟨fun a b => by
    simp only [compare_y_eq_false_iff]
    rcases lt_trichotomy a.y b.y with h | h | h
    · exact Or.inl (Or.inl h)
    · rcases le_total a.x b.x with h2 | h2
      · exact Or.inl (Or.inr ⟨h, h2⟩)
      · exact Or.inr (Or.inr ⟨h.symm, h2⟩)
    · exact Or.inr (Or.inl h)⟩

theorem compare_y_trans : IsTrans Point (fun a b => compare_y b a = false) :=
  ⟨fun a b c => by
    simp only [compare_y_eq_false_iff]
    rintro (h1 | ⟨h1, h1y⟩) (h2 | ⟨h2, h2y⟩)
    · exact Or.inl (h1.trans h2)
    · exact Or.inl (h2 ▸ h1)
    · exact Or.inl (h1 ▸ h2)
    · exact Or.inr ⟨h1.trans h2, h1y.trans h2y⟩⟩

theorem std_sort_perm (comp : Point → Point → Bool) (v : List Point) :
    (std_sort comp v).Perm v :=
  List.perm_insertionSort _ v

theorem std_sort_length (comp : Point → Point → Bool) (v : List Point) :
    (std_sort comp v).length = v.length :=
  (std_sort_perm comp v).length_eq

theorem std_sort_compare_x_sorted (v : List Point) :
    (std_sort compare_x v).Pairwise (fun a b => compare_x b a = false) :=
  haveI := compare_x_total
  haveI := compare_x_trans
  List.sorted_insertionSort (fun a b => compare_x b a = false) v

theorem std_sort_compare_y_sorted (v : List Point) :
    (std_sort compare_y v).Pairwise (fun a b => compare_y b a = false) :=
  haveI := compare_y_total
  haveI := compare_y_trans
  List.sorted_insertionSort (fun a b => compare_y b a = false) v

/-! ### The strip scan -/

theorem strip_inner_extends (pi : Point) (rest : List Point) (s : Scan) :
    Scan.Extends (pi :: rest) s (strip_inner pi rest s) := by
  induction rest generalizing s with
  | nil => exact Scan.Extends.refl _ _
  | cons pj rest ih =>
    simp only [strip_inner]
    split
    · refine Scan.Extends.trans ((scan_pair_extends pi pj s).mono ?_) ((ih _).mono ?_)
      · exact (List.cons_sublist_cons).2 (List.singleton_sublist.2 (List.mem_cons_self pj rest))
      · exact (List.cons_sublist_cons).2 (List.sublist_cons_self pj rest)
    · exact Scan.Extends.refl _ _

theorem strip_inner_comparisons (pi : Point) (rest : List Point) (s : Scan) :
    s.comparisons ≤ (strip_inner pi rest s).comparisons := by
  induction rest generalizing s with
  | nil => exact le_refl _
  | cons pj rest ih =>
    simp only [strip_inner]
    split
    · refine le_trans ?_ (ih _)
      rw [scan_pair_comparisons]
      omega
    · exact le_refl _

/-- The cut-off of the inner strip loop loses nothing: once
`strip[j].y - strip[i].y < min_dist` fails, every later point of the
`y`-sorted strip is at distance at least `min_dist` from `strip[i]`. -/
theorem strip_inner_le_distance (pi : Point) (rest : List Point) (s : Scan)
    (hpi : ∀ q ∈ rest, pi.y ≤ q.y) (hs : rest.Pairwise (fun a b => a.y ≤ b.y)) :
    ∀ q ∈ rest, (strip_inner pi rest s).min_dist ≤ distance pi q := by
  induction rest generalizing s with
  | nil => simp
  | cons pj rest ih =>
    intro q hq
    simp only [strip_inner]
    have hs' := List.pairwise_cons.1 hs
    split
    · rcases List.mem_cons.1 hq with rfl | hq
      · exact ((strip_inner_extends pi rest _).le).trans (scan_pair_le_distance _ _ _)
      · exact ih _ (fun r hr => hpi r (List.mem_cons_of_mem _ hr)) hs'.2 q hq
    · rename_i hc
      simp only [Bool.not_eq_true] at hc
      obtain ⟨t, ht, h0, hle⟩ := (Dist.rat_lt_eq_false_iff _ _).1 hc
      have hqy : pj.y ≤ q.y := by
        rcases List.mem_cons.1 hq with rfl | hq
        · exact le_refl _
        · exact hs'.1 q hq
      rw [ht, distance, Dist.root_le_root]
      simp only [dist_sq]
      nlinarith [mul_self_nonneg (pi.x - q.x), mul_nonneg h0 (sub_nonneg.2 hqy),
        mul_nonneg (sub_nonneg.2 hqy) (sub_nonneg.2 hqy)]

theorem strip_outer_extends (l : List Point) (s : Scan) :
    Scan.Extends l s (strip_outer l s) := by
  induction l generalizing s with
  | nil => exact Scan.Extends.refl _ _
  | cons pi rest ih =>
    simp only [strip_outer]
    exact (strip_inner_extends pi rest s).trans ((ih _).mono (List.sublist_cons_self _ _))

theorem strip_outer_comparisons (l : List Point) (s : Scan) :
    s.comparisons ≤ (strip_outer l s).comparisons := by
  induction l generalizing s with
  | nil => exact le_refl _
  | cons pi rest ih =>
    simp only [strip_outer]
    exact (strip_inner_comparisons pi rest s).trans (ih _)

theorem strip_outer_pairwise (l : List Point) (s : Scan)
    (hs : l.Pairwise (fun a b => a.y ≤ b.y)) :
    l.Pairwise (fun a b => (strip_outer l s).min_dist ≤ distance a b) := by
  induction l generalizing s with
  | nil => exact List.Pairwise.nil
  | cons pi rest ih =>
    simp only [strip_outer]
    have hs' := List.pairwise_cons.1 hs
    refine List.Pairwise.cons ?_ (ih _ hs'.2)
    intro q hq
    exact ((strip_outer_extends rest _).le).trans
      (strip_inner_le_distance pi rest s hs'.1 hs'.2 q hq)

theorem sorted_y_of_compare_y {l : List Point}
    (h : l.Pairwise (fun a b => compare_y b a = false)) : l.Pairwise (fun a b => a.y ≤ b.y) := by
  refine h.imp ?_
  intro a b hab
  rcases (compare_y_eq_false_iff b a).1 hab with h1 | ⟨h1, _⟩
  · exact h1.le
  · exact h1.le

theorem pairwise_distance_perm {d : Dist} {l l' : List Point} (hp : l.Perm l')
    (h : l.Pairwise (fun a b => d ≤ distance a b)) : l'.Pairwise (fun a b => d ≤ distance a b) :=
  (hp.pairwise_iff (fun {a b} hab => by rw [distance_comm]; exact hab)).1 h

/-- A bound on all pairs of a list bounds every two elements taken from two
different positions of it. -/
theorem pairwise_distance_subperm {d : Dist} {l : List Point} {a b : Point}
    (h : l.Pairwise (fun a b => d ≤ distance a b)) (hab : List.Subperm [a, b] l) :
    d ≤ distance a b := by
  obtain ⟨l', hp, hs⟩ := hab
  have h1 := pairwise_distance_perm hp (h.sublist hs)
  exact (List.pairwise_cons.1 h1).1 b (List.mem_singleton_self b)

theorem find_strip_closest_extends (strip : List Point) (delta : Dist) (c : Int) :
    (find_strip_closest strip delta c).1.distance = delta ∨
    ((find_strip_closest strip delta c).1.distance < delta ∧
      (find_strip_closest strip delta c).1.distance =
        distance (find_strip_closest strip delta c).1.p1 (find_strip_closest strip delta c).1.p2 ∧
      List.Subperm [(find_strip_closest strip delta c).1.p1, (find_strip_closest strip delta c).1.p2]
        strip) := by
  simp only [find_strip_closest]
  rcases strip_outer_extends (std_sort compare_y strip)
    { min_dist := delta, p1 := default, p2 := default, comparisons := c } with h | ⟨h1, h2, h3⟩
  · exact Or.inl h.1
  · exact Or.inr ⟨h1, h2, h3.subperm.trans (std_sort_perm _ _).subperm⟩

theorem find_strip_closest_le (strip : List Point) (delta : Dist) (c : Int) :
    (find_strip_closest strip delta c).1.distance ≤ delta := by
  rcases find_strip_closest_extends strip delta c with h | h
  · exact h.le
  · exact h.1.le

theorem find_strip_closest_pairwise (strip : List Point) (delta : Dist) (c : Int) :
    strip.Pairwise (fun a b => (find_strip_closest strip delta c).1.distance ≤ distance a b) := by
  simp only [find_strip_closest]
  exact pairwise_distance_perm (std_sort_perm compare_y strip)
    (strip_outer_pairwise _ _ (sorted_y_of_compare_y (std_sort_compare_y_sorted strip)))

theorem find_strip_closest_comparisons (strip : List Point) (delta : Dist) (c : Int) :
    c ≤ (find_strip_closest strip delta c).2 := by
  simp only [find_strip_closest]
  exact strip_outer_comparisons _ _

/-! ### Brute force on a vector -/

theorem brute_force_impl_comparisons (l : List Point) (c : Int) :
    (brute_force_closest_pair_impl l c).2 = c + ((l.length * (l.length - 1) / 2 : ℕ) : Int) := by
  simp only [brute_force_closest_pair_impl, brute_force_outer_comparisons]

theorem brute_force_impl_pairwise (l : List Point) (c : Int) :
    l.Pairwise (fun a b => (brute_force_closest_pair_impl l c).1.distance ≤ distance a b) := by
  simp only [brute_force_closest_pair_impl]
  exact brute_force_outer_pairwise _ _

theorem brute_force_impl_found (l : List Point) (c : Int) (hl : 2 ≤ l.length) :
    (brute_force_closest_pair_impl l c).1.distance =
        distance (brute_force_closest_pair_impl l c).1.p1 (brute_force_closest_pair_impl l c).1.p2 ∧
      List.Sublist [(brute_force_closest_pair_impl l c).1.p1,
        (brute_force_closest_pair_impl l c).1.p2] l := by
  have hp := brute_force_impl_pairwise l c
  simp only [brute_force_closest_pair_impl] at hp ⊢
  rcases brute_force_outer_extends l
    { min_dist := Dist.inf, p1 := default, p2 := default, comparisons := c } with h | ⟨_, h2, h3⟩
  · exfalso
    match l, hl with
    | a :: b :: rest, _ =>
      have h1 := (List.pairwise_cons.1 hp).1 b (List.mem_cons_self b rest)
      rw [h.1] at h1
      exact distance_ne_inf a b ((Dist.inf_le_iff _).1 h1)
  · exact ⟨h2, h3⟩

/-! ### Positions -/

theorem sublist_pair_positions {l : List Point} {a b : Point} (h : List.Sublist [a, b] l) :
    ∃ (i j : ℕ) (_ : i < j) (hj : j < l.length), l[i] = a ∧ l[j] = b := by
  induction l with
  | nil => simp at h
  | cons c rest ih =>
    rcases List.sublist_cons_iff.1 h with h | ⟨r, hr, hsub⟩
    · obtain ⟨i, j, hij, hj, hi1, hj1⟩ := ih h
      exact ⟨i + 1, j + 1, by omega, by simp only [List.length_cons]; omega, by simpa using hi1,
        by simpa using hj1⟩
    · simp only [List.cons.injEq] at hr
      obtain ⟨rfl, rfl⟩ := hr
      obtain ⟨k, hk, hkb⟩ := List.mem_iff_getElem.1 (List.singleton_sublist.1 hsub)
      exact ⟨0, k + 1, by omega, by simp only [List.length_cons]; omega, by simp, by simpa using hkb⟩

theorem perm_pair {a b c d : Point} (h : List.Perm [c, d] [a, b]) :
    (c = a ∧ d = b) ∨ (c = b ∧ d = a) := by
  have hc : c ∈ [a, b] := h.subset (List.mem_cons_self _ _)
  simp only [List.mem_cons, List.mem_singleton, List.not_mem_nil, or_false] at hc
  rcases hc with rfl | rfl
  · exact Or.inl ⟨rfl, by simpa using (List.perm_cons _).1 h⟩
  · have h2 := (List.perm_cons _).1 (h.trans (List.Perm.swap _ _ _))
    exact Or.inr ⟨rfl, by simpa using h2⟩

theorem subperm_pair_positions {l : List Point} {a b : Point} (h : List.Subperm [a, b] l) :
    ∃ (i j : ℕ) (hi : i < l.length) (hj : j < l.length), i ≠ j ∧ l[i] = a ∧ l[j] = b := by
  obtain ⟨l', hp, hs⟩ := h
  have hlen : l'.length = 2 := hp.length_eq
  match l', hlen with
  | [c, d], _ =>
    obtain ⟨i, j, hij, hj, hi1, hj1⟩ := sublist_pair_positions hs
    rcases perm_pair hp with ⟨rfl, rfl⟩ | ⟨rfl, rfl⟩
    · exact ⟨i, j, by omega, hj, by omega, hi1, hj1⟩
    · exact ⟨j, i, hj, by omega, by omega, hj1, hi1⟩

/-- Two elements from two different positions realise a distance that is
also realised at an increasing pair of positions. -/
theorem subperm_pair_distance {l : List Point} {a b : Point} (h : List.Subperm [a, b] l) :
    ∃ (i j : ℕ) (_ : i < j) (hj : j < l.length), distance a b = distance l[i] l[j] := by
  obtain ⟨i, j, hi, hj, hij, rfl, rfl⟩ := subperm_pair_positions h
  rcases Nat.lt_or_gt_of_ne hij with h1 | h1
  · exact ⟨i, j, h1, hj, rfl⟩
  · exact ⟨j, i, h1, hi, distance_comm _ _⟩

/-! ### The combine step -/

theorem combine_cases (py : List Point) (m : Point) (l r : ClosestPairResult) (c : Int) :
    (combine py m l r c).1 = l ∨ (combine py m l r c).1 = r ∨
    ((combine py m l r c).1.distance =
        distance (combine py m l r c).1.p1 (combine py m l r c).1.p2 ∧
      List.Subperm [(combine py m l r c).1.p1, (combine py m l r c).1.p2] py) := by
  unfold combine
  simp only []
  generalize hbest : (if Dist.lt l.distance r.distance = true then l else r) = best
  have hb : best = l ∨ best = r := by
    rw [← hbest]
    split
    · exact Or.inl rfl
    · exact Or.inr rfl
  split
  · split
    · rename_i h2
      rcases find_strip_closest_extends (List.filter (in_strip m best.distance) py)
        best.distance c with h | ⟨_, h4, h5⟩
      · exfalso
        rw [Dist.lt_iff, h] at h2
        exact lt_irrefl _ h2
      · exact Or.inr (Or.inr ⟨h4, h5.trans (List.filter_sublist _).subperm⟩)
    · rcases hb with h | h
      · exact Or.inl h
      · exact Or.inr (Or.inl h)
  · rcases hb with h | h
    · exact Or.inl h
    · exact Or.inr (Or.inl h)

theorem combine_le (py : List Point) (m : Point) (l r : ClosestPairResult) (c : Int) :
    (combine py m l r c).1.distance ≤ l.distance ∧
    (combine py m l r c).1.distance ≤ r.distance := by
  unfold combine
  simp only []
  generalize hbest : (if Dist.lt l.distance r.distance = true then l else r) = best
  have hb : best.distance ≤ l.distance ∧ best.distance ≤ r.distance := by
    rw [← hbest]
    split
    · rename_i h
      exact ⟨le_refl _, ((Dist.lt_iff _ _).1 h).le⟩
    · rename_i h
      simp only [Bool.not_eq_true] at h
      exact ⟨(Dist.lt_eq_false_iff _ _).1 h, le_refl _⟩
  split
  · split
    · rename_i h2
      have h3 := ((Dist.lt_iff _ _).1 h2).le
      exact ⟨h3.trans hb.1, h3.trans hb.2⟩
    · exact hb
  · exact hb

theorem combine_comparisons (py : List Point) (m : Point) (l r : ClosestPairResult) (c : Int) :
    c ≤ (combine py m l r c).2 := by
  unfold combine
  simp only []
  generalize (if Dist.lt l.distance r.distance = true then l else r) = best
  split
  · split
    · exact find_strip_closest_comparisons _ _ _
    · exact find_strip_closest_comparisons _ _ _
  · exact le_refl _

/-- A point whose `x`-distance to the dividing line is at most a distance
that is below `delta` passes the strip test. -/
theorem in_strip_of_lt (m p : Point) (delta : Dist) (t : ℚ)
    (h1 : (p.x - m.x) * (p.x - m.x) ≤ t) (h2 : Dist.root t < delta) :
    in_strip m delta p = true := by
  unfold in_strip
  apply Dist.rat_lt_of_sq_lt
  rw [abs_mul_abs_self]
  exact lt_of_le_of_lt ((Dist.root_le_root _ _).2 h1) h2

/-- The combine step accounts for every pair across the dividing line: two
points from two different positions of `points_y`, one on each side of the line
`x = mid_point.x`, are at least as far apart as the returned distance. -/
theorem combine_cross (py : List Point) (m : Point) (l r : ClosestPairResult) (c : Int)
    (a b : Point) (hab : List.Subperm [a, b] py) (ha : a.x ≤ m.x) (hb : m.x ≤ b.x) :
    (combine py m l r c).1.distance ≤ distance a b := by
  unfold combine
  simp only []
  generalize (if Dist.lt l.distance r.distance = true then l else r) = best
  by_cases hd : best.distance ≤ distance a b
  · split
    · split
      · rename_i h2
        exact (((Dist.lt_iff _ _).1 h2).le).trans hd
      · exact hd
    · exact hd
  · have hlt : distance a b < best.distance := not_le.1 hd
    have hia : in_strip m best.distance a = true := by
      refine in_strip_of_lt m a _ (dist_sq a b) ?_ hlt
      simp only [dist_sq]
      nlinarith [mul_self_nonneg (a.y - b.y), mul_nonneg (sub_nonneg.2 ha) (sub_nonneg.2 hb),
        mul_nonneg (sub_nonneg.2 hb) (sub_nonneg.2 hb)]
    have hib : in_strip m best.distance b = true := by
      refine in_strip_of_lt m b _ (dist_sq a b) ?_ hlt
      simp only [dist_sq]
      nlinarith [mul_self_nonneg (a.y - b.y), mul_nonneg (sub_nonneg.2 ha) (sub_nonneg.2 hb),
        mul_nonneg (sub_nonneg.2 ha) (sub_nonneg.2 ha)]
    have hsub : List.Subperm [a, b] (List.filter (in_strip m best.distance) py) := by
      have h := hab.filter (in_strip m best.distance)
      simpa [List.filter_cons, hia, hib] using h
    have hbound := pairwise_distance_subperm
      (find_strip_closest_pairwise (List.filter (in_strip m best.distance) py) best.distance c) hsub
    have hne : (List.filter (in_strip m best.distance) py).isEmpty = false := by
      cases hf : List.filter (in_strip m best.distance) py with
      | nil => rw [hf] at hsub; simpa using hsub.length_le
      | cons _ _ => rfl
    simp only [hne, Bool.not_false, if_true]
    split
    · exact hbound
    · exact absurd (hbound.trans_lt hlt) (by
        rename_i h2
        simp only [Bool.not_eq_true] at h2
        exact not_lt.2 ((Dist.lt_eq_false_iff _ _).1 h2))

/-! ### The recursion -/

theorem closest_pair_recursive_base (px py : List Point) (c : Int) (h : px.length ≤ 3) :
    closest_pair_recursive px py c = brute_force_closest_pair_impl px c := by
  rw [closest_pair_recursive]
  simp only [h, dif_pos]

theorem closest_pair_recursive_step (px py : List Point) (c : Int) (h : ¬ px.length ≤ 3) :
    closest_pair_recursive px py c =
      combine py (px.get ⟨px.length / 2, by omega⟩)
        (closest_pair_recursive (px.take (px.length / 2))
          (py.filter (fun p => left_of (px.get ⟨px.length / 2, by omega⟩) p)) c).1
        (closest_pair_recursive (px.drop (px.length / 2))
          (py.filter (fun p => !left_of (px.get ⟨px.length / 2, by omega⟩) p))
          (closest_pair_recursive (px.take (px.length / 2))
            (py.filter (fun p => left_of (px.get ⟨px.length / 2, by omega⟩) p)) c).2).1
        (closest_pair_recursive (px.drop (px.length / 2))
          (py.filter (fun p => !left_of (px.get ⟨px.length / 2, by omega⟩) p))
          (closest_pair_recursive (px.take (px.length / 2))
            (py.filter (fun p => left_of (px.get ⟨px.length / 2, by omega⟩) p)) c).2).2 := by
  rw [closest_pair_recursive]
  simp only [h, dif_neg, not_false_eq_true]

/-- Every result of the recursion on at least two points is a pair taken from
two different positions of the points it was given, at the returned distance;
the counter does not decrease. -/
theorem closest_pair_recursive_found (S : List Point) :
    ∀ (n : ℕ) (px py : List Point) (c : Int), px.length ≤ n → 2 ≤ px.length →
      List.Subperm px S → List.Subperm py S →
      (closest_pair_recursive px py c).1.distance =
          distance (closest_pair_recursive px py c).1.p1 (closest_pair_recursive px py c).1.p2 ∧
        List.Subperm [(closest_pair_recursive px py c).1.p1,
          (closest_pair_recursive px py c).1.p2] S ∧
        c ≤ (closest_pair_recursive px py c).2 := by
  intro n
  induction n with
  | zero =>
    intro px py c h1 h2
    omega
  | succ n ih =>
    intro px py c hn h2 hx hy
    by_cases hb : px.length ≤ 3
    · rw [closest_pair_recursive_base px py c hb]
      obtain ⟨h3, h4⟩ := brute_force_impl_found px c h2
      refine ⟨h3, h4.subperm.trans hx, ?_⟩
      rw [brute_force_impl_comparisons]
      omega
    · rw [closest_pair_recursive_step px py c hb]
      have hl := ih (px.take (px.length / 2))
        (py.filter (fun p => left_of (px.get ⟨px.length / 2, by omega⟩) p)) c
        (by rw [List.length_take]; omega) (by rw [List.length_take]; omega)
        ((List.take_sublist _ _).subperm.trans hx) ((List.filter_sublist _).subperm.trans hy)
      have hr := ih (px.drop (px.length / 2))
        (py.filter (fun p => !left_of (px.get ⟨px.length / 2, by omega⟩) p))
        (closest_pair_recursive (px.take (px.length / 2))
            (py.filter (fun p => left_of (px.get ⟨px.length / 2, by omega⟩) p)) c).2
        (by rw [List.length_drop]; omega) (by rw [List.length_drop]; omega)
        ((List.drop_sublist _ _).subperm.trans hx) ((List.filter_sublist _).subperm.trans hy)
      refine ⟨?_, ?_, ?_⟩
      · rcases combine_cases py (px.get ⟨px.length / 2, by omega⟩) _ _ _ with h | h | h
        · rw [h]; exact hl.1
        · rw [h]; exact hr.1
        · exact h.1
      · rcases combine_cases py (px.get ⟨px.length / 2, by omega⟩) _ _ _ with h | h | h
        · rw [h]; exact hl.2.1
        · rw [h]; exact hr.2.1
        · exact h.2.trans hy
      · exact (hl.2.2.trans hr.2.2).trans (combine_comparisons _ _ _ _ _)

theorem compare_x_self (a : Point) : compare_x a a = false := by
  simp [compare_x]

theorem coincide_of_compare_x {a b : Point} (h1 : compare_x a b = false)
    (h2 : compare_x b a = false) : a.x = b.x ∧ a.y = b.y := by
  rw [compare_x_eq_false_iff] at h1 h2
  rcases h1 with h1 | ⟨h1, h1y⟩
  · rcases h2 with h2 | ⟨h2, _⟩
    · exact absurd h1 (not_lt.2 h2.le)
    · exact absurd h1 (by rw [h2]; exact lt_irrefl _)
  · rcases h2 with h2 | ⟨_, h2y⟩
    · exact absurd h2 (by rw [h1]; exact lt_irrefl _)
    · exact ⟨h1.symm, le_antisymm h2y h1y⟩

theorem distance_eq_zero_of_coincide {a b : Point} (hx : a.x = b.x) (hy : a.y = b.y) :
    distance a b = Dist.root 0 := by
  simp [distance, dist_sq, hx, hy]

/-- On two views of the same points, the first sorted by `compare_x`, the
distance returned by the recursion is a lower bound for the distance of every
pair of positions. -/
theorem closest_pair_recursive_pairwise :
    ∀ (n : ℕ) (px py : List Point) (c : Int), px.length ≤ n → py.Perm px →
      px.Pairwise (fun a b => compare_x b a = false) →
      px.Pairwise (fun a b => (closest_pair_recursive px py c).1.distance ≤ distance a b) := by
  intro n
  induction n with
  | zero =>
    intro px py c hn _ _
    rw [closest_pair_recursive_base px py c (by omega)]
    exact brute_force_impl_pairwise px c
  | succ n ih =>
    intro px py c hn hperm hsort
    by_cases hb : px.length ≤ 3
    · rw [closest_pair_recursive_base px py c hb]
      exact brute_force_impl_pairwise px c
    · rw [closest_pair_recursive_step px py c hb]
      have hmid : px.length / 2 < px.length := by omega
      have hsplit : px.take (px.length / 2) ++ px.drop (px.length / 2) = px :=
        List.take_append_drop _ _
      have hdrop : px.drop (px.length / 2) =
          px.get ⟨px.length / 2, hmid⟩ :: px.drop (px.length / 2 + 1) := by
        rw [List.get_eq_getElem]
        exact List.drop_eq_getElem_cons hmid
      have hlt : (px.take (px.length / 2)).length ≤ n := by rw [List.length_take]; omega
      have hld : (px.drop (px.length / 2)).length ≤ n := by rw [List.length_drop]; omega
      generalize px.get ⟨px.length / 2, hmid⟩ = m at hdrop ⊢
      generalize px.take (px.length / 2) = tk at hsplit hlt ⊢
      generalize px.drop (px.length / 2) = dr at hsplit hld hdrop ⊢
      have hs : tk.Pairwise (fun a b => compare_x b a = false) ∧
          dr.Pairwise (fun a b => compare_x b a = false) ∧
          ∀ a ∈ tk, ∀ b ∈ dr, compare_x b a = false := by
        rw [← hsplit] at hsort
        exact List.pairwise_append.1 hsort
      have hm : m ∈ dr := by rw [hdrop]; exact List.mem_cons_self _ _
      have hta : ∀ a ∈ tk, compare_x m a = false := fun a ha => hs.2.2 a ha m hm
      have hdb : ∀ b ∈ dr, compare_x b m = false := by
        intro b hbd
        rw [hdrop] at hbd
        rcases List.mem_cons.1 hbd with rfl | hbd
        · exact compare_x_self _
        · have := hs.2.1
          rw [hdrop] at this
          exact (List.pairwise_cons.1 this).1 b hbd
      have hcross : ∀ (l r : ClosestPairResult) (c2 : Int), ∀ a ∈ tk, ∀ b ∈ dr,
          (combine py m l r c2).1.distance ≤ distance a b := by
        intro l r c2 a ha b hbd
        have hsub : List.Sublist [a, b] (tk ++ dr) :=
          List.Sublist.append (List.singleton_sublist.2 ha) (List.singleton_sublist.2 hbd)
        rw [hsplit] at hsub
        refine combine_cross py m l r c2 a b (hsub.subperm.trans hperm.symm.subperm) ?_ ?_
        · rcases (compare_x_eq_false_iff m a).1 (hta a ha) with h | ⟨h, _⟩
          · exact h.le
          · exact h.le
        · rcases (compare_x_eq_false_iff b m).1 (hdb b hbd) with h | ⟨h, _⟩
          · exact h.le
          · exact h.le
      by_cases hA : ∀ a ∈ tk, compare_x a m = true
      · have hfl : (py.filter (fun p => left_of m p)).Perm tk := by
          refine (hperm.filter _).trans ?_
          rw [← hsplit, List.filter_append]
          have h1 : tk.filter (fun p => left_of m p) = tk :=
            List.filter_eq_self.2 (fun a ha => by rw [left_of_eq_compare_x]; exact hA a ha)
          have h2 : dr.filter (fun p => left_of m p) = [] :=
            List.filter_eq_nil_iff.2 (fun b hbd => by
              rw [left_of_eq_compare_x, hdb b hbd]; simp)
          rw [h1, h2, List.append_nil]
        have hfr : (py.filter (fun p => !left_of m p)).Perm dr := by
          refine (hperm.filter _).trans ?_
          rw [← hsplit, List.filter_append]
          have h1 : tk.filter (fun p => !left_of m p) = [] :=
            List.filter_eq_nil_iff.2 (fun a ha => by
              rw [left_of_eq_compare_x, hA a ha]; simp)
          have h2 : dr.filter (fun p => !left_of m p) = dr :=
            List.filter_eq_self.2 (fun b hbd => by
              rw [left_of_eq_compare_x, hdb b hbd]; rfl)
          rw [h1, h2, List.nil_append]
        have hl := ih tk _ c hlt hfl hs.1
        have hr := ih dr _ (closest_pair_recursive tk
          (py.filter (fun p => left_of m p)) c).2 hld hfr hs.2.1
        have hle := combine_le py m
          (closest_pair_recursive tk (py.filter (fun p => left_of m p)) c).1
          (closest_pair_recursive dr (py.filter (fun p => !left_of m p))
            (closest_pair_recursive tk (py.filter (fun p => left_of m p)) c).2).1
          (closest_pair_recursive dr (py.filter (fun p => !left_of m p))
            (closest_pair_recursive tk (py.filter (fun p => left_of m p)) c).2).2
        have hgoal := List.pairwise_append.2
          ⟨hl.imp (fun h => hle.1.trans h), hr.imp (fun h => hle.2.trans h), hcross _ _ _⟩
        rw [hsplit] at hgoal
        exact hgoal
      · push_neg at hA
        obtain ⟨a, ha, hne⟩ := hA
        have hco := coincide_of_compare_x (Bool.eq_false_iff.2 hne) (hta a ha)
        have hzero := hcross
          (closest_pair_recursive tk (py.filter (fun p => left_of m p)) c).1
          (closest_pair_recursive dr (py.filter (fun p => !left_of m p))
            (closest_pair_recursive tk (py.filter (fun p => left_of m p)) c).2).1
          (closest_pair_recursive dr (py.filter (fun p => !left_of m p))
            (closest_pair_recursive tk (py.filter (fun p => left_of m p)) c).2).2 a ha m hm
        rw [distance_eq_zero_of_coincide hco.1 hco.2] at hzero
        exact List.pairwise_of_forall (fun a b => hzero.trans (zero_le_distance a b))

/-! ### The public functions -/

theorem brute_force_of_lt (e : ℚ) (l : List Point) (h : l.length < 2) :
    brute_force_closest_pair e l = sentinel := by
  simp only [brute_force_closest_pair, h, if_true]

theorem brute_force_of_ge (e : ℚ) (l : List Point) (h : 2 ≤ l.length) :
    brute_force_closest_pair e l =
      { (brute_force_closest_pair_impl l 0).1 with
        runtime_ms := e, comparisons := (brute_force_closest_pair_impl l 0).2 } := by
  simp only [brute_force_closest_pair, not_lt.2 h, if_false]

theorem divide_conquer_of_lt (e : ℚ) (l : List Point) (h : l.length < 2) :
    divide_conquer_closest_pair e l = sentinel := by
  simp only [divide_conquer_closest_pair, divide_conquer_closest_pair_state, h, if_true]

theorem divide_conquer_of_ge (e : ℚ) (l : List Point) (h : 2 ≤ l.length) :
    divide_conquer_closest_pair e l =
      { (closest_pair_recursive (std_sort compare_x l) (std_sort compare_y l) 0).1 with
        runtime_ms := e,
        comparisons := (closest_pair_recursive (std_sort compare_x l) (std_sort compare_y l) 0).2 } := by
  simp only [divide_conquer_closest_pair, divide_conquer_closest_pair_state, not_lt.2 h, if_false]

theorem brute_force_pairwise (e : ℚ) (l : List Point) (h : 2 ≤ l.length) :
    l.Pairwise (fun a b => (brute_force_closest_pair e l).distance ≤ distance a b) := by
  rw [brute_force_of_ge e l h]
  exact brute_force_impl_pairwise l 0

theorem brute_force_found (e : ℚ) (l : List Point) (h : 2 ≤ l.length) :
    (brute_force_closest_pair e l).distance =
        distance (brute_force_closest_pair e l).p1 (brute_force_closest_pair e l).p2 ∧
      List.Sublist [(brute_force_closest_pair e l).p1, (brute_force_closest_pair e l).p2] l := by
  rw [brute_force_of_ge e l h]
  exact brute_force_impl_found l 0 h

theorem divide_conquer_pairwise (e : ℚ) (l : List Point) (h : 2 ≤ l.length) :
    l.Pairwise (fun a b => (divide_conquer_closest_pair e l).distance ≤ distance a b) := by
  rw [divide_conquer_of_ge e l h]
  exact pairwise_distance_perm (std_sort_perm compare_x l)
    (closest_pair_recursive_pairwise _ _ _ 0 (le_refl _)
      ((std_sort_perm compare_y l).trans (std_sort_perm compare_x l).symm)
      (std_sort_compare_x_sorted l))

theorem divide_conquer_found (e : ℚ) (l : List Point) (h : 2 ≤ l.length) :
    (divide_conquer_closest_pair e l).distance =
        distance (divide_conquer_closest_pair e l).p1 (divide_conquer_closest_pair e l).p2 ∧
      List.Subperm [(divide_conquer_closest_pair e l).p1, (divide_conquer_closest_pair e l).p2] l ∧
      0 ≤ (divide_conquer_closest_pair e l).comparisons := by
  rw [divide_conquer_of_ge e l h]
  exact closest_pair_recursive_found l _ _ _ 0 (le_refl _) (by rw [std_sort_length]; exact h)
    (std_sort_perm compare_x l).subperm (std_sort_perm compare_y l).subperm

/-- The distance of a solver that bounds all pairs from below and is realised
by a pair is determined by the input. -/
theorem distance_unique {l : List Point} {d1 d2 : Dist} {a1 b1 a2 b2 : Point}
    (h1 : l.Pairwise (fun a b => d1 ≤ distance a b)) (e1 : d1 = distance a1 b1)
    (s1 : List.Subperm [a1, b1] l)
    (h2 : l.Pairwise (fun a b => d2 ≤ distance a b)) (e2 : d2 = distance a2 b2)
    (s2 : List.Subperm [a2, b2] l) : d1 = d2 :=
  le_antisymm (e2 ▸ pairwise_distance_subperm h1 s2) (e1 ▸ pairwise_distance_subperm h2 s1)

/-! ## The claims -/

/-- C1.  With exact arithmetic, `divide_conquer_closest_pair` and
`brute_force_closest_pair` return the same distance on every input; on an input
of at least two points that distance is the minimum of
`distance(points[i], points[j])` over all `i < j`: it is realised by such a pair
and no such pair is closer.  No assumption is made on repeated `x`-values,
`y`-values or points. -/
theorem divide_conquer_distance_eq_brute_force (e1 e2 : ℚ) (points : List Point) :
    (divide_conquer_closest_pair e1 points).distance =
        (brute_force_closest_pair e2 points).distance ∧
    (2 ≤ points.length →
      (∃ (i j : ℕ) (_ : i < j) (hj : j < points.length),
        (divide_conquer_closest_pair e1 points).distance = distance points[i] points[j]) ∧
      ∀ (i j : ℕ) (_ : i < j) (hj : j < points.length),
        (divide_conquer_closest_pair e1 points).distance ≤ distance points[i] points[j]) := by
  by_cases h : 2 ≤ points.length
  · have hd := divide_conquer_found e1 points h
    have hp := divide_conquer_pairwise e1 points h
    have hb := brute_force_found e2 points h
    refine ⟨distance_unique hp hd.1 hd.2.1 (brute_force_pairwise e2 points h) hb.1 hb.2.subperm,
      fun _ => ⟨?_, ?_⟩⟩
    · obtain ⟨i, j, hij, hj, hij2⟩ := subperm_pair_distance hd.2.1
      exact ⟨i, j, hij, hj, hd.1.trans hij2⟩
    · intro i j hij hj
      exact List.pairwise_iff_getElem.1 hp i j (by omega) hj hij
  · refine ⟨?_, fun h2 => absurd h2 h⟩
    rw [divide_conquer_of_lt e1 points (by omega), brute_force_of_lt e2 points (by omega)]

/-- C2.  On at least two points `brute_force_closest_pair` returns two input
elements `points[i]`, `points[j]` with `i < j` whose distance is the returned
distance, and the returned distance is the minimum over all pairs `i < j`: no
pair of input elements is strictly closer. -/
theorem brute_force_closest_pair_minimum (e : ℚ) (points : List Point)
    (h : 2 ≤ points.length) :
    (∃ (i j : ℕ) (_ : i < j) (hj : j < points.length),
      (brute_force_closest_pair e points).p1 = points[i] ∧
      (brute_force_closest_pair e points).p2 = points[j] ∧
      (brute_force_closest_pair e points).distance = distance points[i] points[j]) ∧
    ∀ (i j : ℕ) (_ : i < j) (hj : j < points.length),
      (brute_force_closest_pair e points).distance ≤ distance points[i] points[j] := by
  have hb := brute_force_found e points h
  refine ⟨?_, ?_⟩
  · obtain ⟨i, j, hij, hj, h1, h2⟩ := sublist_pair_positions hb.2
    exact ⟨i, j, hij, hj, h1.symm, h2.symm, by rw [h1, h2]; exact hb.1⟩
  · intro i j hij hj
    exact List.pairwise_iff_getElem.1 (brute_force_pairwise e points h) i j (by omega) hj hij

/-- Witness for C1: four points, two of them coincident. -/
theorem divide_conquer_distance_eq_brute_force_witness :
    2 ≤ ([⟨0, 0, 0⟩, ⟨3, 4, 1⟩, ⟨1, 1, 2⟩, ⟨3, 4, 3⟩] : List Point).length ∧
    (divide_conquer_closest_pair 0 [⟨0, 0, 0⟩, ⟨3, 4, 1⟩, ⟨1, 1, 2⟩, ⟨3, 4, 3⟩]).distance =
        (brute_force_closest_pair 0 [⟨0, 0, 0⟩, ⟨3, 4, 1⟩, ⟨1, 1, 2⟩, ⟨3, 4, 3⟩]).distance ∧
    ∃ (i j : ℕ) (_ : i < j)
      (hj : j < ([⟨0, 0, 0⟩, ⟨3, 4, 1⟩, ⟨1, 1, 2⟩, ⟨3, 4, 3⟩] : List Point).length),
      (divide_conquer_closest_pair 0 [⟨0, 0, 0⟩, ⟨3, 4, 1⟩, ⟨1, 1, 2⟩, ⟨3, 4, 3⟩]).distance =
        distance ([⟨0, 0, 0⟩, ⟨3, 4, 1⟩, ⟨1, 1, 2⟩, ⟨3, 4, 3⟩] : List Point)[i]
          ([⟨0, 0, 0⟩, ⟨3, 4, 1⟩, ⟨1, 1, 2⟩, ⟨3, 4, 3⟩] : List Point)[j] :=
  ⟨by decide, (divide_conquer_distance_eq_brute_force 0 0 _).1,
    ((divide_conquer_distance_eq_brute_force 0 0
      [⟨0, 0, 0⟩, ⟨3, 4, 1⟩, ⟨1, 1, 2⟩, ⟨3, 4, 3⟩]).2 (by decide)).1⟩

/-- Witness for C2: three points on a line. -/
theorem brute_force_closest_pair_minimum_witness :
    2 ≤ ([⟨0, 0, 0⟩, ⟨1, 0, 1⟩, ⟨3, 0, 2⟩] : List Point).length ∧
    ∃ (i j : ℕ) (_ : i < j)
      (hj : j < ([⟨0, 0, 0⟩, ⟨1, 0, 1⟩, ⟨3, 0, 2⟩] : List Point).length),
      (brute_force_closest_pair 0 [⟨0, 0, 0⟩, ⟨1, 0, 1⟩, ⟨3, 0, 2⟩]).p1 =
        ([⟨0, 0, 0⟩, ⟨1, 0, 1⟩, ⟨3, 0, 2⟩] : List Point)[i] ∧
      (brute_force_closest_pair 0 [⟨0, 0, 0⟩, ⟨1, 0, 1⟩, ⟨3, 0, 2⟩]).p2 =
        ([⟨0, 0, 0⟩, ⟨1, 0, 1⟩, ⟨3, 0, 2⟩] : List Point)[j] ∧
      (brute_force_closest_pair 0 [⟨0, 0, 0⟩, ⟨1, 0, 1⟩, ⟨3, 0, 2⟩]).distance =
        distance ([⟨0, 0, 0⟩, ⟨1, 0, 1⟩, ⟨3, 0, 2⟩] : List Point)[i]
          ([⟨0, 0, 0⟩, ⟨1, 0, 1⟩, ⟨3, 0, 2⟩] : List Point)[j] :=
  ⟨by decide,
    (brute_force_closest_pair_minimum 0 [⟨0, 0, 0⟩, ⟨1, 0, 1⟩, ⟨3, 0, 2⟩] (by decide)).1⟩

/-- C3.  On at least two points the result of `divide_conquer_closest_pair`
satisfies the result invariant: `p1` and `p2` are input elements from two
different positions, `distance` is `distance(p1, p2)`, `distance ≥ 0` and
`comparisons ≥ 0`.  On `(0,0), (3,4), (1,1), (100,100)` the pair is
`(0,0), (1,1)` at distance `√2`; on `(0,0), (2,0), (5,0), (5.5,0)` it is
`(5,0), (5.5,0)` at distance `0.5 = √(1/4)`. -/
theorem divide_conquer_result_invariant :
    (∀ (e : ℚ) (points : List Point), 2 ≤ points.length →
      (∃ (i j : ℕ) (hi : i < points.length) (hj : j < points.length), i ≠ j ∧
        (divide_conquer_closest_pair e points).p1 = points[i] ∧
        (divide_conquer_closest_pair e points).p2 = points[j]) ∧
      (divide_conquer_closest_pair e points).distance =
        distance (divide_conquer_closest_pair e points).p1
          (divide_conquer_closest_pair e points).p2 ∧
      Dist.root 0 ≤ (divide_conquer_closest_pair e points).distance ∧
      0 ≤ (divide_conquer_closest_pair e points).comparisons) ∧
    (∀ e : ℚ,
      (divide_conquer_closest_pair e [⟨0, 0, 0⟩, ⟨3, 4, 1⟩, ⟨1, 1, 2⟩, ⟨100, 100, 3⟩]).p1 =
        ⟨0, 0, 0⟩ ∧
      (divide_conquer_closest_pair e [⟨0, 0, 0⟩, ⟨3, 4, 1⟩, ⟨1, 1, 2⟩, ⟨100, 100, 3⟩]).p2 =
        ⟨1, 1, 2⟩ ∧
      (divide_conquer_closest_pair e [⟨0, 0, 0⟩, ⟨3, 4, 1⟩, ⟨1, 1, 2⟩, ⟨100, 100, 3⟩]).distance =
        Dist.root 2) ∧
    (∀ e : ℚ,
      (divide_conquer_closest_pair e [⟨0, 0, 0⟩, ⟨2, 0, 1⟩, ⟨5, 0, 2⟩, ⟨11 / 2, 0, 3⟩]).p1 =
        ⟨5, 0, 2⟩ ∧
      (divide_conquer_closest_pair e [⟨0, 0, 0⟩, ⟨2, 0, 1⟩, ⟨5, 0, 2⟩, ⟨11 / 2, 0, 3⟩]).p2 =
        ⟨11 / 2, 0, 3⟩ ∧
      (divide_conquer_closest_pair e [⟨0, 0, 0⟩, ⟨2, 0, 1⟩, ⟨5, 0, 2⟩, ⟨11 / 2, 0, 3⟩]).distance =
        Dist.root (1 / 4)) := by
  refine ⟨?_, ?_, ?_⟩
  · intro e points h
    have hd := divide_conquer_found e points h
    obtain ⟨i, j, hi, hj, hij, h1, h2⟩ := subperm_pair_positions hd.2.1
    refine ⟨⟨i, j, hi, hj, hij, h1.symm, h2.symm⟩, hd.1, ?_, hd.2.2⟩
    rw [hd.1]
    exact zero_le_distance _ _
  · intro e
    have h : closest_pair_recursive
        (std_sort compare_x [⟨0, 0, 0⟩, ⟨3, 4, 1⟩, ⟨1, 1, 2⟩, ⟨100, 100, 3⟩])
        (std_sort compare_y [⟨0, 0, 0⟩, ⟨3, 4, 1⟩, ⟨1, 1, 2⟩, ⟨100, 100, 3⟩]) 0 =
        (⟨⟨0, 0, 0⟩, ⟨1, 1, 2⟩, Dist.root 2, 0, 0⟩, 2) := by decide!
    rw [divide_conquer_of_ge e _ (by decide), h]
    exact ⟨rfl, rfl, rfl⟩
  · intro e
    have h : closest_pair_recursive
        (std_sort compare_x [⟨0, 0, 0⟩, ⟨2, 0, 1⟩, ⟨5, 0, 2⟩, ⟨11 / 2, 0, 3⟩])
        (std_sort compare_y [⟨0, 0, 0⟩, ⟨2, 0, 1⟩, ⟨5, 0, 2⟩, ⟨11 / 2, 0, 3⟩]) 0 =
        (⟨⟨5, 0, 2⟩, ⟨11 / 2, 0, 3⟩, Dist.root (1 / 4), 0, 0⟩, 2) := by decide!
    rw [divide_conquer_of_ge e _ (by decide), h]
    exact ⟨rfl, rfl, rfl⟩

/-- Witness for C3: the first scenario satisfies the invariant. -/
theorem divide_conquer_result_invariant_witness :
    2 ≤ ([⟨0, 0, 0⟩, ⟨3, 4, 1⟩, ⟨1, 1, 2⟩, ⟨100, 100, 3⟩] : List Point).length ∧
    (divide_conquer_closest_pair 0 [⟨0, 0, 0⟩, ⟨3, 4, 1⟩, ⟨1, 1, 2⟩, ⟨100, 100, 3⟩]).distance =
      distance
        (divide_conquer_closest_pair 0 [⟨0, 0, 0⟩, ⟨3, 4, 1⟩, ⟨1, 1, 2⟩, ⟨100, 100, 3⟩]).p1
        (divide_conquer_closest_pair 0 [⟨0, 0, 0⟩, ⟨3, 4, 1⟩, ⟨1, 1, 2⟩, ⟨100, 100, 3⟩]).p2 ∧
    0 ≤ (divide_conquer_closest_pair 0
      [⟨0, 0, 0⟩, ⟨3, 4, 1⟩, ⟨1, 1, 2⟩, ⟨100, 100, 3⟩]).comparisons :=
  ⟨by decide,
    (divide_conquer_result_invariant.1 0
      [⟨0, 0, 0⟩, ⟨3, 4, 1⟩, ⟨1, 1, 2⟩, ⟨100, 100, 3⟩] (by decide)).2.1,
    (divide_conquer_result_invariant.1 0
      [⟨0, 0, 0⟩, ⟨3, 4, 1⟩, ⟨1, 1, 2⟩, ⟨100, 100, 3⟩] (by decide)).2.2.2⟩

theorem cast_pairs (n : ℕ) : ((n * (n - 1) / 2 : ℕ) : Int) = (n : Int) * ((n : Int) - 1) / 2 := by
  cases n with
  | zero => simp
  | succ k =>
    simp only [Nat.add_sub_cancel]
    push_cast
    ring_nf

theorem brute_force_count (e : ℚ) (points : List Point) :
    (brute_force_closest_pair e points).comparisons =
      (points.length : Int) * ((points.length : Int) - 1) / 2 := by
  by_cases h : 2 ≤ points.length
  · rw [brute_force_of_ge e points h]
    simp only [brute_force_impl_comparisons, zero_add]
    exact cast_pairs _
  · rw [brute_force_of_lt e points (by omega)]
    have h2 : points.length = 0 ∨ points.length = 1 := by omega
    rcases h2 with h2 | h2 <;> simp [h2, sentinel]

/-- C4.  For every input length `n`, `brute_force_closest_pair` returns
`comparisons = n * (n - 1) / 2`; this is `0` for `n = 0` and for `n = 1`. -/
theorem brute_force_comparisons_formula (e : ℚ) (points : List Point) :
    (brute_force_closest_pair e points).comparisons =
        (points.length : Int) * ((points.length : Int) - 1) / 2 ∧
    (points.length = 0 ∨ points.length = 1 →
      (brute_force_closest_pair e points).comparisons = 0) := by
  refine ⟨brute_force_count e points, fun h => ?_⟩
  rw [brute_force_count]
  rcases h with h | h <;> simp [h]

/-- Witness for C4: the empty input and a single point. -/
theorem brute_force_comparisons_formula_witness :
    (brute_force_closest_pair 0 []).comparisons = 0 ∧
    (brute_force_closest_pair 0 [⟨1, 2, 0⟩]).comparisons = 0 :=
  ⟨(brute_force_comparisons_formula 0 []).2 (Or.inl rfl),
    (brute_force_comparisons_formula 0 [⟨1, 2, 0⟩]).2 (Or.inr rfl)⟩

theorem distance_finite (p q : Point) : ∃ s : ℚ, 0 ≤ s ∧ distance p q = Dist.root s :=
  ⟨dist_sq p q, dist_sq_nonneg p q, rfl⟩

/-- C5.  On fewer than two points both solvers return the sentinel result,
with `distance = +∞`, `comparisons = 0` and `runtime_ms = 0`: no recursion and no
distance evaluation takes place.  On at least two points both return a finite
distance (the square root of a non-negative rational). -/
theorem small_input_sentinel (e : ℚ) (points : List Point) :
    (points.length < 2 →
      divide_conquer_closest_pair e points = sentinel ∧
      brute_force_closest_pair e points = sentinel ∧
      sentinel.distance = Dist.inf ∧ sentinel.comparisons = 0 ∧ sentinel.runtime_ms = 0) ∧
    (2 ≤ points.length →
      (∃ s : ℚ, 0 ≤ s ∧ (divide_conquer_closest_pair e points).distance = Dist.root s) ∧
      (∃ s : ℚ, 0 ≤ s ∧ (brute_force_closest_pair e points).distance = Dist.root s)) := by
  refine ⟨fun h => ⟨divide_conquer_of_lt e points h, brute_force_of_lt e points h, rfl, rfl, rfl⟩,
    fun h => ⟨?_, ?_⟩⟩
  · rw [(divide_conquer_found e points h).1]
    exact distance_finite _ _
  · rw [(brute_force_found e points h).1]
    exact distance_finite _ _

/-- Witness for C5: a single point gives the sentinel, two points a finite
distance. -/
theorem small_input_sentinel_witness :
    (divide_conquer_closest_pair 7 [⟨1, 2, 0⟩] = sentinel ∧
      brute_force_closest_pair 7 [⟨1, 2, 0⟩] = sentinel) ∧
    ∃ s : ℚ, 0 ≤ s ∧
      (divide_conquer_closest_pair 7 [⟨1, 2, 0⟩, ⟨4, 6, 1⟩]).distance = Dist.root s :=
  ⟨⟨((small_input_sentinel 7 [⟨1, 2, 0⟩]).1 (by decide)).1,
      ((small_input_sentinel 7 [⟨1, 2, 0⟩]).1 (by decide)).2.1⟩,
    ((small_input_sentinel 7 [⟨1, 2, 0⟩, ⟨4, 6, 1⟩]).2 (by decide)).1⟩

/-- C6.  If the input holds two elements at different positions with equal
`x` and equal `y` (whatever their ids, the other points and further copies),
`divide_conquer_closest_pair` returns distance `0`. -/
theorem divide_conquer_coincident (e : ℚ) (points : List Point) (i j : ℕ)
    (hi : i < points.length) (hj : j < points.length) (hij : i ≠ j)
    (hx : points[i].x = points[j].x) (hy : points[i].y = points[j].y) :
    (divide_conquer_closest_pair e points).distance = Dist.root 0 := by
  have h : 2 ≤ points.length := by omega
  have hd := divide_conquer_found e points h
  have hp := List.pairwise_iff_getElem.1 (divide_conquer_pairwise e points h)
  refine le_antisymm ?_ (by rw [hd.1]; exact zero_le_distance _ _)
  rcases Nat.lt_or_gt_of_ne hij with h1 | h1
  · have h2 := hp i j hi hj h1
    rwa [distance_eq_zero_of_coincide hx hy] at h2
  · have h2 := hp j i hj hi h1
    rwa [distance_eq_zero_of_coincide hx.symm hy.symm] at h2

/-- Witness for C6: two copies of `(5, 5)` with different ids among five
points. -/
theorem divide_conquer_coincident_witness :
    (divide_conquer_closest_pair 0
      [⟨1, 2, 0⟩, ⟨5, 5, 1⟩, ⟨7, 1, 2⟩, ⟨5, 5, 3⟩, ⟨9, 9, 4⟩]).distance = Dist.root 0 :=
  divide_conquer_coincident 0 [⟨1, 2, 0⟩, ⟨5, 5, 1⟩, ⟨7, 1, 2⟩, ⟨5, 5, 3⟩, ⟨9, 9, 4⟩] 1 3
    (by decide) (by decide) (by decide) rfl rfl

theorem brute_force_two (e : ℚ) (a b : Point) :
    (brute_force_closest_pair e [a, b]).distance = distance a b ∧
    (brute_force_closest_pair e [a, b]).comparisons = 1 := by
  simp [brute_force_closest_pair, brute_force_closest_pair_impl, brute_force_outer,
    brute_force_inner, scan_pair, distance, Dist.lt]

theorem divide_conquer_small (e : ℚ) (points : List Point)
    (h : points.length = 2 ∨ points.length = 3) :
    divide_conquer_closest_pair e points =
      brute_force_closest_pair e (std_sort compare_x points) := by
  rw [divide_conquer_of_ge e points (by omega),
    brute_force_of_ge e _ (by rw [std_sort_length]; omega),
    closest_pair_recursive_base _ _ _ (by rw [std_sort_length]; omega)]

/-- C7.  On exactly two or three points `divide_conquer_closest_pair` returns
the brute-force result on the `x`-sorted copy of the input (same `p1`, `p2`,
`distance`, and `comparisons = n * (n - 1) / 2`).  On a two-point input
`[a, b]` both solvers return `distance(a, b)` and `comparisons = 1`; for
`(0,0), (5,12)` the distance is `13 = √169`. -/
theorem divide_conquer_base_case :
    (∀ (e : ℚ) (points : List Point), (points.length = 2 ∨ points.length = 3) →
      divide_conquer_closest_pair e points =
        brute_force_closest_pair e (std_sort compare_x points) ∧
      (divide_conquer_closest_pair e points).comparisons =
        (points.length : Int) * ((points.length : Int) - 1) / 2) ∧
    (∀ (e : ℚ) (a b : Point),
      (divide_conquer_closest_pair e [a, b]).distance = distance a b ∧
      (divide_conquer_closest_pair e [a, b]).comparisons = 1 ∧
      (brute_force_closest_pair e [a, b]).distance = distance a b ∧
      (brute_force_closest_pair e [a, b]).comparisons = 1) ∧
    (∀ e : ℚ,
      (divide_conquer_closest_pair e [⟨0, 0, 0⟩, ⟨5, 12, 1⟩]).distance = Dist.root 169 ∧
      (divide_conquer_closest_pair e [⟨0, 0, 0⟩, ⟨5, 12, 1⟩]).comparisons = 1 ∧
      (brute_force_closest_pair e [⟨0, 0, 0⟩, ⟨5, 12, 1⟩]).distance = Dist.root 169 ∧
      (brute_force_closest_pair e [⟨0, 0, 0⟩, ⟨5, 12, 1⟩]).comparisons = 1) := by
  have h1 : ∀ (e : ℚ) (points : List Point), (points.length = 2 ∨ points.length = 3) →
      divide_conquer_closest_pair e points =
        brute_force_closest_pair e (std_sort compare_x points) ∧
      (divide_conquer_closest_pair e points).comparisons =
        (points.length : Int) * ((points.length : Int) - 1) / 2 := by
    intro e points h
    refine ⟨divide_conquer_small e points h, ?_⟩
    rw [divide_conquer_small e points h, brute_force_count, std_sort_length]
  have h2 : ∀ (e : ℚ) (a b : Point),
      (divide_conquer_closest_pair e [a, b]).distance = distance a b ∧
      (divide_conquer_closest_pair e [a, b]).comparisons = 1 ∧
      (brute_force_closest_pair e [a, b]).distance = distance a b ∧
      (brute_force_closest_pair e [a, b]).comparisons = 1 := by
    intro e a b
    refine ⟨?_, ?_, (brute_force_two e a b).1, (brute_force_two e a b).2⟩
    · have hlen : (std_sort compare_x [a, b]).length = 2 := std_sort_length _ _
      have hperm := std_sort_perm compare_x [a, b]
      rw [divide_conquer_small e [a, b] (Or.inl rfl)]
      match hs : std_sort compare_x [a, b], hlen with
      | [c, d], _ =>
        rw [hs] at hperm
        rw [(brute_force_two e c d).1]
        rcases perm_pair hperm with ⟨rfl, rfl⟩ | ⟨rfl, rfl⟩
        · rfl
        · exact distance_comm _ _
    · rw [(h1 e [a, b] (Or.inl rfl)).2]
      simp
  refine ⟨h1, h2, fun e => ?_⟩
  have h3 := h2 e ⟨0, 0, 0⟩ ⟨5, 12, 1⟩
  have h4 : distance ⟨0, 0, 0⟩ ⟨5, 12, 1⟩ = Dist.root 169 := by decide!
  rw [h4] at h3
  exact h3

/-- Witness for C7: three points, the base case of the recursion. -/
theorem divide_conquer_base_case_witness :
    divide_conquer_closest_pair 0 [⟨3, 1, 0⟩, ⟨0, 0, 1⟩, ⟨1, 5, 2⟩] =
        brute_force_closest_pair 0 (std_sort compare_x [⟨3, 1, 0⟩, ⟨0, 0, 1⟩, ⟨1, 5, 2⟩]) ∧
    (divide_conquer_closest_pair 0 [⟨3, 1, 0⟩, ⟨0, 0, 1⟩, ⟨1, 5, 2⟩]).comparisons = 3 :=
  ⟨(divide_conquer_base_case.1 0 [⟨3, 1, 0⟩, ⟨0, 0, 1⟩, ⟨1, 5, 2⟩] (Or.inr rfl)).1,
    (divide_conquer_base_case.1 0 [⟨3, 1, 0⟩, ⟨0, 0, 1⟩, ⟨1, 5, 2⟩] (Or.inr rfl)).2⟩

/-- C8.  `divide_conquer_closest_pair` leaves the caller's vector as it was:
after the call it holds the same points in the same order (sorting is done on
the copies `points_x` and `points_y`), and the value returned is the one
computed from those copies. -/
theorem divide_conquer_preserves_points (e : ℚ) (points : List Point) :
    (divide_conquer_closest_pair_state e points).2 = points ∧
    (divide_conquer_closest_pair_state e points).1 = divide_conquer_closest_pair e points := by
  refine ⟨?_, rfl⟩
  unfold divide_conquer_closest_pair_state
  split <;> rfl

/-! ### Ids play no part in the computation -/

theorem erase_id_default : erase_id default = default := rfl

theorem distance_erase_id (a b : Point) : distance (erase_id a) (erase_id b) = distance a b :=
  rfl

theorem compare_x_erase_id (a b : Point) :
    compare_x (erase_id a) (erase_id b) = compare_x a b := rfl

theorem compare_y_erase_id (a b : Point) :
    compare_y (erase_id a) (erase_id b) = compare_y a b := rfl

theorem erase_id_eq_iff (a b : Point) : erase_id a = erase_id b ↔ a.x = b.x ∧ a.y = b.y := by
  cases a
  cases b
  simp [erase_id]

theorem scan_pair_erase_ids (pi pj : Point) (s : Scan) :
    scan_pair (erase_id pi) (erase_id pj) s.erase_ids = (scan_pair pi pj s).erase_ids := by
  simp only [scan_pair, distance_erase_id, Scan.erase_ids]
  split <;> rfl

theorem brute_force_inner_erase_ids (pi : Point) (rest : List Point) (s : Scan) :
    brute_force_inner (erase_id pi) (rest.map erase_id) s.erase_ids =
      (brute_force_inner pi rest s).erase_ids := by
  induction rest generalizing s with
  | nil => rfl
  | cons pj rest ih =>
    simp only [List.map_cons, brute_force_inner, scan_pair_erase_ids, ih]

theorem brute_force_outer_erase_ids (l : List Point) (s : Scan) :
    brute_force_outer (l.map erase_id) s.erase_ids = (brute_force_outer l s).erase_ids := by
  induction l generalizing s with
  | nil => rfl
  | cons pi rest ih =>
    simp only [List.map_cons, brute_force_outer, brute_force_inner_erase_ids, ih]

theorem strip_inner_erase_ids (pi : Point) (rest : List Point) (s : Scan) :
    strip_inner (erase_id pi) (rest.map erase_id) s.erase_ids =
      (strip_inner pi rest s).erase_ids := by
  induction rest generalizing s with
  | nil => rfl
  | cons pj rest ih =>
    simp only [List.map_cons, strip_inner, scan_pair_erase_ids, ih]
    have h : (erase_id pj).y - (erase_id pi).y = pj.y - pi.y := rfl
    have h2 : s.erase_ids.min_dist = s.min_dist := rfl
    rw [h, h2]
    split <;> rfl

theorem strip_outer_erase_ids (l : List Point) (s : Scan) :
    strip_outer (l.map erase_id) s.erase_ids = (strip_outer l s).erase_ids := by
  induction l generalizing s with
  | nil => rfl
  | cons pi rest ih =>
    simp only [List.map_cons, strip_outer, strip_inner_erase_ids, ih]

theorem std_sort_compare_x_erase_ids (l : List Point) :
    std_sort compare_x (l.map erase_id) = (std_sort compare_x l).map erase_id :=
  (List.map_insertionSort (fun a b => compare_x b a = false)
    (fun a b => compare_x b a = false) erase_id l (fun _ _ _ _ => Iff.rfl)).symm

theorem std_sort_compare_y_erase_ids (l : List Point) :
    std_sort compare_y (l.map erase_id) = (std_sort compare_y l).map erase_id :=
  (List.map_insertionSort (fun a b => compare_y b a = false)
    (fun a b => compare_y b a = false) erase_id l (fun _ _ _ _ => Iff.rfl)).symm

theorem brute_force_impl_erase_ids (l : List Point) (c : Int) :
    brute_force_closest_pair_impl (l.map erase_id) c =
      ((brute_force_closest_pair_impl l c).1.erase_ids, (brute_force_closest_pair_impl l c).2) := by
  have h := brute_force_outer_erase_ids l
    { min_dist := Dist.inf, p1 := default, p2 := default, comparisons := c }
  simp only [brute_force_closest_pair_impl]
  have h0 : ({ min_dist := Dist.inf, p1 := default, p2 := default, comparisons := c } : Scan) =
      Scan.erase_ids { min_dist := Dist.inf, p1 := default, p2 := default, comparisons := c } := rfl
  rw [h0, h]
  rfl

theorem find_strip_closest_erase_ids (strip : List Point) (delta : Dist) (c : Int) :
    find_strip_closest (strip.map erase_id) delta c =
      ((find_strip_closest strip delta c).1.erase_ids, (find_strip_closest strip delta c).2) := by
  have h := strip_outer_erase_ids (std_sort compare_y strip)
    { min_dist := delta, p1 := default, p2 := default, comparisons := c }
  simp only [find_strip_closest, std_sort_compare_y_erase_ids]
  have h0 : ({ min_dist := delta, p1 := default, p2 := default, comparisons := c } : Scan) =
      Scan.erase_ids { min_dist := delta, p1 := default, p2 := default, comparisons := c } := rfl
  rw [h0, h]
  rfl

theorem filter_map_erase_id (f g : Point → Bool) (hfg : ∀ p, f (erase_id p) = g p)
    (l : List Point) : (l.map erase_id).filter f = (l.filter g).map erase_id := by
  induction l with
  | nil => rfl
  | cons a l ih =>
    simp only [List.map_cons, List.filter_cons, hfg, ih]
    split <;> rfl

theorem combine_erase_ids (py : List Point) (m : Point) (l r : ClosestPairResult) (c : Int) :
    combine (py.map erase_id) (erase_id m) l.erase_ids r.erase_ids c =
      ((combine py m l r c).1.erase_ids, (combine py m l r c).2) := by
  unfold combine
  simp only []
  have hd : ∀ t : ClosestPairResult, t.erase_ids.distance = t.distance := fun _ => rfl
  rw [hd l, hd r]
  have hbest : (if Dist.lt l.distance r.distance = true then l.erase_ids else r.erase_ids) =
      (if Dist.lt l.distance r.distance = true then l else r).erase_ids := by
    split <;> rfl
  rw [hbest]
  generalize (if Dist.lt l.distance r.distance = true then l else r) = best
  rw [hd best, filter_map_erase_id (in_strip (erase_id m) best.distance)
    (in_strip m best.distance) (fun _ => rfl) py, find_strip_closest_erase_ids]
  have hE : ∀ L : List Point, (List.map erase_id L).isEmpty = L.isEmpty := fun L => by
    cases L <;> rfl
  rw [hE]
  simp only [hd]
  split_ifs <;> rfl

theorem closest_pair_recursive_step_getD (px py : List Point) (c : Int) (h : ¬ px.length ≤ 3) :
    closest_pair_recursive px py c =
      combine py (px.getD (px.length / 2) default)
        (closest_pair_recursive (px.take (px.length / 2))
          (py.filter (fun p => left_of (px.getD (px.length / 2) default) p)) c).1
        (closest_pair_recursive (px.drop (px.length / 2))
          (py.filter (fun p => !left_of (px.getD (px.length / 2) default) p))
          (closest_pair_recursive (px.take (px.length / 2))
            (py.filter (fun p => left_of (px.getD (px.length / 2) default) p)) c).2).1
        (closest_pair_recursive (px.drop (px.length / 2))
          (py.filter (fun p => !left_of (px.getD (px.length / 2) default) p))
          (closest_pair_recursive (px.take (px.length / 2))
            (py.filter (fun p => left_of (px.getD (px.length / 2) default) p)) c).2).2 := by
  rw [closest_pair_recursive_step px py c h]
  have hg : px.get ⟨px.length / 2, by omega⟩ = px.getD (px.length / 2) default := by
    rw [List.get_eq_getElem, List.getD_eq_getElem]
  rw [hg]

/-- Erasing the ids of the input erases the ids of the returned pair and
changes nothing else. -/
theorem closest_pair_recursive_erase_ids :
    ∀ (n : ℕ) (px py : List Point) (c : Int), px.length ≤ n →
      closest_pair_recursive (px.map erase_id) (py.map erase_id) c =
        ((closest_pair_recursive px py c).1.erase_ids, (closest_pair_recursive px py c).2) := by
  intro n
  induction n with
  | zero =>
    intro px py c hn
    rw [closest_pair_recursive_base _ _ _ (by rw [List.length_map]; omega),
      closest_pair_recursive_base px py c (by omega), brute_force_impl_erase_ids]
  | succ n ih =>
    intro px py c hn
    by_cases hb : px.length ≤ 3
    · rw [closest_pair_recursive_base _ _ _ (by rw [List.length_map]; exact hb),
        closest_pair_recursive_base px py c hb, brute_force_impl_erase_ids]
    · rw [closest_pair_recursive_step_getD _ _ _ (by rw [List.length_map]; exact hb),
        closest_pair_recursive_step_getD px py c hb]
      have hm : (px.map erase_id).getD ((px.map erase_id).length / 2) default =
          erase_id (px.getD (px.length / 2) default) := by
        rw [List.length_map, ← erase_id_default, List.getD_map]
        rfl
      rw [hm, List.length_map, ← List.map_take, ← List.map_drop]
      generalize px.getD (px.length / 2) default = m
      rw [filter_map_erase_id (fun p => left_of (erase_id m) p) (fun p => left_of m p)
          (fun _ => rfl) py,
        filter_map_erase_id (fun p => !left_of (erase_id m) p) (fun p => !left_of m p)
          (fun _ => rfl) py,
        ih (px.take (px.length / 2)) _ c (by rw [List.length_take]; omega)]
      simp only []
      rw [ih (px.drop (px.length / 2)) _ _ (by rw [List.length_drop]; omega)]
      simp only []
      rw [combine_erase_ids]

theorem compare_y_self (a : Point) : compare_y a a = false := by
  simp [compare_y]

theorem coincide_of_compare_y {a b : Point} (h1 : compare_y a b = false)
    (h2 : compare_y b a = false) : a.x = b.x ∧ a.y = b.y := by
  rw [compare_y_eq_false_iff] at h1 h2
  rcases h1 with h1 | ⟨h1, h1x⟩
  · rcases h2 with h2 | ⟨h2, _⟩
    · exact absurd h1 (not_lt.2 h2.le)
    · exact absurd h1 (by rw [h2]; exact lt_irrefl _)
  · rcases h2 with h2 | ⟨_, h2x⟩
    · exact absurd h2 (by rw [h1]; exact lt_irrefl _)
    · exact ⟨le_antisymm h2x h1x, h1.symm⟩

theorem point_eq_of_coincide {a b : Point} (hx : a.x = b.x) (hy : a.y = b.y)
    (ha : a.id = 0) (hb : b.id = 0) : a = b := by
  cases a
  cases b
  simp_all

/-- Sorting by `compare_x` two permutations of a list of id-free points gives
the same list: the order by `x` then `y` is total on coordinates. -/
theorem std_sort_compare_x_congr {l1 l2 : List Point} (h : l1.Perm l2)
    (hid : ∀ p ∈ l1, p.id = 0) : std_sort compare_x l1 = std_sort compare_x l2 := by
  refine List.Perm.eq_of_sorted ?_ (std_sort_compare_x_sorted l1)
    (std_sort_compare_x_sorted l2)
    ((std_sort_perm _ l1).trans (h.trans (std_sort_perm _ l2).symm))
  intro a b ha hb hab hba
  have ha1 : a ∈ l1 := (std_sort_perm _ l1).subset ha
  have hb1 : b ∈ l1 := h.symm.subset ((std_sort_perm _ l2).subset hb)
  obtain ⟨hx, hy⟩ := coincide_of_compare_x hba hab
  exact point_eq_of_coincide hx hy (hid a ha1) (hid b hb1)

theorem std_sort_compare_y_congr {l1 l2 : List Point} (h : l1.Perm l2)
    (hid : ∀ p ∈ l1, p.id = 0) : std_sort compare_y l1 = std_sort compare_y l2 := by
  refine List.Perm.eq_of_sorted ?_ (std_sort_compare_y_sorted l1)
    (std_sort_compare_y_sorted l2)
    ((std_sort_perm _ l1).trans (h.trans (std_sort_perm _ l2).symm))
  intro a b ha hb hab hba
  have ha1 : a ∈ l1 := (std_sort_perm _ l1).subset ha
  have hb1 : b ∈ l1 := h.symm.subset ((std_sort_perm _ l2).subset hb)
  obtain ⟨hx, hy⟩ := coincide_of_compare_y hba hab
  exact point_eq_of_coincide hx hy (hid a ha1) (hid b hb1)

theorem erase_id_id_of_mem {l : List Point} : ∀ p ∈ l.map erase_id, p.id = 0 := by
  intro p hp
  obtain ⟨q, _, rfl⟩ := List.mem_map.1 hp
  rfl

theorem erase_ids_perm_of_coords {l1 l2 : List Point}
    (h : (l1.map coords).Perm (l2.map coords)) : (l1.map erase_id).Perm (l2.map erase_id) := by
  have h2 := h.map (fun c : ℚ × ℚ => (⟨c.1, c.2, 0⟩ : Point))
  simp only [List.map_map] at h2
  exact h2

theorem divide_conquer_erase_ids (e : ℚ) (l : List Point) :
    divide_conquer_closest_pair e (l.map erase_id) =
      (divide_conquer_closest_pair e l).erase_ids := by
  by_cases h : 2 ≤ l.length
  · rw [divide_conquer_of_ge e _ (by rw [List.length_map]; exact h), divide_conquer_of_ge e l h,
      std_sort_compare_x_erase_ids, std_sort_compare_y_erase_ids,
      closest_pair_recursive_erase_ids _ _ _ _ (le_refl _)]
    rfl
  · rw [divide_conquer_of_lt e _ (by rw [List.length_map]; omega),
      divide_conquer_of_lt e l (by omega)]
    rfl

theorem brute_force_erase_ids (e : ℚ) (l : List Point) :
    brute_force_closest_pair e (l.map erase_id) =
      (brute_force_closest_pair e l).erase_ids := by
  by_cases h : 2 ≤ l.length
  · rw [brute_force_of_ge e _ (by rw [List.length_map]; exact h), brute_force_of_ge e l h,
      brute_force_impl_erase_ids]
    rfl
  · rw [brute_force_of_lt e _ (by rw [List.length_map]; omega),
      brute_force_of_lt e l (by omega)]
    rfl

/-- On id-free inputs that are permutations of each other the
divide-and-conquer solver computes the same pair, distance and count. -/
theorem divide_conquer_perm_of_id_free (e1 e2 : ℚ) {l1 l2 : List Point} (h : l1.Perm l2)
    (hid : ∀ p ∈ l1, p.id = 0) :
    (divide_conquer_closest_pair e1 l1).p1 = (divide_conquer_closest_pair e2 l2).p1 ∧
    (divide_conquer_closest_pair e1 l1).p2 = (divide_conquer_closest_pair e2 l2).p2 ∧
    (divide_conquer_closest_pair e1 l1).distance = (divide_conquer_closest_pair e2 l2).distance ∧
    (divide_conquer_closest_pair e1 l1).comparisons =
      (divide_conquer_closest_pair e2 l2).comparisons := by
  have hlen := h.length_eq
  by_cases h2 : 2 ≤ l1.length
  · rw [divide_conquer_of_ge e1 l1 h2, divide_conquer_of_ge e2 l2 (by omega),
      std_sort_compare_x_congr h hid, std_sort_compare_y_congr h hid]
    exact ⟨rfl, rfl, rfl, rfl⟩
  · rw [divide_conquer_of_lt e1 l1 (by omega), divide_conquer_of_lt e2 l2 (by omega)]
    exact ⟨rfl, rfl, rfl, rfl⟩

/-- The divide-and-conquer result depends on the coordinates only: inputs
with the same multiset of coordinates give pairs with the same coordinates,
the same distance and the same count. -/
theorem divide_conquer_of_coords (e1 e2 : ℚ) {l1 l2 : List Point}
    (h : (l1.map coords).Perm (l2.map coords)) :
    erase_id (divide_conquer_closest_pair e1 l1).p1 =
      erase_id (divide_conquer_closest_pair e2 l2).p1 ∧
    erase_id (divide_conquer_closest_pair e1 l1).p2 =
      erase_id (divide_conquer_closest_pair e2 l2).p2 ∧
    (divide_conquer_closest_pair e1 l1).distance = (divide_conquer_closest_pair e2 l2).distance ∧
    (divide_conquer_closest_pair e1 l1).comparisons =
      (divide_conquer_closest_pair e2 l2).comparisons := by
  have h1 := divide_conquer_perm_of_id_free e1 e2 (erase_ids_perm_of_coords h) erase_id_id_of_mem
  rw [divide_conquer_erase_ids, divide_conquer_erase_ids] at h1
  exact h1

theorem brute_force_distance_perm (e1 e2 : ℚ) {l1 l2 : List Point} (h : l1.Perm l2) :
    (brute_force_closest_pair e1 l1).distance = (brute_force_closest_pair e2 l2).distance := by
  have hlen := h.length_eq
  by_cases h2 : 2 ≤ l1.length
  · have h3 : 2 ≤ l2.length := by omega
    have f1 := brute_force_found e1 l1 h2
    have f2 := brute_force_found e2 l2 h3
    exact distance_unique (pairwise_distance_perm h (brute_force_pairwise e1 l1 h2)) f1.1
      (f1.2.subperm.trans h.subperm) (brute_force_pairwise e2 l2 h3) f2.1 f2.2.subperm
  · rw [brute_force_of_lt e1 l1 (by omega), brute_force_of_lt e2 l2 (by omega)]

theorem brute_force_of_coords (e1 e2 : ℚ) {l1 l2 : List Point}
    (h : (l1.map coords).Perm (l2.map coords)) :
    (brute_force_closest_pair e1 l1).distance = (brute_force_closest_pair e2 l2).distance ∧
    (brute_force_closest_pair e1 l1).comparisons =
      (brute_force_closest_pair e2 l2).comparisons := by
  refine ⟨?_, ?_⟩
  · have h1 := brute_force_distance_perm e1 e2 (erase_ids_perm_of_coords h)
    rw [brute_force_erase_ids, brute_force_erase_ids] at h1
    exact h1
  · have hlen : l1.length = l2.length := by
      have := h.length_eq
      simpa using this
    rw [brute_force_count, brute_force_count, hlen]

/-- C9.  The distance and the comparison count returned by
`divide_conquer_closest_pair` depend only on the multiset of input coordinates,
and so do those of `brute_force_closest_pair`; in particular two inputs that
are permutations of each other (or identical) give the same distance and the
same count with each solver. -/
theorem distance_and_comparisons_of_coordinates (e1 e2 : ℚ) (l1 l2 : List Point) :
    ((l1.map coords).Perm (l2.map coords) →
      (divide_conquer_closest_pair e1 l1).distance =
        (divide_conquer_closest_pair e2 l2).distance ∧
      (divide_conquer_closest_pair e1 l1).comparisons =
        (divide_conquer_closest_pair e2 l2).comparisons ∧
      (brute_force_closest_pair e1 l1).distance = (brute_force_closest_pair e2 l2).distance ∧
      (brute_force_closest_pair e1 l1).comparisons =
        (brute_force_closest_pair e2 l2).comparisons) ∧
    (l1.Perm l2 →
      (divide_conquer_closest_pair e1 l1).distance =
        (divide_conquer_closest_pair e2 l2).distance ∧
      (divide_conquer_closest_pair e1 l1).comparisons =
        (divide_conquer_closest_pair e2 l2).comparisons ∧
      (brute_force_closest_pair e1 l1).distance = (brute_force_closest_pair e2 l2).distance ∧
      (brute_force_closest_pair e1 l1).comparisons =
        (brute_force_closest_pair e2 l2).comparisons) := by
  have key : (l1.map coords).Perm (l2.map coords) →
      (divide_conquer_closest_pair e1 l1).distance =
        (divide_conquer_closest_pair e2 l2).distance ∧
      (divide_conquer_closest_pair e1 l1).comparisons =
        (divide_conquer_closest_pair e2 l2).comparisons ∧
      (brute_force_closest_pair e1 l1).distance = (brute_force_closest_pair e2 l2).distance ∧
      (brute_force_closest_pair e1 l1).comparisons =
        (brute_force_closest_pair e2 l2).comparisons := fun h =>
    ⟨(divide_conquer_of_coords e1 e2 h).2.2.1, (divide_conquer_of_coords e1 e2 h).2.2.2,
      (brute_force_of_coords e1 e2 h).1, (brute_force_of_coords e1 e2 h).2⟩
  exact ⟨key, fun h => key (h.map coords)⟩

/-- Witness for C9: five points and a rearrangement of them with other ids. -/
theorem distance_and_comparisons_of_coordinates_witness :
    (divide_conquer_closest_pair 1
        [⟨0, 0, 0⟩, ⟨3, 4, 1⟩, ⟨1, 1, 2⟩, ⟨7, 2, 3⟩, ⟨3, 5, 4⟩]).distance =
      (divide_conquer_closest_pair 2
        [⟨3, 5, 9⟩, ⟨1, 1, 8⟩, ⟨0, 0, 7⟩, ⟨7, 2, 6⟩, ⟨3, 4, 5⟩]).distance ∧
    (divide_conquer_closest_pair 1
        [⟨0, 0, 0⟩, ⟨3, 4, 1⟩, ⟨1, 1, 2⟩, ⟨7, 2, 3⟩, ⟨3, 5, 4⟩]).comparisons =
      (divide_conquer_closest_pair 2
        [⟨3, 5, 9⟩, ⟨1, 1, 8⟩, ⟨0, 0, 7⟩, ⟨7, 2, 6⟩, ⟨3, 4, 5⟩]).comparisons :=
  ⟨((distance_and_comparisons_of_coordinates 1 2
      [⟨0, 0, 0⟩, ⟨3, 4, 1⟩, ⟨1, 1, 2⟩, ⟨7, 2, 3⟩, ⟨3, 5, 4⟩]
      [⟨3, 5, 9⟩, ⟨1, 1, 8⟩, ⟨0, 0, 7⟩, ⟨7, 2, 6⟩, ⟨3, 4, 5⟩]).1 (by decide!)).1,
    ((distance_and_comparisons_of_coordinates 1 2
      [⟨0, 0, 0⟩, ⟨3, 4, 1⟩, ⟨1, 1, 2⟩, ⟨7, 2, 3⟩, ⟨3, 5, 4⟩]
      [⟨3, 5, 9⟩, ⟨1, 1, 8⟩, ⟨0, 0, 7⟩, ⟨7, 2, 6⟩, ⟨3, 4, 5⟩]).1 (by decide!)).2.1⟩

/-- C10, as stated, fails.  Brute force returns the first minimal pair in scan
order, which a permutation of the input changes: on `(0,0), (1,0), (2,0)` it
returns `(0,0), (1,0)`, on `(1,0), (2,0), (0,0)` it returns `(1,0), (2,0)`.
Divide and conquer returns the ids in the order the sort leaves them: on two
coincident points with ids `1, 2` it returns them as `p1, p2`, on the same
points in the other order it returns ids `2, 1`. -/
theorem pair_depends_on_input_order :
    (List.Perm [(⟨0, 0, 0⟩ : Point), ⟨1, 0, 1⟩, ⟨2, 0, 2⟩] [⟨1, 0, 1⟩, ⟨2, 0, 2⟩, ⟨0, 0, 0⟩] ∧
      (brute_force_closest_pair 0 [⟨0, 0, 0⟩, ⟨1, 0, 1⟩, ⟨2, 0, 2⟩]).p1 = ⟨0, 0, 0⟩ ∧
      (brute_force_closest_pair 0 [⟨1, 0, 1⟩, ⟨2, 0, 2⟩, ⟨0, 0, 0⟩]).p1 = ⟨1, 0, 1⟩ ∧
      (brute_force_closest_pair 0 [⟨0, 0, 0⟩, ⟨1, 0, 1⟩, ⟨2, 0, 2⟩]).p1 ≠
        (brute_force_closest_pair 0 [⟨1, 0, 1⟩, ⟨2, 0, 2⟩, ⟨0, 0, 0⟩]).p1) ∧
    (List.Perm [(⟨0, 0, 1⟩ : Point), ⟨0, 0, 2⟩] [⟨0, 0, 2⟩, ⟨0, 0, 1⟩] ∧
      (divide_conquer_closest_pair 0 [⟨0, 0, 1⟩, ⟨0, 0, 2⟩]).p1 = ⟨0, 0, 1⟩ ∧
      (divide_conquer_closest_pair 0 [⟨0, 0, 2⟩, ⟨0, 0, 1⟩]).p1 = ⟨0, 0, 2⟩ ∧
      (divide_conquer_closest_pair 0 [⟨0, 0, 1⟩, ⟨0, 0, 2⟩]).p1 ≠
        (divide_conquer_closest_pair 0 [⟨0, 0, 2⟩, ⟨0, 0, 1⟩]).p1) := by
  refine ⟨⟨?_, ?_, ?_, ?_⟩, ⟨?_, ?_, ?_, ?_⟩⟩
  · exact (List.Perm.swap _ _ _).trans ((List.Perm.swap _ _ _).cons _)
  · decide!
  · decide!
  · decide!
  · exact List.Perm.swap _ _ _
  · decide!
  · decide!
  · decide!

/-- C10, amended.  On two inputs that are permutations of each other each
solver returns the same distance and the same comparison count, and
`divide_conquer_closest_pair` returns `p1` and `p2` with the same coordinates;
when no two input points share both coordinates it returns the same `p1` and
`p2`, ids included. -/
theorem result_of_permutation (e1 e2 : ℚ) (l1 l2 : List Point) (h : l1.Perm l2) :
    coords (divide_conquer_closest_pair e1 l1).p1 =
      coords (divide_conquer_closest_pair e2 l2).p1 ∧
    coords (divide_conquer_closest_pair e1 l1).p2 =
      coords (divide_conquer_closest_pair e2 l2).p2 ∧
    (divide_conquer_closest_pair e1 l1).distance =
      (divide_conquer_closest_pair e2 l2).distance ∧
    (divide_conquer_closest_pair e1 l1).comparisons =
      (divide_conquer_closest_pair e2 l2).comparisons ∧
    (brute_force_closest_pair e1 l1).distance = (brute_force_closest_pair e2 l2).distance ∧
    (brute_force_closest_pair e1 l1).comparisons =
      (brute_force_closest_pair e2 l2).comparisons ∧
    ((l1.map coords).Nodup →
      (divide_conquer_closest_pair e1 l1).p1 = (divide_conquer_closest_pair e2 l2).p1 ∧
      (divide_conquer_closest_pair e1 l1).p2 = (divide_conquer_closest_pair e2 l2).p2) := by
  have hd := divide_conquer_of_coords e1 e2 (h.map coords)
  have hb := brute_force_of_coords e1 e2 (h.map coords)
  have hc1 : coords (divide_conquer_closest_pair e1 l1).p1 =
      coords (divide_conquer_closest_pair e2 l2).p1 := by
    have := (erase_id_eq_iff _ _).1 hd.1
    exact Prod.ext this.1 this.2
  have hc2 : coords (divide_conquer_closest_pair e1 l1).p2 =
      coords (divide_conquer_closest_pair e2 l2).p2 := by
    have := (erase_id_eq_iff _ _).1 hd.2.1
    exact Prod.ext this.1 this.2
  refine ⟨hc1, hc2, hd.2.2.1, hd.2.2.2, hb.1, hb.2, fun hn => ?_⟩
  have hlen := h.length_eq
  by_cases h2 : 2 ≤ l1.length
  · have f1 := (divide_conquer_found e1 l1 h2).2.1.subset
    have f2 := ((divide_conquer_found e2 l2 (by omega)).2.1.trans h.symm.subperm).subset
    have inj := List.inj_on_of_nodup_map hn
    exact ⟨inj (f1 (List.mem_cons_self _ _)) (f2 (List.mem_cons_self _ _)) hc1,
      inj (f1 (List.mem_cons_of_mem _ (List.mem_singleton_self _)))
        (f2 (List.mem_cons_of_mem _ (List.mem_singleton_self _))) hc2⟩
  · rw [divide_conquer_of_lt e1 l1 (by omega), divide_conquer_of_lt e2 l2 (by omega)]
    exact ⟨rfl, rfl⟩

/-- Witness for the amended C10: the two orders of three collinear points. -/
theorem result_of_permutation_witness :
    List.Perm [(⟨0, 0, 0⟩ : Point), ⟨1, 0, 1⟩, ⟨2, 0, 2⟩] [⟨1, 0, 1⟩, ⟨2, 0, 2⟩, ⟨0, 0, 0⟩] ∧
    (divide_conquer_closest_pair 0 [⟨0, 0, 0⟩, ⟨1, 0, 1⟩, ⟨2, 0, 2⟩]).distance =
      (divide_conquer_closest_pair 0 [⟨1, 0, 1⟩, ⟨2, 0, 2⟩, ⟨0, 0, 0⟩]).distance ∧
    (brute_force_closest_pair 0 [⟨0, 0, 0⟩, ⟨1, 0, 1⟩, ⟨2, 0, 2⟩]).distance =
      (brute_force_closest_pair 0 [⟨1, 0, 1⟩, ⟨2, 0, 2⟩, ⟨0, 0, 0⟩]).distance :=
  ⟨(List.Perm.swap _ _ _).trans ((List.Perm.swap _ _ _).cons _),
    (result_of_permutation 0 0 _ _
      ((List.Perm.swap _ _ _).trans ((List.Perm.swap _ _ _).cons _))).2.2.1,
    (result_of_permutation 0 0 _ _
      ((List.Perm.swap _ _ _).trans ((List.Perm.swap _ _ _).cons _))).2.2.2.2.1⟩

/-! ### The comparators as orders -/

theorem compare_x_eq_true_iff (a b : Point) :
    compare_x a b = true ↔ a.x < b.x ∨ (a.x = b.x ∧ a.y < b.y) := by
  simp [compare_x]

theorem compare_y_eq_true_iff (a b : Point) :
    compare_y a b = true ↔ a.y < b.y ∨ (a.y = b.y ∧ a.x < b.x) := by
  simp [compare_y]

theorem compare_x_transitive (a b c : Point) (h1 : compare_x a b = true)
    (h2 : compare_x b c = true) : compare_x a c = true := by
  rw [compare_x_eq_true_iff] at *
  rcases h1 with h1 | ⟨h1, h1y⟩ <;> rcases h2 with h2 | ⟨h2, h2y⟩
  · exact Or.inl (h1.trans h2)
  · exact Or.inl (h2 ▸ h1)
  · exact Or.inl (h1 ▸ h2)
  · exact Or.inr ⟨h1.trans h2, h1y.trans h2y⟩

theorem compare_y_transitive (a b c : Point) (h1 : compare_y a b = true)
    (h2 : compare_y b c = true) : compare_y a c = true := by
  rw [compare_y_eq_true_iff] at *
  rcases h1 with h1 | ⟨h1, h1x⟩ <;> rcases h2 with h2 | ⟨h2, h2x⟩
  · exact Or.inl (h1.trans h2)
  · exact Or.inl (h2 ▸ h1)
  · exact Or.inl (h1 ▸ h2)
  · exact Or.inr ⟨h1.trans h2, h1x.trans h2x⟩

theorem compare_x_asymmetric (a b : Point) (h : compare_x a b = true) :
    compare_x b a = false := by
  rw [compare_x_eq_true_iff] at h
  rw [compare_x_eq_false_iff]
  rcases h with h | ⟨h1, h2⟩
  · exact Or.inl h
  · exact Or.inr ⟨h1, h2.le⟩

theorem compare_y_asymmetric (a b : Point) (h : compare_y a b = true) :
    compare_y b a = false := by
  rw [compare_y_eq_true_iff] at h
  rw [compare_y_eq_false_iff]
  rcases h with h | ⟨h1, h2⟩
  · exact Or.inl h
  · exact Or.inr ⟨h1, h2.le⟩

theorem coords_eq_iff (a b : Point) : coords a = coords b ↔ a.x = b.x ∧ a.y = b.y := by
  simp [coords, Prod.ext_iff]

theorem compare_x_of_coords_eq {a b : Point} (h : coords a = coords b) :
    compare_x a b = false := by
  obtain ⟨hx, hy⟩ := (coords_eq_iff a b).1 h
  rw [compare_x_eq_false_iff]
  exact Or.inr ⟨hx.symm, hy.symm.le⟩

theorem compare_y_of_coords_eq {a b : Point} (h : coords a = coords b) :
    compare_y a b = false := by
  obtain ⟨hx, hy⟩ := (coords_eq_iff a b).1 h
  rw [compare_y_eq_false_iff]
  exact Or.inr ⟨hy.symm, hx.symm.le⟩

theorem compare_x_trichotomy {a b : Point} (h : coords a ≠ coords b) :
    (compare_x a b = true ∧ compare_x b a = false) ∨
    (compare_x a b = false ∧ compare_x b a = true) := by
  cases hab : compare_x a b with
  | true => exact Or.inl ⟨rfl, compare_x_asymmetric a b hab⟩
  | false =>
    refine Or.inr ⟨rfl, ?_⟩
    cases hba : compare_x b a with
    | true => rfl
    | false =>
      exact absurd ((coords_eq_iff a b).2 (coincide_of_compare_x hab hba)) h

theorem compare_y_trichotomy {a b : Point} (h : coords a ≠ coords b) :
    (compare_y a b = true ∧ compare_y b a = false) ∨
    (compare_y a b = false ∧ compare_y b a = true) := by
  cases hab : compare_y a b with
  | true => exact Or.inl ⟨rfl, compare_y_asymmetric a b hab⟩
  | false =>
    refine Or.inr ⟨rfl, ?_⟩
    cases hba : compare_y b a with
    | true => rfl
    | false =>
      exact absurd ((coords_eq_iff a b).2 (coincide_of_compare_y hab hba)) h

/-- C11, as stated, fails: the points `(0, 0)` with id `1` and `(0, 0)` with
id `2` are distinct `Point` values, yet neither `compare_x` nor `compare_y`
puts one before the other. -/
theorem compare_ignores_id :
    (⟨0, 0, 1⟩ : Point) ≠ ⟨0, 0, 2⟩ ∧
    compare_x ⟨0, 0, 1⟩ ⟨0, 0, 2⟩ = false ∧ compare_x ⟨0, 0, 2⟩ ⟨0, 0, 1⟩ = false ∧
    compare_y ⟨0, 0, 1⟩ ⟨0, 0, 2⟩ = false ∧ compare_y ⟨0, 0, 2⟩ ⟨0, 0, 1⟩ = false := by
  refine ⟨by decide, ?_, ?_, ?_, ?_⟩ <;> decide!

/-- C11, amended.  `compare_x` and `compare_y` are each irreflexive and
transitive; for two points with different coordinates exactly one of
`cmp(a, b)` and `cmp(b, a)` is true; two points with equal `x` and equal `y`
compare equal (neither is true), whatever their ids.  Each is a strict total
order on coordinates. -/
theorem compare_strict_order_on_coordinates :
    ((∀ a : Point, compare_x a a = false) ∧
      (∀ a b c : Point, compare_x a b = true → compare_x b c = true → compare_x a c = true) ∧
      (∀ a b : Point, coords a ≠ coords b →
        (compare_x a b = true ∧ compare_x b a = false) ∨
        (compare_x a b = false ∧ compare_x b a = true)) ∧
      (∀ a b : Point, coords a = coords b → compare_x a b = false ∧ compare_x b a = false)) ∧
    ((∀ a : Point, compare_y a a = false) ∧
      (∀ a b c : Point, compare_y a b = true → compare_y b c = true → compare_y a c = true) ∧
      (∀ a b : Point, coords a ≠ coords b →
        (compare_y a b = true ∧ compare_y b a = false) ∨
        (compare_y a b = false ∧ compare_y b a = true)) ∧
      (∀ a b : Point, coords a = coords b → compare_y a b = false ∧ compare_y b a = false)) :=
  ⟨⟨compare_x_self, compare_x_transitive, fun _ _ h => compare_x_trichotomy h,
      fun _ _ h => ⟨compare_x_of_coords_eq h, compare_x_of_coords_eq h.symm⟩⟩,
    ⟨compare_y_self, compare_y_transitive, fun _ _ h => compare_y_trichotomy h,
      fun _ _ h => ⟨compare_y_of_coords_eq h, compare_y_of_coords_eq h.symm⟩⟩⟩

/-- Witness for the amended C11: `(1, 2)` and `(1, 3)` differ in `y` only. -/
theorem compare_strict_order_on_coordinates_witness :
    (compare_x ⟨1, 2, 0⟩ ⟨1, 3, 0⟩ = true ∧ compare_x ⟨1, 3, 0⟩ ⟨1, 2, 0⟩ = false) ∨
    (compare_x ⟨1, 2, 0⟩ ⟨1, 3, 0⟩ = false ∧ compare_x ⟨1, 3, 0⟩ ⟨1, 2, 0⟩ = true) :=
  compare_strict_order_on_coordinates.1.2.2.1 ⟨1, 2, 0⟩ ⟨1, 3, 0⟩ (by decide!)

/-! ### Ids and the primitives -/

theorem primitives_of_coords {a b a' b' : Point} (ha : coords a = coords a')
    (hb : coords b = coords b') :
    distance a b = distance a' b' ∧ compare_x a b = compare_x a' b' ∧
    compare_y a b = compare_y a' b' := by
  obtain ⟨hax, hay⟩ := (coords_eq_iff a a').1 ha
  obtain ⟨hbx, hby⟩ := (coords_eq_iff b b').1 hb
  simp only [distance, dist_sq, compare_x, compare_y, hax, hay, hbx, hby, and_self]

theorem map_erase_id_of_coords {l1 l2 : List Point} (h : l1.map coords = l2.map coords) :
    l1.map erase_id = l2.map erase_id := by
  have h2 := congrArg (List.map (fun c : ℚ × ℚ => (⟨c.1, c.2, 0⟩ : Point))) h
  simp only [List.map_map] at h2
  exact h2

theorem brute_force_pair_elapsed (e1 e2 : ℚ) (l : List Point) :
    (brute_force_closest_pair e1 l).p1 = (brute_force_closest_pair e2 l).p1 ∧
    (brute_force_closest_pair e1 l).p2 = (brute_force_closest_pair e2 l).p2 := by
  by_cases h : 2 ≤ l.length
  · rw [brute_force_of_ge e1 l h, brute_force_of_ge e2 l h]
    exact ⟨rfl, rfl⟩
  · rw [brute_force_of_lt e1 l (by omega), brute_force_of_lt e2 l (by omega)]
    exact ⟨rfl, rfl⟩

theorem brute_force_pair_of_coords (e1 e2 : ℚ) {l1 l2 : List Point}
    (h : l1.map coords = l2.map coords) :
    coords (brute_force_closest_pair e1 l1).p1 = coords (brute_force_closest_pair e2 l2).p1 ∧
    coords (brute_force_closest_pair e1 l1).p2 = coords (brute_force_closest_pair e2 l2).p2 := by
  have h1 := brute_force_erase_ids e1 l1
  rw [map_erase_id_of_coords h, brute_force_erase_ids] at h1
  have hp1 : erase_id (brute_force_closest_pair e1 l2).p1 =
      erase_id (brute_force_closest_pair e1 l1).p1 := congrArg ClosestPairResult.p1 h1
  have hp2 : erase_id (brute_force_closest_pair e1 l2).p2 =
      erase_id (brute_force_closest_pair e1 l1).p2 := congrArg ClosestPairResult.p2 h1
  rw [(brute_force_pair_elapsed e1 e2 l2).1] at hp1
  rw [(brute_force_pair_elapsed e1 e2 l2).2] at hp2
  exact ⟨((coords_eq_iff _ _).2 ((erase_id_eq_iff _ _).1 hp1)).symm,
    ((coords_eq_iff _ _).2 ((erase_id_eq_iff _ _).1 hp2)).symm⟩

/-- C12.  The id takes no part in the computation: `distance`, `compare_x` and
`compare_y` give the same value on points with the same coordinates, and on two
inputs that agree position by position on `x` and `y` each solver returns the
same distance, the same comparison count and a pair with the same
coordinates. -/
theorem id_takes_no_part :
    (∀ a b a' b' : Point, coords a = coords a' → coords b = coords b' →
      distance a b = distance a' b' ∧ compare_x a b = compare_x a' b' ∧
      compare_y a b = compare_y a' b') ∧
    (∀ (e1 e2 : ℚ) (l1 l2 : List Point), l1.map coords = l2.map coords →
      ((divide_conquer_closest_pair e1 l1).distance =
          (divide_conquer_closest_pair e2 l2).distance ∧
        (divide_conquer_closest_pair e1 l1).comparisons =
          (divide_conquer_closest_pair e2 l2).comparisons ∧
        coords (divide_conquer_closest_pair e1 l1).p1 =
          coords (divide_conquer_closest_pair e2 l2).p1 ∧
        coords (divide_conquer_closest_pair e1 l1).p2 =
          coords (divide_conquer_closest_pair e2 l2).p2) ∧
      ((brute_force_closest_pair e1 l1).distance = (brute_force_closest_pair e2 l2).distance ∧
        (brute_force_closest_pair e1 l1).comparisons =
          (brute_force_closest_pair e2 l2).comparisons ∧
        coords (brute_force_closest_pair e1 l1).p1 =
          coords (brute_force_closest_pair e2 l2).p1 ∧
        coords (brute_force_closest_pair e1 l1).p2 =
          coords (brute_force_closest_pair e2 l2).p2)) := by
  refine ⟨fun a b a' b' ha hb => primitives_of_coords ha hb, fun e1 e2 l1 l2 h => ?_⟩
  have hperm : (l1.map coords).Perm (l2.map coords) := h ▸ List.Perm.refl _
  have hd := divide_conquer_of_coords e1 e2 hperm
  have hb := brute_force_of_coords e1 e2 hperm
  have hp := brute_force_pair_of_coords e1 e2 h
  exact ⟨⟨hd.2.2.1, hd.2.2.2, (coords_eq_iff _ _).2 ((erase_id_eq_iff _ _).1 hd.1),
    (coords_eq_iff _ _).2 ((erase_id_eq_iff _ _).1 hd.2.1)⟩, ⟨hb.1, hb.2, hp.1, hp.2⟩⟩

/-- Witness for C12: the same five positions with two different id
assignments. -/
theorem id_takes_no_part_witness :
    (divide_conquer_closest_pair 1
        [⟨0, 0, 0⟩, ⟨3, 4, 1⟩, ⟨1, 1, 2⟩, ⟨7, 2, 3⟩, ⟨3, 5, 4⟩]).comparisons =
      (divide_conquer_closest_pair 2
        [⟨0, 0, 9⟩, ⟨3, 4, 8⟩, ⟨1, 1, 7⟩, ⟨7, 2, 6⟩, ⟨3, 5, 5⟩]).comparisons ∧
    coords (brute_force_closest_pair 1
        [⟨0, 0, 0⟩, ⟨3, 4, 1⟩, ⟨1, 1, 2⟩, ⟨7, 2, 3⟩, ⟨3, 5, 4⟩]).p1 =
      coords (brute_force_closest_pair 2
        [⟨0, 0, 9⟩, ⟨3, 4, 8⟩, ⟨1, 1, 7⟩, ⟨7, 2, 6⟩, ⟨3, 5, 5⟩]).p1 :=
  ⟨(id_takes_no_part.2 1 2 [⟨0, 0, 0⟩, ⟨3, 4, 1⟩, ⟨1, 1, 2⟩, ⟨7, 2, 3⟩, ⟨3, 5, 4⟩]
      [⟨0, 0, 9⟩, ⟨3, 4, 8⟩, ⟨1, 1, 7⟩, ⟨7, 2, 6⟩, ⟨3, 5, 5⟩] (by decide!)).1.2.1,
    (id_takes_no_part.2 1 2 [⟨0, 0, 0⟩, ⟨3, 4, 1⟩, ⟨1, 1, 2⟩, ⟨7, 2, 3⟩, ⟨3, 5, 4⟩]
      [⟨0, 0, 9⟩, ⟨3, 4, 8⟩, ⟨1, 1, 7⟩, ⟨7, 2, 6⟩, ⟨3, 5, 5⟩] (by decide!)).2.2.2.1⟩

/-! ### The distance as a metric -/

theorem sqrt_add_sq_le (u1 u2 v1 v2 : ℝ) :
    Real.sqrt ((u1 + v1) * (u1 + v1) + (u2 + v2) * (u2 + v2)) ≤
      Real.sqrt (u1 * u1 + u2 * u2) + Real.sqrt (v1 * v1 + v2 * v2) := by
  have hA0 : 0 ≤ u1 * u1 + u2 * u2 := add_nonneg (mul_self_nonneg _) (mul_self_nonneg _)
  have hB0 : 0 ≤ v1 * v1 + v2 * v2 := add_nonneg (mul_self_nonneg _) (mul_self_nonneg _)
  have hA := Real.mul_self_sqrt hA0
  have hB := Real.mul_self_sqrt hB0
  have hAB : u1 * v1 + u2 * v2 ≤
      Real.sqrt (u1 * u1 + u2 * u2) * Real.sqrt (v1 * v1 + v2 * v2) := by
    rw [← Real.sqrt_mul hA0]
    refine (le_abs_self _).trans (Real.abs_le_sqrt ?_)
    nlinarith [sq_nonneg (u1 * v2 - u2 * v1)]
  rw [Real.sqrt_le_iff]
  refine ⟨add_nonneg (Real.sqrt_nonneg _) (Real.sqrt_nonneg _), ?_⟩
  nlinarith [hA, hB, hAB]

theorem dist_sq_cast (a b : Point) :
    ((dist_sq a b : ℚ) : ℝ) =
      ((a.x : ℝ) - b.x) * ((a.x : ℝ) - b.x) + ((a.y : ℝ) - b.y) * ((a.y : ℝ) - b.y) := by
  simp only [dist_sq]
  push_cast
  ring

theorem dist_sq_eq_zero_iff (a b : Point) : dist_sq a b = 0 ↔ a.x = b.x ∧ a.y = b.y := by
  simp only [dist_sq]
  rw [mul_self_add_mul_self_eq_zero, sub_eq_zero, sub_eq_zero]

theorem sqrt_dist_sq_triangle (a b c : Point) :
    Real.sqrt ((dist_sq a c : ℚ) : ℝ) ≤
      Real.sqrt ((dist_sq a b : ℚ) : ℝ) + Real.sqrt ((dist_sq b c : ℚ) : ℝ) := by
  rw [dist_sq_cast, dist_sq_cast, dist_sq_cast]
  have h := sqrt_add_sq_le ((a.x : ℝ) - b.x) ((a.y : ℝ) - b.y) ((b.x : ℝ) - c.x)
    ((b.y : ℝ) - c.y)
  have e1 : (a.x : ℝ) - b.x + ((b.x : ℝ) - c.x) = (a.x : ℝ) - c.x := by ring
  have e2 : (a.y : ℝ) - b.y + ((b.y : ℝ) - c.y) = (a.y : ℝ) - c.y := by ring
  rw [e1, e2] at h
  exact h

/-- C13.  `distance(a, b)` is `√((a.x - b.x)² + (a.y - b.y)²)` and, over the
reals, a metric on coordinates: it is non-negative, symmetric, zero exactly
when `a` and `b` have equal `x` and equal `y`, it satisfies the triangle
inequality, and `|a.y - b.y| ≤ distance(a, b)` and `|a.x - b.x| ≤ distance(a, b)`. -/
theorem distance_is_euclidean_metric :
    (∀ a b : Point,
      distance a b = Dist.root ((a.x - b.x) ^ 2 + (a.y - b.y) ^ 2) ∧
      (distance a b).Denotes
        ((Real.sqrt (((a.x : ℝ) - b.x) ^ 2 + ((a.y : ℝ) - b.y) ^ 2) : ℝ) : EReal)) ∧
    (∀ a b : Point, Dist.root 0 ≤ distance a b ∧ 0 ≤ Real.sqrt ((dist_sq a b : ℚ) : ℝ)) ∧
    (∀ a b : Point, distance a b = distance b a) ∧
    (∀ a b : Point, (distance a b = Dist.root 0 ↔ a.x = b.x ∧ a.y = b.y) ∧
      (Real.sqrt ((dist_sq a b : ℚ) : ℝ) = 0 ↔ a.x = b.x ∧ a.y = b.y)) ∧
    (∀ a b : Point,
      |((a.y : ℝ) - b.y)| ≤ Real.sqrt ((dist_sq a b : ℚ) : ℝ) ∧
      |((a.x : ℝ) - b.x)| ≤ Real.sqrt ((dist_sq a b : ℚ) : ℝ) ∧
      Dist.root (|a.y - b.y| * |a.y - b.y|) ≤ distance a b ∧
      Dist.root (|a.x - b.x| * |a.x - b.x|) ≤ distance a b) ∧
    (∀ a b c : Point,
      Real.sqrt ((dist_sq a c : ℚ) : ℝ) ≤
        Real.sqrt ((dist_sq a b : ℚ) : ℝ) + Real.sqrt ((dist_sq b c : ℚ) : ℝ)) := by
  refine ⟨fun a b => ⟨?_, ?_⟩, fun a b => ⟨zero_le_distance a b, Real.sqrt_nonneg _⟩,
    distance_comm, fun a b => ⟨?_, ?_⟩, fun a b => ⟨?_, ?_, ?_, ?_⟩, sqrt_dist_sq_triangle⟩
  · simp only [distance, dist_sq, sq]
  · have h : ((a.x : ℝ) - b.x) ^ 2 + ((a.y : ℝ) - b.y) ^ 2 = ((dist_sq a b : ℚ) : ℝ) := by
      rw [dist_sq_cast]
      ring
    rw [h]
    exact rfl
  · rw [distance, Dist.root.injEq, dist_sq_eq_zero_iff]
  · rw [Real.sqrt_eq_zero (by exact_mod_cast dist_sq_nonneg a b)]
    rw [← dist_sq_eq_zero_iff]
    exact_mod_cast Iff.rfl
  · refine Real.abs_le_sqrt ?_
    rw [dist_sq_cast]
    nlinarith [mul_self_nonneg ((a.x : ℝ) - b.x)]
  · refine Real.abs_le_sqrt ?_
    rw [dist_sq_cast]
    nlinarith [mul_self_nonneg ((a.y : ℝ) - b.y)]
  · rw [distance, Dist.root_le_root, abs_mul_abs_self]
    simp only [dist_sq]
    nlinarith [mul_self_nonneg (a.x - b.x)]
  · rw [distance, Dist.root_le_root, abs_mul_abs_self]
    simp only [dist_sq]
    nlinarith [mul_self_nonneg (a.y - b.y)]

/-! ### Coincident points and the two views -/

/-- C20 at a failing input.  On `(0,0), (1,1), (1,1), (2,2)` the split at
`mid = 2` puts one copy of `(1,1)` into `left_x`, but the partition test sends
both copies to `right_y`: the left call receives `points_x = [(0,0), (1,1)]`
with `points_y = [(0,0)]`, the right call `points_x = [(1,1), (2,2)]` with
`points_y = [(1,1), (1,1), (2,2)]`.  Neither `points_y` is a permutation of its
`points_x`. -/
theorem views_differ_on_coincident_points :
    recursive_calls
        (std_sort compare_x [⟨0, 0, 0⟩, ⟨1, 1, 1⟩, ⟨1, 1, 2⟩, ⟨2, 2, 3⟩])
        (std_sort compare_y [⟨0, 0, 0⟩, ⟨1, 1, 1⟩, ⟨1, 1, 2⟩, ⟨2, 2, 3⟩]) =
      [([⟨0, 0, 0⟩, ⟨1, 1, 1⟩, ⟨1, 1, 2⟩, ⟨2, 2, 3⟩],
          [⟨0, 0, 0⟩, ⟨1, 1, 1⟩, ⟨1, 1, 2⟩, ⟨2, 2, 3⟩]),
        ([⟨0, 0, 0⟩, ⟨1, 1, 1⟩], [⟨0, 0, 0⟩]),
        ([⟨1, 1, 2⟩, ⟨2, 2, 3⟩], [⟨1, 1, 1⟩, ⟨1, 1, 2⟩, ⟨2, 2, 3⟩])] ∧
    ¬ List.Perm [(⟨0, 0, 0⟩ : Point)] [⟨0, 0, 0⟩, ⟨1, 1, 1⟩] ∧
    ¬ List.Perm [(⟨1, 1, 1⟩ : Point), ⟨1, 1, 2⟩, ⟨2, 2, 3⟩] [⟨1, 1, 2⟩, ⟨2, 2, 3⟩] := by
  refine ⟨by decide!, fun h => ?_, fun h => ?_⟩
  · exact absurd h.length_eq (by decide)
  · exact absurd h.length_eq (by decide)

/-- C14 at a failing input.  Eight copies of `(0,0)` followed by
`(1,-10), (2,100), (3,200), (4,300), (5,400), (6,500)`: the split of the
fourteen points at `mid = 7` leaves one copy of `(0,0)` in `right_x`, while the
partition test sends all eight copies to `right_y`.  The strip scan of the
right call has `delta = √101` and all fourteen points in its strip; for strip
index `0`, the point `(1,-10)`, the inner loop evaluates eight distances, one
for each copy of `(0,0)`. -/
theorem strip_scan_evaluates_eight :
    ([⟨1, -10, 8⟩, ⟨0, 0, 0⟩, ⟨0, 0, 1⟩, ⟨0, 0, 2⟩, ⟨0, 0, 3⟩, ⟨0, 0, 4⟩, ⟨0, 0, 5⟩,
        ⟨0, 0, 6⟩, ⟨0, 0, 7⟩, ⟨2, 100, 9⟩, ⟨3, 200, 10⟩, ⟨4, 300, 11⟩, ⟨5, 400, 12⟩,
        ⟨6, 500, 13⟩], Dist.root 101) ∈
      strip_scans
        (std_sort compare_x [⟨0, 0, 0⟩, ⟨0, 0, 1⟩, ⟨0, 0, 2⟩, ⟨0, 0, 3⟩, ⟨0, 0, 4⟩,
          ⟨0, 0, 5⟩, ⟨0, 0, 6⟩, ⟨0, 0, 7⟩, ⟨1, -10, 8⟩, ⟨2, 100, 9⟩, ⟨3, 200, 10⟩,
          ⟨4, 300, 11⟩, ⟨5, 400, 12⟩, ⟨6, 500, 13⟩])
        (std_sort compare_y [⟨0, 0, 0⟩, ⟨0, 0, 1⟩, ⟨0, 0, 2⟩, ⟨0, 0, 3⟩, ⟨0, 0, 4⟩,
          ⟨0, 0, 5⟩, ⟨0, 0, 6⟩, ⟨0, 0, 7⟩, ⟨1, -10, 8⟩, ⟨2, 100, 9⟩, ⟨3, 200, 10⟩,
          ⟨4, 300, 11⟩, ⟨5, 400, 12⟩, ⟨6, 500, 13⟩]) 0 ∧
    scan_counts
        [⟨1, -10, 8⟩, ⟨0, 0, 0⟩, ⟨0, 0, 1⟩, ⟨0, 0, 2⟩, ⟨0, 0, 3⟩, ⟨0, 0, 4⟩, ⟨0, 0, 5⟩,
          ⟨0, 0, 6⟩, ⟨0, 0, 7⟩, ⟨2, 100, 9⟩, ⟨3, 200, 10⟩, ⟨4, 300, 11⟩, ⟨5, 400, 12⟩,
          ⟨6, 500, 13⟩] (Dist.root 101) =
      [8, 1, 0, 0, 0, 0, 0, 0, 0, 0, 0, 0, 0, 0] := by
  refine ⟨by decide!, by decide!⟩

/-! ## The number of comparisons of the recursion -/

/-! ### Packing -/

theorem half_close (s u v : ℚ) (hu0 : 0 ≤ u) (hv0 : 0 ≤ v) (hu : u * u < s) (hv : v * v < s)
    (hc : decide (4 * (u * u) < s) = decide (4 * (v * v) < s)) :
    4 * ((u - v) * (u - v)) < s := by
  by_cases h1 : 4 * (u * u) < s
  · have h2 : 4 * (v * v) < s := by simpa [h1] using hc.symm
    rcases le_total u v with h | h
    · nlinarith [mul_nonneg hu0 (sub_nonneg.2 h)]
    · nlinarith [mul_nonneg hv0 (sub_nonneg.2 h)]
  · have h2 : ¬ 4 * (v * v) < s := by simpa [h1] using hc.symm
    rw [not_lt] at h1 h2
    rcases le_total u v with h | h
    · have h3 : v < 2 * u := by
        by_contra hcon
        rw [not_lt] at hcon
        nlinarith [mul_nonneg hu0 hu0]
      nlinarith [mul_nonneg (sub_nonneg.2 h) (sub_nonneg.2 h)]
    · have h3 : u < 2 * v := by
        by_contra hcon
        rw [not_lt] at hcon
        nlinarith [mul_nonneg hv0 hv0]
      nlinarith [mul_nonneg (sub_nonneg.2 h) (sub_nonneg.2 h)]

theorem in_reach_iff (s : ℚ) (p q : Point) :
    in_reach s p q = true ↔ p.y ≤ q.y ∧ (q.y - p.y) * (q.y - p.y) < s := by
  simp [in_reach]

theorem cell_ne_of_far (s : ℚ) (m q a b : Point)
    (hside : (a.x ≤ m.x ∧ b.x ≤ m.x) ∨ (m.x ≤ a.x ∧ m.x ≤ b.x))
    (ha : (a.x - m.x) * (a.x - m.x) < s) (hb : (b.x - m.x) * (b.x - m.x) < s)
    (hra : in_reach s a q = true) (hrb : in_reach s b q = true)
    (hfar : Dist.root s ≤ distance a b) : cell s m q a ≠ cell s m q b := by
  intro hc
  simp only [cell, Prod.mk.injEq] at hc
  obtain ⟨hcx, hcy⟩ := hc
  rw [in_reach_iff] at hra hrb
  rw [distance, Dist.root_le_root] at hfar
  simp only [dist_sq] at hfar
  have hy := half_close s (q.y - a.y) (q.y - b.y) (sub_nonneg.2 hra.1) (sub_nonneg.2 hrb.1)
    hra.2 hrb.2 hcy
  have hs : 0 < s := lt_of_le_of_lt (mul_self_nonneg _) ha
  rcases hside with ⟨h1, h2⟩ | ⟨h1, h2⟩
  · have hx := half_close s (m.x - a.x) (m.x - b.x) (sub_nonneg.2 h1) (sub_nonneg.2 h2)
      (by nlinarith) (by nlinarith)
      (by
        have e1 : (m.x - a.x) * (m.x - a.x) = (a.x - m.x) * (a.x - m.x) := by ring
        have e2 : (m.x - b.x) * (m.x - b.x) = (b.x - m.x) * (b.x - m.x) := by ring
        rw [e1, e2]; exact hcx)
    nlinarith
  · have hx := half_close s (a.x - m.x) (b.x - m.x) (sub_nonneg.2 h1) (sub_nonneg.2 h2)
      ha hb hcx
    nlinarith

/-- At most four points, pairwise at least `√s` apart, lie on one side of the
dividing line in the strip and within reach of one point `q`. -/
theorem packing (s : ℚ) (m q : Point) (X : List Point)
    (hside : (∀ p ∈ X, p.x ≤ m.x) ∨ (∀ p ∈ X, m.x ≤ p.x))
    (hstrip : ∀ p ∈ X, (p.x - m.x) * (p.x - m.x) < s)
    (hreach : ∀ p ∈ X, in_reach s p q = true)
    (hsep : X.Pairwise (fun a b => Dist.root s ≤ distance a b)) : X.length ≤ 4 := by
  have hnodup : (X.map (cell s m q)).Nodup := by
    rw [List.Nodup, List.pairwise_map]
    refine hsep.imp_of_mem ?_
    intro a b ha hb hfar
    refine cell_ne_of_far s m q a b ?_ (hstrip a ha) (hstrip b hb) (hreach a ha) (hreach b hb) hfar
    rcases hside with h | h
    · exact Or.inl ⟨h a ha, h b hb⟩
    · exact Or.inr ⟨h a ha, h b hb⟩
  have h := hnodup.length_le_card
  simpa using h

/-! ### The cost of a strip scan -/

/-- Once the threshold is at most `0` the loop condition fails for every
point that is not below `strip[i]`. -/
theorem rat_lt_of_le_zero (q : ℚ) (d : Dist) (hd : d ≤ Dist.root 0) (hq : 0 ≤ q) :
    Dist.rat_lt q d = false := by
  cases d with
  | inf => simp at hd
  | root t =>
    simp only [Dist.root_le_root] at hd
    rw [Dist.rat_lt_eq_false_iff]
    exact ⟨t, rfl, hq, hd.trans (mul_self_nonneg q)⟩

theorem le_zero_of_rat_lt (d : Dist) (h : Dist.rat_lt 0 d = false) : d ≤ Dist.root 0 := by
  obtain ⟨t, rfl, _, ht⟩ := (Dist.rat_lt_eq_false_iff _ _).1 h
  simpa using ht

theorem strip_inner_dead (pi : Point) (rest : List Point) (s : Scan)
    (hd : s.min_dist ≤ Dist.root 0) (hpi : ∀ q ∈ rest, pi.y ≤ q.y) :
    strip_inner pi rest s = s := by
  cases rest with
  | nil => rfl
  | cons pj rest =>
    simp only [strip_inner]
    rw [rat_lt_of_le_zero _ _ hd (sub_nonneg.2 (hpi pj (List.mem_cons_self _ _)))]
    simp

theorem strip_outer_dead (l : List Point) (s : Scan)
    (hd : s.min_dist ≤ Dist.root 0) (hs : l.Pairwise (fun a b => a.y ≤ b.y)) :
    strip_outer l s = s := by
  induction l with
  | nil => rfl
  | cons pi rest ih =>
    have hs' := List.pairwise_cons.1 hs
    simp only [strip_outer]
    rw [strip_inner_dead pi rest s hd hs'.1]
    exact ih hs'.2

/-- The inner loop evaluates only points within reach. -/
theorem strip_inner_count (t : ℚ) (pi : Point) (rest : List Point) (s : Scan)
    (hd : s.min_dist ≤ Dist.root t) (hpi : ∀ q ∈ rest, pi.y ≤ q.y) :
    (strip_inner pi rest s).comparisons ≤ s.comparisons + (rest.countP (in_reach t pi) : ℕ) := by
  induction rest generalizing s with
  | nil => simp [strip_inner]
  | cons pj rest ih =>
    simp only [strip_inner]
    split
    · rename_i hc
      have hy : pi.y ≤ pj.y := hpi pj (List.mem_cons_self _ _)
      have hr : in_reach t pi pj = true := by
        rw [in_reach_iff]
        refine ⟨hy, ?_⟩
        cases hm : s.min_dist with
        | inf => rw [hm] at hd; simp at hd
        | root u =>
          rw [hm] at hd hc
          simp only [Dist.root_le_root] at hd
          simp only [Dist.rat_lt, Bool.or_eq_true, decide_eq_true_eq] at hc
          rcases hc with hc | hc
          · exact absurd hc (not_lt.2 (sub_nonneg.2 hy))
          · exact lt_of_lt_of_le hc hd
      have h1 := ih (scan_pair pi pj s)
        (((scan_pair_extends pi pj s).le).trans hd)
        (fun q hq => hpi q (List.mem_cons_of_mem _ hq))
      rw [scan_pair_comparisons] at h1
      rw [List.countP_cons_of_pos _ _ hr]
      push_cast
      omega
    · have : (0 : Int) ≤ (List.countP (in_reach t pi) (pj :: rest) : ℕ) := Int.natCast_nonneg _
      omega

/-- When the first two points of the sorted strip coincide, the scan
evaluates at most one distance. -/
theorem strip_outer_coincident (p q : Point) (rest : List Point) (s : Scan)
    (hpq : coords p = coords q) (hs : (p :: q :: rest).Pairwise (fun a b => a.y ≤ b.y)) :
    (strip_outer (p :: q :: rest) s).comparisons ≤ s.comparisons + 1 := by
  have hs' := List.pairwise_cons.1 hs
  have hs'' := List.pairwise_cons.1 hs'.2
  have hco : p.x = q.x ∧ p.y = q.y := (coords_eq_iff p q).1 hpq
  simp only [strip_outer, strip_inner]
  split
  · have hdead : (scan_pair p q s).min_dist ≤ Dist.root 0 := by
      have h := scan_pair_le_distance p q s
      rwa [distance_eq_zero_of_coincide hco.1 hco.2] at h
    rw [strip_inner_dead p rest _ hdead (fun r hr => hs'.1 r (List.mem_cons_of_mem _ hr)),
      strip_inner_dead q rest _ hdead hs''.1, strip_outer_dead rest _ hdead hs''.2,
      scan_pair_comparisons]
  · rename_i hc
    simp only [Bool.not_eq_true] at hc
    rw [hco.2, sub_self] at hc
    have hdead := le_zero_of_rat_lt _ hc
    rw [strip_inner_dead q rest _ hdead hs''.1, strip_outer_dead rest _ hdead hs''.2]
    omega

theorem reach_count_nil (t : ℚ) (l : List Point) : reach_count t [] l = 0 := rfl

theorem reach_count_cons (t : ℚ) (p : Point) (rows l : List Point) :
    reach_count t (p :: rows) l = l.countP (in_reach t p) + reach_count t rows l := rfl

theorem reach_count_mono (t : ℚ) (rows : List Point) {l l' : List Point}
    (h : List.Sublist l l') : reach_count t rows l ≤ reach_count t rows l' := by
  induction rows with
  | nil => exact le_refl _
  | cons p rows ih =>
    rw [reach_count_cons, reach_count_cons]
    exact Nat.add_le_add (h.countP_le _) ih

/-- The scan of a sorted strip evaluates at most one distance more than
there are pairs of a row before the first coincident neighbours and a point
within its reach. -/
theorem strip_outer_count (t : ℚ) (l : List Point) (s : Scan)
    (hd : s.min_dist ≤ Dist.root t) (hs : l.Pairwise (fun a b => a.y ≤ b.y)) :
    (strip_outer l s).comparisons ≤
      s.comparisons + 1 + (reach_count t (distinct_front l) l : ℕ) := by
  induction l generalizing s with
  | nil => simp [strip_outer, distinct_front, reach_count]
  | cons p l ih =>
    cases l with
    | nil =>
      simp only [strip_outer, strip_inner]
      have : (0 : Int) ≤ (reach_count t (distinct_front [p]) [p] : ℕ) := Int.natCast_nonneg _
      omega
    | cons q rest =>
      by_cases hpq : coords p = coords q
      · have h1 := strip_outer_coincident p q rest s hpq hs
        have : (0 : Int) ≤ (reach_count t (distinct_front (p :: q :: rest)) (p :: q :: rest) : ℕ) :=
          Int.natCast_nonneg _
        omega
      · have hs' := List.pairwise_cons.1 hs
        have e : distinct_front (p :: q :: rest) = p :: distinct_front (q :: rest) := by
          simp only [distinct_front, hpq, if_false]
        rw [e, reach_count_cons]
        have h1 := strip_inner_count t p (q :: rest) s hd hs'.1
        have h2 := ih (strip_inner p (q :: rest) s)
          (((strip_inner_extends p (q :: rest) s).le).trans hd) hs'.2
        have h3 : (q :: rest).countP (in_reach t p) ≤ (p :: q :: rest).countP (in_reach t p) :=
          (List.sublist_cons_self p (q :: rest)).countP_le _
        have h4 := reach_count_mono t (distinct_front (q :: rest))
          (List.sublist_cons_self p (q :: rest))
        have e2 : strip_outer (p :: q :: rest) s =
            strip_outer (q :: rest) (strip_inner p (q :: rest) s) := rfl
        rw [e2]
        push_cast
        have h3' : ((q :: rest).countP (in_reach t p) : Int) ≤
            ((p :: q :: rest).countP (in_reach t p) : Int) := by exact_mod_cast h3
        have h4' : (reach_count t (distinct_front (q :: rest)) (q :: rest) : Int) ≤
            (reach_count t (distinct_front (q :: rest)) (p :: q :: rest) : Int) := by
          exact_mod_cast h4
        omega

theorem sum_map_indicator_add (P : Point → Bool) (g : Point → ℕ) (l : List Point) :
    (l.map (fun q => (if P q = true then 1 else 0) + g q)).sum = l.countP P + (l.map g).sum := by
  induction l with
  | nil => rfl
  | cons a l ih =>
    simp only [List.map_cons, List.sum_cons, ih, List.countP_cons]
    omega

/-- Counting the pairs by rows or by columns gives the same number. -/
theorem reach_count_columns (t : ℚ) (rows l : List Point) :
    reach_count t rows l = (l.map (fun q => rows.countP (fun p => in_reach t p q))).sum := by
  induction rows with
  | nil => simp [reach_count]
  | cons p rows ih =>
    rw [reach_count_cons, ih, ← sum_map_indicator_add]
    congr 1
    refine List.map_congr_left ?_
    intro q _
    rw [List.countP_cons]
    omega

theorem reach_count_le (t : ℚ) (rows l : List Point) (k : ℕ)
    (h : ∀ q ∈ l, (rows.filter (fun p => in_reach t p q)).length ≤ k) :
    reach_count t rows l ≤ k * l.length := by
  rw [reach_count_columns]
  have h1 := List.sum_le_card_nsmul (l.map (fun q => rows.countP (fun p => in_reach t p q))) k
    (by
      intro x hx
      obtain ⟨q, hq, rfl⟩ := List.mem_map.1 hx
      rw [List.countP_eq_length_filter]
      exact h q hq)
  simpa [mul_comm] using h1

theorem distinct_front_sublist (l : List Point) : List.Sublist (distinct_front l) l := by
  induction l with
  | nil => exact List.Sublist.refl _
  | cons p l ih =>
    cases l with
    | nil => exact List.Sublist.refl _
    | cons q rest =>
      simp only [distinct_front]
      split
      · exact List.nil_sublist _
      · exact List.Sublist.cons₂ _ ih

/-- In a list sorted by `compare_y` the points before the first coincident
neighbours have pairwise different coordinates. -/
theorem distinct_front_pairwise (l : List Point)
    (hs : l.Pairwise (fun a b => compare_y b a = false)) :
    (distinct_front l).Pairwise (fun a b => coords a ≠ coords b) := by
  induction l with
  | nil => exact List.Pairwise.nil
  | cons p l ih =>
    cases l with
    | nil => simp [distinct_front]
    | cons q rest =>
      have hs' := List.pairwise_cons.1 hs
      have hs'' := List.pairwise_cons.1 hs'.2
      simp only [distinct_front]
      split
      · exact List.Pairwise.nil
      · rename_i hpq
        refine List.Pairwise.cons ?_ (ih hs'.2)
        intro r hr hpr
        have hr' : r ∈ q :: rest := (distinct_front_sublist (q :: rest)).subset hr
        rcases List.mem_cons.1 hr' with rfl | hr'
        · exact hpq hpr
        · have h1 : compare_y q p = false := hs'.1 q (List.mem_cons_self _ _)
          have h2 : compare_y r q = false := hs''.1 r hr'
          have h3 : compare_y p q = false := by
            rw [(primitives_of_coords hpr (rfl : coords q = coords q)).2.2]
            exact h2
          exact hpq ((coords_eq_iff p q).2 (coincide_of_compare_y h3 h1))

/-! ### The split of a sorted view -/

theorem le_x_of_compare_x {a b : Point} (h : compare_x b a = false) : a.x ≤ b.x := by
  rcases (compare_x_eq_false_iff b a).1 h with h | ⟨h, _⟩
  · exact h.le
  · exact h.le

/-- The element at position `k` of a sorted vector is not before any element
of the first `k` and not after any element from position `k` on. -/
theorem sorted_split (px : List Point) (k : ℕ) (hk : k < px.length)
    (hsort : px.Pairwise (fun a b => compare_x b a = false)) :
    (∀ a ∈ px.take k, compare_x (px.get ⟨k, hk⟩) a = false) ∧
    (∀ b ∈ px.drop k, compare_x b (px.get ⟨k, hk⟩) = false) := by
  have hsplit : px.take k ++ px.drop k = px := List.take_append_drop _ _
  have hdrop : px.drop k = px.get ⟨k, hk⟩ :: px.drop (k + 1) := by
    rw [List.get_eq_getElem]
    exact List.drop_eq_getElem_cons hk
  rw [← hsplit] at hsort
  have hs := List.pairwise_append.1 hsort
  have hm : px.get ⟨k, hk⟩ ∈ px.drop k := by rw [hdrop]; exact List.mem_cons_self _ _
  refine ⟨fun a ha => hs.2.2 a ha _ hm, ?_⟩
  intro b hb
  rw [hdrop] at hb
  rcases List.mem_cons.1 hb with rfl | hb
  · exact compare_x_self _
  · have := hs.2.1
    rw [hdrop] at this
    exact (List.pairwise_cons.1 this).1 b hb

theorem filter_left_sublist (m : Point) (tk dr : List Point)
    (hdr : ∀ b ∈ dr, compare_x b m = false) :
    List.Sublist ((tk ++ dr).filter (fun p => left_of m p)) tk := by
  rw [List.filter_append]
  have h2 : dr.filter (fun p => left_of m p) = [] :=
    List.filter_eq_nil_iff.2 (fun b hb => by rw [left_of_eq_compare_x, hdr b hb]; simp)
  rw [h2, List.append_nil]
  exact List.filter_sublist _

theorem filter_right_sublist (m : Point) (tk dr : List Point)
    (htk : ∀ a ∈ tk, compare_x m a = false) :
    List.Sublist ((tk ++ dr).filter (fun p => compare_x m p)) dr := by
  rw [List.filter_append]
  have h2 : tk.filter (fun p => compare_x m p) = [] :=
    List.filter_eq_nil_iff.2 (fun a ha => by rw [htk a ha]; simp)
  rw [h2, List.nil_append]
  exact List.filter_sublist _

theorem pairwise_distance_of_subperm {d : Dist} {l K : List Point} (hK : K.Subperm l)
    (h : l.Pairwise (fun a b => d ≤ distance a b)) : K.Pairwise (fun a b => d ≤ distance a b) := by
  obtain ⟨K', hp, hs⟩ := hK
  exact pairwise_distance_perm hp (h.sublist hs)

/-- Whatever `points_y` holds: the distance returned by the recursion on a
sorted `points_x` is a lower bound for every two points taken from two
different positions of a list that is part of both `points_x` and
`points_y`. -/
theorem closest_pair_recursive_separates :
    ∀ (n : ℕ) (px py : List Point) (c : Int), px.length ≤ n →
      px.Pairwise (fun a b => compare_x b a = false) →
      ∀ K : List Point, K.Subperm px → K.Subperm py →
      K.Pairwise (fun a b => (closest_pair_recursive px py c).1.distance ≤ distance a b) := by
  intro n
  induction n with
  | zero =>
    intro px py c hn _ K hKx _
    rw [closest_pair_recursive_base px py c (by omega)]
    exact pairwise_distance_of_subperm hKx (brute_force_impl_pairwise px c)
  | succ n ih =>
    intro px py c hn hsort K hKx hKy
    by_cases hb : px.length ≤ 3
    · rw [closest_pair_recursive_base px py c hb]
      exact pairwise_distance_of_subperm hKx (brute_force_impl_pairwise px c)
    · rw [closest_pair_recursive_step px py c hb]
      have hmid : px.length / 2 < px.length := by omega
      have hsplit : px.take (px.length / 2) ++ px.drop (px.length / 2) = px :=
        List.take_append_drop _ _
      obtain ⟨hta, hdb⟩ := sorted_split px (px.length / 2) hmid hsort
      have hlt : (px.take (px.length / 2)).length ≤ n := by rw [List.length_take]; omega
      have hld : (px.drop (px.length / 2)).length ≤ n := by rw [List.length_drop]; omega
      have hs : (px.take (px.length / 2)).Pairwise (fun a b => compare_x b a = false) ∧
          (px.drop (px.length / 2)).Pairwise (fun a b => compare_x b a = false) :=
        ⟨hsort.sublist (List.take_sublist _ _), hsort.sublist (List.drop_sublist _ _)⟩
      generalize px.get ⟨px.length / 2, hmid⟩ = m at hta hdb ⊢
      generalize px.take (px.length / 2) = tk at hsplit hlt hta hs ⊢
      generalize px.drop (px.length / 2) = dr at hsplit hld hdb hs ⊢
      subst hsplit
      -- the three parts of `K`
      have hKN : (K.filter (fun p => !left_of m p)).Subperm (tk ++ dr) :=
        (List.filter_sublist _).subperm.trans hKx
      have hL := ih tk (py.filter (fun p => left_of m p)) c hlt hs.1
        (K.filter (fun p => left_of m p))
        ((hKx.filter _).trans (filter_left_sublist m tk dr hdb).subperm) (hKy.filter _)
      have hR := ih dr (py.filter (fun p => !left_of m p))
        (closest_pair_recursive tk (py.filter (fun p => left_of m p)) c).2 hld hs.2
        ((K.filter (fun p => !left_of m p)).filter (fun p => compare_x m p))
        ((hKN.filter _).trans (filter_right_sublist m tk dr hta).subperm)
        ((List.filter_sublist _).subperm.trans (hKy.filter _))
      have hle := combine_le py m
        (closest_pair_recursive tk (py.filter (fun p => left_of m p)) c).1
        (closest_pair_recursive dr (py.filter (fun p => !left_of m p))
          (closest_pair_recursive tk (py.filter (fun p => left_of m p)) c).2).1
        (closest_pair_recursive dr (py.filter (fun p => !left_of m p))
          (closest_pair_recursive tk (py.filter (fun p => left_of m p)) c).2).2
      have hcross := combine_cross py m
        (closest_pair_recursive tk (py.filter (fun p => left_of m p)) c).1
        (closest_pair_recursive dr (py.filter (fun p => !left_of m p))
          (closest_pair_recursive tk (py.filter (fun p => left_of m p)) c).2).1
        (closest_pair_recursive dr (py.filter (fun p => !left_of m p))
          (closest_pair_recursive tk (py.filter (fun p => left_of m p)) c).2).2
      generalize (combine py m
        (closest_pair_recursive tk (py.filter (fun p => left_of m p)) c).1
        (closest_pair_recursive dr (py.filter (fun p => !left_of m p))
          (closest_pair_recursive tk (py.filter (fun p => left_of m p)) c).2).1
        (closest_pair_recursive dr (py.filter (fun p => !left_of m p))
          (closest_pair_recursive tk (py.filter (fun p => left_of m p)) c).2).2).1.distance = D
        at hle hcross ⊢
      have hp1 : (K.filter (fun p => left_of m p) ++ K.filter (fun p => !left_of m p)).Perm K :=
        List.filter_append_perm _ K
      have hp2 : ((K.filter (fun p => !left_of m p)).filter (fun p => compare_x m p) ++
          (K.filter (fun p => !left_of m p)).filter (fun p => !compare_x m p)).Perm
          (K.filter (fun p => !left_of m p)) :=
        List.filter_append_perm _ _
      have hmemN : ∀ b ∈ K.filter (fun p => !left_of m p), m.x ≤ b.x := by
        intro b hb
        have h1 := (List.mem_filter.1 hb).2
        simp only [Bool.not_eq_true', left_of_eq_compare_x] at h1
        exact le_x_of_compare_x h1
      have hmemM : ∀ b ∈ (K.filter (fun p => !left_of m p)).filter (fun p => !compare_x m p),
          b.x = m.x := by
        intro b hb
        have h1 := (List.mem_filter.1 hb)
        have h2 := (List.mem_filter.1 h1.1).2
        have h3 := h1.2
        simp only [Bool.not_eq_true', left_of_eq_compare_x] at h2 h3
        exact (coincide_of_compare_x h2 h3).1
      have hN : (K.filter (fun p => !left_of m p)).Pairwise (fun a b => D ≤ distance a b) := by
        refine pairwise_distance_perm hp2 (List.pairwise_append.2 ⟨?_, ?_, ?_⟩)
        · exact hR.imp (fun h => hle.2.trans h)
        · rw [List.pairwise_iff_forall_sublist]
          intro a b hab
          have ha : a ∈ (K.filter (fun p => !left_of m p)).filter (fun p => !compare_x m p) :=
            hab.subset (List.mem_cons_self _ _)
          have hb : b ∈ (K.filter (fun p => !left_of m p)).filter (fun p => !compare_x m p) :=
            hab.subset (List.mem_cons_of_mem _ (List.mem_singleton_self _))
          refine hcross a b ?_ (hmemM a ha).le (hmemM b hb).ge
          exact ((hab.trans (List.filter_sublist _)).trans (List.filter_sublist _)).subperm.trans hKy
        · intro a ha b hb
          rw [distance_comm]
          have hsub : List.Sublist [a, b]
              ((K.filter (fun p => !left_of m p)).filter (fun p => compare_x m p) ++
                (K.filter (fun p => !left_of m p)).filter (fun p => !compare_x m p)) :=
            List.Sublist.append (List.singleton_sublist.2 ha) (List.singleton_sublist.2 hb)
          refine hcross b a ?_ (hmemM b hb).le (hmemN a (List.mem_filter.1 ha).1)
          exact (List.Perm.swap a b []).subperm.trans
            (((hsub.subperm.trans hp2.subperm).trans (List.filter_sublist _).subperm).trans hKy)
      refine pairwise_distance_perm hp1 (List.pairwise_append.2 ⟨?_, hN, ?_⟩)
      · exact hL.imp (fun h => hle.1.trans h)
      · intro a ha b hb
        have hsub : List.Sublist [a, b]
            (K.filter (fun p => left_of m p) ++ K.filter (fun p => !left_of m p)) :=
          List.Sublist.append (List.singleton_sublist.2 ha) (List.singleton_sublist.2 hb)
        refine hcross a b ((hsub.subperm.trans hp1.subperm).trans hKy) ?_ (hmemN b hb)
        have h1 := (List.mem_filter.1 ha).2
        rw [left_of_eq_compare_x] at h1
        rcases (compare_x_eq_true_iff a m).1 h1 with h | ⟨h, _⟩
        · exact h.le
        · exact h.le

/-! ### What `points_y` holds -/

theorem same_place_iff (a p : Point) : same_place a p = true ↔ coords p = coords a := by
  simp [same_place]

theorem length_filter_add (p : Point → Bool) (l : List Point) :
    (l.filter p).length + (l.filter (fun a => !p a)).length = l.length := by
  rw [← List.length_append]
  exact (List.filter_append_perm p l).length_eq

theorem filter_swap (p q : Point → Bool) (l : List Point) :
    (l.filter p).filter q = (l.filter q).filter p := by
  simp only [List.filter_filter]
  refine List.filter_congr ?_
  intro a _
  exact Bool.and_comm _ _

theorem length_le_one_of_same_place (a : Point) (l : List Point)
    (hd : l.Pairwise (fun p q => coords p ≠ coords q)) (hs : ∀ p ∈ l, same_place a p = true) :
    l.length ≤ 1 := by
  match l, hd, hs with
  | [], _, _ => simp
  | [_], _, _ => simp
  | p :: q :: rest, hd, hs =>
    exfalso
    have h1 := (same_place_iff a p).1 (hs p (List.mem_cons_self _ _))
    have h2 := (same_place_iff a q).1 (hs q (List.mem_cons_of_mem _ (List.mem_cons_self _ _)))
    exact (List.pairwise_cons.1 hd).1 q (List.mem_cons_self _ _) (h1.trans h2.symm)

/-- The left call gets a `points_y` of the same kind: apart from points at the
place of `first`, it is part of `left_x`. -/
theorem views_left (m first : Point) (tk dr py : List Point)
    (hdb : ∀ b ∈ dr, compare_x b m = false)
    (hW : (py.filter (fun p => !same_place first p)).Subperm (tk ++ dr)) :
    ((py.filter (fun p => left_of m p)).filter (fun p => !same_place first p)).Subperm tk := by
  rw [filter_swap]
  exact (hW.filter _).trans (filter_left_sublist m tk dr hdb).subperm

/-- The right call gets a `points_y` of the same kind: apart from points at
the place of `mid_point`, it is part of `right_x`. -/
theorem views_right (m first : Point) (tk dr py : List Point)
    (hta : ∀ a ∈ tk, compare_x m a = false) (hfirst : compare_x m first = false)
    (hW : (py.filter (fun p => !same_place first p)).Subperm (tk ++ dr)) :
    ((py.filter (fun p => !left_of m p)).filter (fun p => !same_place m p)).Subperm dr := by
  have e : (py.filter (fun p => !left_of m p)).filter (fun p => !same_place m p) =
      (py.filter (fun p => !same_place first p)).filter (fun p => compare_x m p) := by
    simp only [List.filter_filter]
    refine List.filter_congr ?_
    intro p _
    rw [Bool.eq_iff_iff]
    simp only [Bool.and_eq_true, Bool.not_eq_true', left_of_eq_compare_x]
    constructor
    · rintro ⟨h1, h2⟩
      have hne : coords p ≠ coords m := by
        intro h
        rw [(same_place_iff m p).2 h] at h1
        exact Bool.noConfusion h1
      have hmp : compare_x m p = true := by
        rcases compare_x_trichotomy hne with h | h
        · rw [h.1] at h2; exact Bool.noConfusion h2
        · exact h.2
      refine ⟨hmp, ?_⟩
      cases hsp : same_place first p with
      | false => rfl
      | true =>
        have h3 := (same_place_iff first p).1 hsp
        rw [(primitives_of_coords (rfl : coords m = coords m) h3).2.1, hfirst] at hmp
        exact Bool.noConfusion hmp
    · rintro ⟨h1, _⟩
      refine ⟨?_, compare_x_asymmetric m p h1⟩
      cases hsp : same_place m p with
      | false => rfl
      | true =>
        have h3 := (same_place_iff m p).1 hsp
        rw [compare_x_of_coords_eq h3.symm] at h1
        exact Bool.noConfusion h1
  rw [e]
  exact (hW.filter _).trans (filter_right_sublist m tk dr hta).subperm

/-- A column of the count: at most ten points with pairwise different
coordinates lie in the strip within reach of one point `q`: one at the place
of `first`, one at the place of `mid_point`, four from `left_x` and four from
`right_x`. -/
theorem column_le (t : ℚ) (m q first : Point) (tk dr py X : List Point)
    (hta : ∀ a ∈ tk, compare_x m a = false) (hdb : ∀ b ∈ dr, compare_x b m = false)
    (hW : (py.filter (fun p => !same_place first p)).Subperm (tk ++ dr))
    (hL : ∀ K : List Point, K.Subperm tk → K.Subperm (py.filter (fun p => left_of m p)) →
      K.Pairwise (fun a b => Dist.root t ≤ distance a b))
    (hR : ∀ K : List Point, K.Subperm dr → K.Subperm (py.filter (fun p => !left_of m p)) →
      K.Pairwise (fun a b => Dist.root t ≤ distance a b))
    (hX : X.Subperm py) (hdist : X.Pairwise (fun a b => coords a ≠ coords b))
    (hstrip : ∀ p ∈ X, (p.x - m.x) * (p.x - m.x) < t)
    (hreach : ∀ p ∈ X, in_reach t p q = true) : X.length ≤ 10 := by
  have h1 := length_filter_add (same_place first) X
  have h2 := length_filter_add (same_place m) (X.filter (fun p => !same_place first p))
  have h3 := length_filter_add (fun p => left_of m p)
    ((X.filter (fun p => !same_place first p)).filter (fun p => !same_place m p))
  have s2 : List.Sublist (X.filter (fun p => !same_place first p)) X := List.filter_sublist _
  have s4 : List.Sublist
      ((X.filter (fun p => !same_place first p)).filter (fun p => !same_place m p)) X :=
    (List.filter_sublist _).trans s2
  have b1 : (X.filter (same_place first)).length ≤ 1 :=
    length_le_one_of_same_place first _ (hdist.sublist (List.filter_sublist _))
      (fun p hp => (List.mem_filter.1 hp).2)
  have b3 : ((X.filter (fun p => !same_place first p)).filter (same_place m)).length ≤ 1 :=
    length_le_one_of_same_place m _ (hdist.sublist ((List.filter_sublist _).trans s2))
      (fun p hp => (List.mem_filter.1 hp).2)
  have hX2 : (X.filter (fun p => !same_place first p)).Subperm (tk ++ dr) :=
    (hX.filter _).trans hW
  have hX4 : ((X.filter (fun p => !same_place first p)).filter
      (fun p => !same_place m p)).Subperm (tk ++ dr) :=
    (List.filter_sublist _).subperm.trans hX2
  have hX4y : ((X.filter (fun p => !same_place first p)).filter
      (fun p => !same_place m p)).Subperm py := s4.subperm.trans hX
  have hm4 : ∀ p ∈ (X.filter (fun p => !same_place first p)).filter (fun p => !same_place m p),
      same_place m p = false := by
    intro p hp
    simpa using (List.mem_filter.1 hp).2
  generalize (X.filter (fun p => !same_place first p)).filter (fun p => !same_place m p) = X4
    at h2 h3 s4 hX4 hX4y hm4
  have hL4 : (X4.filter (fun p => left_of m p)).length ≤ 4 := by
    refine packing t m q _ (Or.inl ?_) (fun p hp => hstrip p (s4.subset (List.mem_filter.1 hp).1))
      (fun p hp => hreach p (s4.subset (List.mem_filter.1 hp).1))
      (hL _ ((hX4.filter _).trans (filter_left_sublist m tk dr hdb).subperm) (hX4y.filter _))
    intro p hp
    have h := (List.mem_filter.1 hp).2
    rw [left_of_eq_compare_x] at h
    exact le_x_of_compare_x (compare_x_asymmetric p m h)
  have hR4 : (X4.filter (fun p => !left_of m p)).length ≤ 4 := by
    have hmem : ∀ p ∈ X4.filter (fun p => !left_of m p), compare_x m p = true := by
      intro p hp
      have h := List.mem_filter.1 hp
      have h2 : compare_x p m = false := by simpa [left_of_eq_compare_x] using h.2
      have hne : coords p ≠ coords m := by
        intro hc
        have := hm4 p h.1
        rw [(same_place_iff m p).2 hc] at this
        exact Bool.noConfusion this
      rcases compare_x_trichotomy hne with h3 | h3
      · rw [h3.1] at h2; exact Bool.noConfusion h2
      · exact h3.2
    have e : (X4.filter (fun p => !left_of m p)).filter (fun p => compare_x m p) =
        X4.filter (fun p => !left_of m p) := List.filter_eq_self.2 hmem
    refine packing t m q _ (Or.inr ?_) (fun p hp => hstrip p (s4.subset (List.mem_filter.1 hp).1))
      (fun p hp => hreach p (s4.subset (List.mem_filter.1 hp).1))
      (hR _ ?_ (hX4y.filter _))
    · intro p hp
      exact le_x_of_compare_x (compare_x_asymmetric m p (hmem p hp))
    · rw [← e]
      exact ((((List.filter_sublist _).subperm.trans hX4).filter _).trans
        (filter_right_sublist m tk dr hta).subperm)
  omega

/-! ### The cost of the combine step -/

theorem sq_lt_of_in_strip (t : ℚ) (m p : Point) (h : in_strip m (Dist.root t) p = true) :
    (p.x - m.x) * (p.x - m.x) < t := by
  simp only [in_strip, Dist.rat_lt, Bool.or_eq_true, decide_eq_true_eq] at h
  rcases h with h | h
  · exact absurd h (not_lt.2 (abs_nonneg _))
  · rwa [abs_mul_abs_self] at h

/-- The strip scan of a call evaluates at most `10 * strip.size() + 1`
distances. -/
theorem find_strip_closest_count (t : ℚ) (m first : Point) (tk dr py : List Point) (c : Int)
    (hta : ∀ a ∈ tk, compare_x m a = false) (hdb : ∀ b ∈ dr, compare_x b m = false)
    (hW : (py.filter (fun p => !same_place first p)).Subperm (tk ++ dr))
    (hL : ∀ K : List Point, K.Subperm tk → K.Subperm (py.filter (fun p => left_of m p)) →
      K.Pairwise (fun a b => Dist.root t ≤ distance a b))
    (hR : ∀ K : List Point, K.Subperm dr → K.Subperm (py.filter (fun p => !left_of m p)) →
      K.Pairwise (fun a b => Dist.root t ≤ distance a b)) :
    (find_strip_closest (py.filter (in_strip m (Dist.root t))) (Dist.root t) c).2 ≤
      c + 1 + 10 * ((py.filter (in_strip m (Dist.root t))).length : ℕ) := by
  simp only [find_strip_closest]
  have hsorted := std_sort_compare_y_sorted (py.filter (in_strip m (Dist.root t)))
  have hperm := std_sort_perm compare_y (py.filter (in_strip m (Dist.root t)))
  have h1 := strip_outer_count t (std_sort compare_y (py.filter (in_strip m (Dist.root t))))
    { min_dist := Dist.root t, p1 := default, p2 := default, comparisons := c } (le_refl _)
    (sorted_y_of_compare_y hsorted)
  have h2 := reach_count_le t
    (distinct_front (std_sort compare_y (py.filter (in_strip m (Dist.root t)))))
    (std_sort compare_y (py.filter (in_strip m (Dist.root t)))) 10 (by
      intro q _
      have hsub : List.Sublist
          ((distinct_front (std_sort compare_y (py.filter (in_strip m (Dist.root t))))).filter
            (fun p => in_reach t p q))
          (std_sort compare_y (py.filter (in_strip m (Dist.root t)))) :=
        (List.filter_sublist _).trans (distinct_front_sublist _)
      refine column_le t m q first tk dr py _ hta hdb hW hL hR ?_ ?_ ?_ ?_
      · exact (hsub.subperm.trans hperm.subperm).trans (List.filter_sublist _).subperm
      · exact (distinct_front_pairwise _ hsorted).sublist (List.filter_sublist _)
      · intro p hp
        have hp2 : p ∈ py.filter (in_strip m (Dist.root t)) := hperm.subset (hsub.subset hp)
        exact sq_lt_of_in_strip t m p (List.mem_filter.1 hp2).2
      · intro p hp
        exact (List.mem_filter.1 hp).2)
  rw [hperm.length_eq] at h2
  have h3 : (reach_count t
      (distinct_front (std_sort compare_y (py.filter (in_strip m (Dist.root t)))))
      (std_sort compare_y (py.filter (in_strip m (Dist.root t)))) : Int) ≤
      10 * ((py.filter (in_strip m (Dist.root t))).length : ℕ) := by exact_mod_cast h2
  simp only [] at h1
  omega

/-- The combine step of a call adds at most `11 * points_y.size()` to the
counter. -/
theorem combine_count (m first : Point) (tk dr py : List Point) (l r : ClosestPairResult)
    (c : Int)
    (hta : ∀ a ∈ tk, compare_x m a = false) (hdb : ∀ b ∈ dr, compare_x b m = false)
    (hW : (py.filter (fun p => !same_place first p)).Subperm (tk ++ dr))
    (hl : ∀ K : List Point, K.Subperm tk → K.Subperm (py.filter (fun p => left_of m p)) →
      K.Pairwise (fun a b => l.distance ≤ distance a b))
    (hr : ∀ K : List Point, K.Subperm dr → K.Subperm (py.filter (fun p => !left_of m p)) →
      K.Pairwise (fun a b => r.distance ≤ distance a b))
    (hfin : l.distance ≠ Dist.inf) :
    (combine py m l r c).2 ≤ c + 11 * (py.length : ℕ) := by
  unfold combine
  simp only []
  generalize hbest : (if Dist.lt l.distance r.distance = true then l else r) = best
  have hb : best.distance ≤ l.distance ∧ best.distance ≤ r.distance := by
    rw [← hbest]
    split
    · rename_i h
      exact ⟨le_refl _, ((Dist.lt_iff _ _).1 h).le⟩
    · rename_i h
      simp only [Bool.not_eq_true] at h
      exact ⟨(Dist.lt_eq_false_iff _ _).1 h, le_refl _⟩
  cases hd : best.distance with
  | inf =>
    rw [hd] at hb
    exact absurd ((Dist.inf_le_iff _).1 hb.1) hfin
  | root t =>
    rw [hd] at hb
    have hcount := find_strip_closest_count t m first tk dr py c hta hdb hW
      (fun K h1 h2 => (hl K h1 h2).imp (fun h => hb.1.trans h))
      (fun K h1 h2 => (hr K h1 h2).imp (fun h => hb.2.trans h))
    have hlen : (py.filter (in_strip m (Dist.root t))).length ≤ py.length :=
      List.length_filter_le _ _
    have hlen' : ((py.filter (in_strip m (Dist.root t))).length : Int) ≤ (py.length : ℕ) := by
      exact_mod_cast hlen
    split
    · rename_i hne
      have hpos : 1 ≤ (py.filter (in_strip m (Dist.root t))).length := by
        cases hf : py.filter (in_strip m (Dist.root t)) with
        | nil => rw [hf] at hne; simp at hne
        | cons _ _ => simp
      have hpos' : (1 : Int) ≤ ((py.filter (in_strip m (Dist.root t))).length : ℕ) := by
        exact_mod_cast hpos
      split <;> omega
    · omega

/-! ### The count of the recursion -/

theorem count_arith (ly ry py T D : ℕ) (hy : ly + ry = py) (hT : T = (T + D) / 2)
    (hn : ¬ T + D ≤ 3) :
    11 * ly * Nat.log 2 (T - 1) + 2 * T + (11 * ry * Nat.log 2 (D - 1) + 2 * D) + 11 * py ≤
      11 * py * Nat.log 2 (T + D - 1) + 2 * (T + D) := by
  have h1 : Nat.log 2 (T - 1) ≤ Nat.log 2 (D - 1) := Nat.log_mono_right (by omega)
  have h2 : Nat.log 2 (T + D - 1) = Nat.log 2 ((T + D - 1) / 2) + 1 :=
    Nat.log_of_one_lt_of_le (by omega) (by omega)
  have h3 : (T + D - 1) / 2 = D - 1 := by omega
  rw [h2, h3, ← hy]
  have h4 : ly * Nat.log 2 (T - 1) ≤ ly * Nat.log 2 (D - 1) := Nat.mul_le_mul_left _ h1
  nlinarith [h4]

/-- Whatever the recursion is called on, as long as `points_x` is sorted and
`points_y` is, apart from points at the place of a point `first` that is not
after any point of `points_x`, part of `points_x`: the call on `n` points in
`points_x` and `k` points in `points_y` adds at most
`11 * k * log2(n - 1) + 2 * n` to the counter. -/
theorem closest_pair_recursive_count :
    ∀ (n : ℕ) (px py : List Point) (c : Int) (first : Point), px.length ≤ n →
      px.Pairwise (fun a b => compare_x b a = false) →
      (∀ a ∈ px, compare_x a first = false) →
      (py.filter (fun p => !same_place first p)).Subperm px →
      (closest_pair_recursive px py c).2 ≤
        c + ((11 * py.length * Nat.log 2 (px.length - 1) + 2 * px.length : ℕ) : Int) := by
  intro n
  induction n with
  | zero =>
    intro px py c first hn _ _ _
    rw [closest_pair_recursive_base px py c (by omega), brute_force_impl_comparisons]
    have h0 : px.length = 0 := by omega
    rw [h0]
    simp
  | succ n ih =>
    intro px py c first hn hsort hfirst hW
    by_cases hb : px.length ≤ 3
    · rw [closest_pair_recursive_base px py c hb, brute_force_impl_comparisons]
      have h1 : px.length * (px.length - 1) / 2 ≤ 2 * px.length := by
        have : px.length = 0 ∨ px.length = 1 ∨ px.length = 2 ∨ px.length = 3 := by omega
        rcases this with h | h | h | h <;> rw [h] <;> decide
      have h2 : px.length * (px.length - 1) / 2 ≤
          11 * py.length * Nat.log 2 (px.length - 1) + 2 * px.length :=
        h1.trans (Nat.le_add_left _ _)
      have h3 : ((px.length * (px.length - 1) / 2 : ℕ) : Int) ≤
          ((11 * py.length * Nat.log 2 (px.length - 1) + 2 * px.length : ℕ) : Int) := by
        exact_mod_cast h2
      omega
    · rw [closest_pair_recursive_step px py c hb]
      have hmid : px.length / 2 < px.length := by omega
      have hsplit : px.take (px.length / 2) ++ px.drop (px.length / 2) = px :=
        List.take_append_drop _ _
      obtain ⟨hta, hdb⟩ := sorted_split px (px.length / 2) hmid hsort
      have hfm : compare_x (px.get ⟨px.length / 2, hmid⟩) first = false :=
        hfirst _ (List.get_mem _ _ _)
      have hlt : (px.take (px.length / 2)).length ≤ n := by rw [List.length_take]; omega
      have hld : (px.drop (px.length / 2)).length ≤ n := by rw [List.length_drop]; omega
      have hT : (px.take (px.length / 2)).length =
          ((px.take (px.length / 2)).length + (px.drop (px.length / 2)).length) / 2 := by
        rw [List.length_take, List.length_drop]; omega
      have hs : (px.take (px.length / 2)).Pairwise (fun a b => compare_x b a = false) ∧
          (px.drop (px.length / 2)).Pairwise (fun a b => compare_x b a = false) :=
        ⟨hsort.sublist (List.take_sublist _ _), hsort.sublist (List.drop_sublist _ _)⟩
      generalize px.get ⟨px.length / 2, hmid⟩ = m at hta hdb hfm ⊢
      generalize px.take (px.length / 2) = tk at hsplit hlt hta hs hT ⊢
      generalize px.drop (px.length / 2) = dr at hsplit hld hdb hs hT ⊢
      subst hsplit
      rw [List.length_append] at hb ⊢
      have hl := ih tk (py.filter (fun p => left_of m p)) c first hlt hs.1
        (fun a ha => hfirst a (List.mem_append_left _ ha)) (views_left m first tk dr py hdb hW)
      have hr := ih dr (py.filter (fun p => !left_of m p))
        (closest_pair_recursive tk (py.filter (fun p => left_of m p)) c).2 m hld hs.2
        hdb (views_right m first tk dr py hta hfm hW)
      have hfound := closest_pair_recursive_found (tk ++ py.filter (fun p => left_of m p)) n tk
        (py.filter (fun p => left_of m p)) c hlt (by omega)
        (List.sublist_append_left _ _).subperm (List.sublist_append_right _ _).subperm
      have hc := combine_count m first tk dr py
        (closest_pair_recursive tk (py.filter (fun p => left_of m p)) c).1
        (closest_pair_recursive dr (py.filter (fun p => !left_of m p))
          (closest_pair_recursive tk (py.filter (fun p => left_of m p)) c).2).1
        (closest_pair_recursive dr (py.filter (fun p => !left_of m p))
          (closest_pair_recursive tk (py.filter (fun p => left_of m p)) c).2).2
        hta hdb hW
        (closest_pair_recursive_separates n tk _ c hlt hs.1)
        (closest_pair_recursive_separates n dr _ _ hld hs.2)
        (by rw [hfound.1]; exact distance_ne_inf _ _)
      have harith := count_arith _ _ _ tk.length dr.length
        (length_filter_add (fun p => left_of m p) py) hT hb
      have harith' : ((11 * (py.filter (fun p => left_of m p)).length * Nat.log 2 (tk.length - 1) +
          2 * tk.length + (11 * (py.filter (fun p => !left_of m p)).length *
            Nat.log 2 (dr.length - 1) + 2 * dr.length) + 11 * py.length : ℕ) : Int) ≤
          ((11 * py.length * Nat.log 2 (tk.length + dr.length - 1) +
            2 * (tk.length + dr.length) : ℕ) : Int) := by
        exact_mod_cast harith
      push_cast at hl hr hc harith' ⊢
      linarith

/-- The counter of the public solver, in integers: on `n ≥ 2` points it is
at most `11 * n * ⌊log2(n - 1)⌋ + 2 * n`. -/
theorem divide_conquer_count (e : ℚ) (points : List Point) (h : 2 ≤ points.length) :
    (divide_conquer_closest_pair e points).comparisons ≤
      ((11 * points.length * Nat.log 2 (points.length - 1) + 2 * points.length : ℕ) : Int) := by
  rw [divide_conquer_of_ge e points h]
  simp only []
  have hsort := std_sort_compare_x_sorted points
  have hlx := std_sort_length compare_x points
  have hly := std_sort_length compare_y points
  have hperm : (std_sort compare_y points).Perm (std_sort compare_x points) :=
    (std_sort_perm compare_y points).trans (std_sort_perm compare_x points).symm
  cases hpx : std_sort compare_x points with
  | nil => rw [hpx] at hlx; simp at hlx; omega
  | cons first rest =>
    rw [hpx] at hsort hlx hperm
    have hfirst : ∀ a ∈ first :: rest, compare_x a first = false := by
      intro a ha
      rcases List.mem_cons.1 ha with rfl | ha
      · exact compare_x_self _
      · exact (List.pairwise_cons.1 hsort).1 a ha
    have hc := closest_pair_recursive_count (first :: rest).length (first :: rest)
      (std_sort compare_y points) 0 first (le_refl _) hsort hfirst
      ((List.filter_sublist _).subperm.trans hperm.subperm)
    rw [hly, hlx] at hc
    simpa using hc

theorem count_real (n : ℕ) (hn : 2 ≤ n) :
    (((11 * n * Nat.log 2 (n - 1) + 2 * n : ℕ) : Int) : ℝ) ≤
      13 * (n : ℝ) * Real.logb 2 (n : ℝ) := by
  have h1 : (Nat.log 2 (n - 1) : ℝ) ≤ Real.logb 2 (n : ℝ) := by
    have h := Real.natLog_le_logb n 2
    have h2 : Nat.log 2 (n - 1) ≤ Nat.log 2 n := Nat.log_mono_right (Nat.sub_le _ _)
    have h3 : (Nat.log 2 (n - 1) : ℝ) ≤ (Nat.log 2 n : ℝ) := by exact_mod_cast h2
    exact h3.trans (by exact_mod_cast h)
  have h4 : (1 : ℝ) ≤ Real.logb 2 (n : ℝ) := by
    have h := Real.natLog_le_logb n 2
    have h2 : 1 ≤ Nat.log 2 n := Nat.log_pos (by omega) hn
    have h3 : (1 : ℝ) ≤ (Nat.log 2 n : ℝ) := by exact_mod_cast h2
    exact h3.trans (by exact_mod_cast h)
  have hn0 : (0 : ℝ) ≤ (n : ℝ) := Nat.cast_nonneg n
  push_cast
  nlinarith [mul_le_mul_of_nonneg_left h1 hn0, mul_le_mul_of_nonneg_left h4 hn0]

/-- C15.  The `comparisons` counter returned by `divide_conquer_closest_pair`
is `O(n log n)`: on every input of `n ≥ 2` points it is at most
`13 * n * log2(n)`, so the constant `c = 13` serves; in integers it is at most
`11 * n * ⌊log2(n - 1)⌋ + 2 * n`. -/
theorem divide_conquer_comparisons_log (e : ℚ) (points : List Point)
    (h : 2 ≤ points.length) :
    ((divide_conquer_closest_pair e points).comparisons : ℝ) ≤
        13 * (points.length : ℝ) * Real.logb 2 (points.length : ℝ) ∧
      (divide_conquer_closest_pair e points).comparisons ≤
        ((11 * points.length * Nat.log 2 (points.length - 1) + 2 * points.length : ℕ) : Int) := by
  have h1 := divide_conquer_count e points h
  refine ⟨?_, h1⟩
  have h2 : ((divide_conquer_closest_pair e points).comparisons : ℝ) ≤
      (((11 * points.length * Nat.log 2 (points.length - 1) + 2 * points.length : ℕ) : Int) : ℝ) := by
    exact_mod_cast h1
  exact h2.trans (count_real points.length h)

/-- Witness for C15: on the fourteen points on which one inner loop of a
strip scan evaluates eight distances the counter is `22`, brute force
evaluates `91`. -/
theorem divide_conquer_comparisons_log_witness :
    (divide_conquer_closest_pair 0
      [⟨0, 0, 0⟩, ⟨0, 0, 1⟩, ⟨0, 0, 2⟩, ⟨0, 0, 3⟩, ⟨0, 0, 4⟩, ⟨0, 0, 5⟩, ⟨0, 0, 6⟩,
        ⟨0, 0, 7⟩, ⟨1, -10, 8⟩, ⟨2, 100, 9⟩, ⟨3, 200, 10⟩, ⟨4, 300, 11⟩, ⟨5, 400, 12⟩,
        ⟨6, 500, 13⟩]).comparisons = 22 ∧
    ((divide_conquer_closest_pair 0
      [⟨0, 0, 0⟩, ⟨0, 0, 1⟩, ⟨0, 0, 2⟩, ⟨0, 0, 3⟩, ⟨0, 0, 4⟩, ⟨0, 0, 5⟩, ⟨0, 0, 6⟩,
        ⟨0, 0, 7⟩, ⟨1, -10, 8⟩, ⟨2, 100, 9⟩, ⟨3, 200, 10⟩, ⟨4, 300, 11⟩, ⟨5, 400, 12⟩,
        ⟨6, 500, 13⟩]).comparisons : ℝ) ≤
      13 * ((([⟨0, 0, 0⟩, ⟨0, 0, 1⟩, ⟨0, 0, 2⟩, ⟨0, 0, 3⟩, ⟨0, 0, 4⟩, ⟨0, 0, 5⟩, ⟨0, 0, 6⟩,
        ⟨0, 0, 7⟩, ⟨1, -10, 8⟩, ⟨2, 100, 9⟩, ⟨3, 200, 10⟩, ⟨4, 300, 11⟩, ⟨5, 400, 12⟩,
        ⟨6, 500, 13⟩] : List Point)).length : ℝ) *
        Real.logb 2 ((([⟨0, 0, 0⟩, ⟨0, 0, 1⟩, ⟨0, 0, 2⟩, ⟨0, 0, 3⟩, ⟨0, 0, 4⟩, ⟨0, 0, 5⟩, ⟨0, 0, 6⟩,
        ⟨0, 0, 7⟩, ⟨1, -10, 8⟩, ⟨2, 100, 9⟩, ⟨3, 200, 10⟩, ⟨4, 300, 11⟩, ⟨5, 400, 12⟩,
        ⟨6, 500, 13⟩] : List Point)).length : ℝ) :=
  ⟨by decide!,
    (divide_conquer_comparisons_log 0
      [⟨0, 0, 0⟩, ⟨0, 0, 1⟩, ⟨0, 0, 2⟩, ⟨0, 0, 3⟩, ⟨0, 0, 4⟩, ⟨0, 0, 5⟩, ⟨0, 0, 6⟩,
        ⟨0, 0, 7⟩, ⟨1, -10, 8⟩, ⟨2, 100, 9⟩, ⟨3, 200, 10⟩, ⟨4, 300, 11⟩, ⟨5, 400, 12⟩,
        ⟨6, 500, 13⟩]
      (by decide)).1⟩

/-! ### The comparators as strict weak orderings -/

theorem compare_x_incomparable_iff (a b : Point) :
    (compare_x a b = false ∧ compare_x b a = false) ↔ (a.x = b.x ∧ a.y = b.y) :=
  ⟨fun h => coincide_of_compare_x h.1 h.2, fun h =>
    ⟨compare_x_of_coords_eq ((coords_eq_iff a b).2 h),
      compare_x_of_coords_eq ((coords_eq_iff b a).2 ⟨h.1.symm, h.2.symm⟩)⟩⟩

theorem compare_y_incomparable_iff (a b : Point) :
    (compare_y a b = false ∧ compare_y b a = false) ↔ (a.x = b.x ∧ a.y = b.y) :=
  ⟨fun h => coincide_of_compare_y h.1 h.2, fun h =>
    ⟨compare_y_of_coords_eq ((coords_eq_iff a b).2 h),
      compare_y_of_coords_eq ((coords_eq_iff b a).2 ⟨h.1.symm, h.2.symm⟩)⟩⟩

theorem left_of_eq_true_iff (mid_point p : Point) :
    left_of mid_point p = true ↔
      p.x < mid_point.x ∨ (p.x = mid_point.x ∧ p.y < mid_point.y) := by
  simp [left_of]

/-- C26.  `compare_x` and `compare_y` are strict weak orderings: each is
irreflexive, asymmetric and transitive, and two points are incomparable
(neither `cmp(a, b)` nor `cmp(b, a)`) exactly when they have equal `x` and
equal `y`, so that incomparability is an equivalence; the partition test of
line 118, `p.x < mid_point.x || (p.x == mid_point.x && p.y < mid_point.y)`,
is `compare_x(p, mid_point)`. -/
theorem compare_strict_weak_orderings :
    ((∀ a : Point, compare_x a a = false) ∧
      (∀ a b : Point, compare_x a b = true → compare_x b a = false) ∧
      (∀ a b c : Point, compare_x a b = true → compare_x b c = true → compare_x a c = true) ∧
      (∀ a b : Point, (compare_x a b = false ∧ compare_x b a = false) ↔
        (a.x = b.x ∧ a.y = b.y))) ∧
    ((∀ a : Point, compare_y a a = false) ∧
      (∀ a b : Point, compare_y a b = true → compare_y b a = false) ∧
      (∀ a b c : Point, compare_y a b = true → compare_y b c = true → compare_y a c = true) ∧
      (∀ a b : Point, (compare_y a b = false ∧ compare_y b a = false) ↔
        (a.x = b.x ∧ a.y = b.y))) ∧
    (∀ mid_point p : Point,
      (left_of mid_point p = true ↔
        p.x < mid_point.x ∨ (p.x = mid_point.x ∧ p.y < mid_point.y)) ∧
      left_of mid_point p = compare_x p mid_point) :=
  ⟨⟨compare_x_self, compare_x_asymmetric, compare_x_transitive, compare_x_incomparable_iff⟩,
    ⟨compare_y_self, compare_y_asymmetric, compare_y_transitive, compare_y_incomparable_iff⟩,
    fun m p => ⟨left_of_eq_true_iff m p, left_of_eq_compare_x m p⟩⟩

/-! ### The shape of the recursion -/

theorem recursive_calls_base (px py : List Point) (h : px.length ≤ 3) :
    recursive_calls px py = [(px, py)] := by
  rw [recursive_calls]
  simp only [h, dif_pos]

theorem recursive_calls_step (px py : List Point) (h : ¬ px.length ≤ 3) :
    recursive_calls px py =
      (px, py) ::
        (recursive_calls (px.take (px.length / 2))
            (py.filter (fun p => left_of (px.get ⟨px.length / 2, by omega⟩) p)) ++
          recursive_calls (px.drop (px.length / 2))
            (py.filter (fun p => !left_of (px.get ⟨px.length / 2, by omega⟩) p))) := by
  rw [recursive_calls]
  simp only [h, dif_neg, not_false_eq_true]

/-- The two halves of a call on at least four points. -/
theorem halves_sizes (px : List Point) (h : 4 ≤ px.length) :
    px.length / 2 < px.length ∧
    (px.take (px.length / 2)).length = px.length / 2 ∧
    (px.drop (px.length / 2)).length = (px.length + 1) / 2 ∧
    2 ≤ (px.take (px.length / 2)).length ∧ (px.take (px.length / 2)).length < px.length ∧
    2 ≤ (px.drop (px.length / 2)).length ∧ (px.drop (px.length / 2)).length < px.length := by
  rw [List.length_take, List.length_drop]
  omega

theorem recursive_calls_sizes :
    ∀ (n : ℕ) (px py : List Point), px.length ≤ n → 2 ≤ px.length →
      (∀ call ∈ recursive_calls px py, 2 ≤ call.1.length ∧ call.1.length ≤ px.length) ∧
      (recursive_calls px py).length ≤ px.length - 1 := by
  intro n
  induction n with
  | zero => intro px py h1 h2; omega
  | succ n ih =>
    intro px py hn h2
    by_cases hb : px.length ≤ 3
    · rw [recursive_calls_base px py hb]
      refine ⟨?_, by simp only [List.length_singleton]; omega⟩
      intro call hc
      rw [List.mem_singleton] at hc
      subst hc
      exact ⟨h2, le_refl _⟩
    · rw [recursive_calls_step px py hb]
      obtain ⟨_, ht, hd, ht2, htn, hd2, hdn⟩ := halves_sizes px (by omega)
      have hl := ih (px.take (px.length / 2))
        (py.filter (fun p => left_of (px.get ⟨px.length / 2, by omega⟩) p)) (by omega) ht2
      have hr := ih (px.drop (px.length / 2))
        (py.filter (fun p => !left_of (px.get ⟨px.length / 2, by omega⟩) p)) (by omega) hd2
      refine ⟨?_, ?_⟩
      · intro call hc
        rcases List.mem_cons.1 hc with rfl | hc
        · exact ⟨h2, le_refl _⟩
        · rcases List.mem_append.1 hc with hc | hc
          · have := hl.1 call hc
            omega
          · have := hr.1 call hc
            omega
      · simp only [List.length_cons, List.length_append]
        have h3 := hl.2
        have h4 := hr.2
        omega

theorem closest_pair_recursive_finite (px py : List Point) (c : Int) (h : 2 ≤ px.length) :
    ∃ s : ℚ, 0 ≤ s ∧ (closest_pair_recursive px py c).1.distance = Dist.root s := by
  have hf := closest_pair_recursive_found (px ++ py) px.length px py c (le_refl _) h
    (List.sublist_append_left _ _).subperm (List.sublist_append_right _ _).subperm
  rw [hf.1]
  exact distance_finite _ _

/-- C24.  A call of `closest_pair_recursive` on `n ≥ 4` points splits at the
valid index `mid = n / 2` into `⌊n/2⌋` and `⌈n/2⌉` points, each at least `2`
and fewer than `n`.  So a call on at least two points gives rise to at most
`n - 1` calls, each on at least two points; the calls on at most three points
are the base cases, which run brute force on `2` or `3` points; and every
call returns a finite distance. -/
theorem recursion_well_founded (points_x points_y : List Point) (h : 2 ≤ points_x.length) :
    (4 ≤ points_x.length →
      points_x.length / 2 < points_x.length ∧
      (points_x.take (points_x.length / 2)).length = points_x.length / 2 ∧
      (points_x.drop (points_x.length / 2)).length = (points_x.length + 1) / 2 ∧
      2 ≤ (points_x.take (points_x.length / 2)).length ∧
      (points_x.take (points_x.length / 2)).length < points_x.length ∧
      2 ≤ (points_x.drop (points_x.length / 2)).length ∧
      (points_x.drop (points_x.length / 2)).length < points_x.length) ∧
    (recursive_calls points_x points_y).length ≤ points_x.length - 1 ∧
    ∀ call ∈ recursive_calls points_x points_y,
      2 ≤ call.1.length ∧
      (call.1.length ≤ 3 → (call.1.length = 2 ∨ call.1.length = 3) ∧
        ∀ c : Int, closest_pair_recursive call.1 call.2 c =
          brute_force_closest_pair_impl call.1 c) ∧
      ∀ c : Int, ∃ s : ℚ, 0 ≤ s ∧
        (closest_pair_recursive call.1 call.2 c).1.distance = Dist.root s := by
  have hs := recursive_calls_sizes points_x.length points_x points_y (le_refl _) h
  refine ⟨halves_sizes points_x, hs.2, ?_⟩
  intro call hc
  have h2 := (hs.1 call hc).1
  refine ⟨h2, fun h3 => ⟨by omega, fun c => closest_pair_recursive_base _ _ c h3⟩,
    fun c => closest_pair_recursive_finite _ _ c h2⟩

/-! ### The two views on points with pairwise different coordinates -/

theorem eq_of_coords_eq_of_mem {l : List Point}
    (hd : l.Pairwise (fun a b => coords a ≠ coords b)) {a b : Point} (ha : a ∈ l) (hb : b ∈ l)
    (h : coords a = coords b) : a = b := by
  by_contra hne
  exact hd.forall (fun _ _ h => Ne.symm h) ha hb hne h

/-- Among points with pairwise different coordinates a list has one
arrangement sorted by `compare_y`. -/
theorem eq_std_sort_compare_y {l l' : List Point}
    (hd : l.Pairwise (fun a b => coords a ≠ coords b)) (hp : l'.Perm l)
    (hs : l'.Pairwise (fun a b => compare_y b a = false)) : l' = std_sort compare_y l := by
  refine List.Perm.eq_of_sorted ?_ hs (std_sort_compare_y_sorted l)
    (hp.trans (std_sort_perm _ l).symm)
  intro a b ha hb hab hba
  obtain ⟨hx, hy⟩ := coincide_of_compare_y hba hab
  exact eq_of_coords_eq_of_mem hd (hp.subset ha) ((std_sort_perm _ l).subset hb)
    ((coords_eq_iff a b).2 ⟨hx, hy⟩)

/-- On points with pairwise different coordinates the linear pass over
`points_y` splits it like the index split of `points_x`. -/
theorem views_split (px py : List Point) (k : ℕ) (hk : k < px.length)
    (hperm : py.Perm px) (hsort : px.Pairwise (fun a b => compare_x b a = false))
    (hd : px.Pairwise (fun a b => coords a ≠ coords b)) :
    (py.filter (fun p => left_of (px.get ⟨k, hk⟩) p)).Perm (px.take k) ∧
    (py.filter (fun p => !left_of (px.get ⟨k, hk⟩) p)).Perm (px.drop k) := by
  have hsplit : px.take k ++ px.drop k = px := List.take_append_drop _ _
  have hdrop : px.drop k = px.get ⟨k, hk⟩ :: px.drop (k + 1) := by
    rw [List.get_eq_getElem]
    exact List.drop_eq_getElem_cons hk
  have hm : px.get ⟨k, hk⟩ ∈ px.drop k := by rw [hdrop]; exact List.mem_cons_self _ _
  have hs : (px.take k ++ px.drop k).Pairwise (fun a b => compare_x b a = false) := by
    rw [hsplit]; exact hsort
  have hd' : (px.take k ++ px.drop k).Pairwise (fun a b => coords a ≠ coords b) := by
    rw [hsplit]; exact hd
  have hta : ∀ a ∈ px.take k, compare_x a (px.get ⟨k, hk⟩) = true := by
    intro a ha
    have h1 : compare_x (px.get ⟨k, hk⟩) a = false := (List.pairwise_append.1 hs).2.2 a ha _ hm
    have h2 : coords a ≠ coords (px.get ⟨k, hk⟩) := (List.pairwise_append.1 hd').2.2 a ha _ hm
    rcases compare_x_trichotomy h2 with h | h
    · exact h.1
    · rw [h1] at h; exact Bool.noConfusion h.2
  have hdb : ∀ b ∈ px.drop k, compare_x b (px.get ⟨k, hk⟩) = false := by
    intro b hb
    rw [hdrop] at hb
    rcases List.mem_cons.1 hb with rfl | hb
    · exact compare_x_self _
    · have := (List.pairwise_append.1 hs).2.1
      rw [hdrop] at this
      exact (List.pairwise_cons.1 this).1 b hb
  generalize px.get ⟨k, hk⟩ = m at hta hdb
  constructor
  · refine (hperm.filter _).trans ?_
    rw [← hsplit, List.filter_append]
    have h1 : (px.take k).filter (fun p => left_of m p) = px.take k :=
      List.filter_eq_self.2 (fun a ha => by rw [left_of_eq_compare_x]; exact hta a ha)
    have h2 : (px.drop k).filter (fun p => left_of m p) = [] :=
      List.filter_eq_nil_iff.2 (fun b hb => by rw [left_of_eq_compare_x, hdb b hb]; simp)
    rw [hsplit, h1, h2, List.append_nil]
  · refine (hperm.filter _).trans ?_
    rw [← hsplit, List.filter_append]
    have h1 : (px.take k).filter (fun p => !left_of m p) = [] :=
      List.filter_eq_nil_iff.2 (fun a ha => by rw [left_of_eq_compare_x, hta a ha]; simp)
    have h2 : (px.drop k).filter (fun p => !left_of m p) = px.drop k :=
      List.filter_eq_self.2 (fun b hb => by rw [left_of_eq_compare_x, hdb b hb]; rfl)
    rw [hsplit, h1, h2, List.nil_append]

theorem recursive_calls_views :
    ∀ (n : ℕ) (px py : List Point), px.length ≤ n → py.Perm px →
      px.Pairwise (fun a b => compare_x b a = false) →
      py.Pairwise (fun a b => compare_y b a = false) →
      px.Pairwise (fun a b => coords a ≠ coords b) →
      ∀ call ∈ recursive_calls px py,
        call.2.Perm call.1 ∧ call.1.Pairwise (fun a b => compare_x b a = false) ∧
        call.2.Pairwise (fun a b => compare_y b a = false) ∧
        call.1.Pairwise (fun a b => coords a ≠ coords b) := by
  intro n
  induction n with
  | zero =>
    intro px py hn hperm hsx hsy hd call hc
    rw [recursive_calls_base px py (by omega), List.mem_singleton] at hc
    subst hc
    exact ⟨hperm, hsx, hsy, hd⟩
  | succ n ih =>
    intro px py hn hperm hsx hsy hd call hc
    by_cases hb : px.length ≤ 3
    · rw [recursive_calls_base px py hb, List.mem_singleton] at hc
      subst hc
      exact ⟨hperm, hsx, hsy, hd⟩
    · rw [recursive_calls_step px py hb] at hc
      obtain ⟨hl, hr⟩ := views_split px py (px.length / 2) (by omega) hperm hsx hd
      rcases List.mem_cons.1 hc with rfl | hc
      · exact ⟨hperm, hsx, hsy, hd⟩
      · rcases List.mem_append.1 hc with hc | hc
        · exact ih _ _ (by rw [List.length_take]; omega) hl
            (hsx.sublist (List.take_sublist _ _)) (hsy.sublist (List.filter_sublist _))
            (hd.sublist (List.take_sublist _ _)) call hc
        · exact ih _ _ (by rw [List.length_drop]; omega) hr
            (hsx.sublist (List.drop_sublist _ _)) (hsy.sublist (List.filter_sublist _))
            (hd.sublist (List.drop_sublist _ _)) call hc

/-- C21.  When no two input points share both `x` and `y`, every call of
`closest_pair_recursive` reached from `divide_conquer_closest_pair` receives
two views of the same points, `points_x` sorted by `compare_x` and `points_y`
its arrangement by `compare_y`; and at every split the linear pass over
`points_y` gives a `left_y` of length `mid` that is `left_x` arranged by
`compare_y`, and a `right_y` of length `n - mid` that is `right_x` arranged
by `compare_y`. -/
theorem views_agree_on_distinct_points (points : List Point)
    (hd : points.Pairwise (fun a b => coords a ≠ coords b)) :
    ∀ call ∈ recursive_calls (std_sort compare_x points) (std_sort compare_y points),
      call.2.Perm call.1 ∧ call.1.Pairwise (fun a b => compare_x b a = false) ∧
      call.2 = std_sort compare_y call.1 ∧
      ∀ h : ¬ call.1.length ≤ 3,
        (call.2.filter (fun p => left_of (call.1.get ⟨call.1.length / 2, by omega⟩) p)).length =
          call.1.length / 2 ∧
        call.2.filter (fun p => left_of (call.1.get ⟨call.1.length / 2, by omega⟩) p) =
          std_sort compare_y (call.1.take (call.1.length / 2)) ∧
        (call.2.filter (fun p => !left_of (call.1.get ⟨call.1.length / 2, by omega⟩) p)).length =
          call.1.length - call.1.length / 2 ∧
        call.2.filter (fun p => !left_of (call.1.get ⟨call.1.length / 2, by omega⟩) p) =
          std_sort compare_y (call.1.drop (call.1.length / 2)) := by
  intro call hc
  have hdx : (std_sort compare_x points).Pairwise (fun a b => coords a ≠ coords b) :=
    ((std_sort_perm compare_x points).pairwise_iff (fun {a b} h => Ne.symm h)).2 hd
  obtain ⟨hperm, hsx, hsy, hdc⟩ := recursive_calls_views _ _ _ (le_refl _)
    ((std_sort_perm compare_y points).trans (std_sort_perm compare_x points).symm)
    (std_sort_compare_x_sorted points) (std_sort_compare_y_sorted points) hdx call hc
  refine ⟨hperm, hsx, eq_std_sort_compare_y hdc hperm hsy, ?_⟩
  intro h
  obtain ⟨hl, hr⟩ := views_split call.1 call.2 (call.1.length / 2) (by omega) hperm hsx hdc
  refine ⟨?_, eq_std_sort_compare_y (hdc.sublist (List.take_sublist _ _)) hl
      (hsy.sublist (List.filter_sublist _)), ?_,
    eq_std_sort_compare_y (hdc.sublist (List.drop_sublist _ _)) hr
      (hsy.sublist (List.filter_sublist _))⟩
  · rw [hl.length_eq, List.length_take]; omega
  · rw [hr.length_eq, List.length_drop]

/-! ### The strip scan against its specification -/

theorem mem_pair_distances (l : List Point) (d : Dist) :
    d ∈ pair_distances l ↔ ∃ a b, List.Sublist [a, b] l ∧ d = distance a b := by
  induction l with
  | nil => simp [pair_distances]
  | cons p rest ih =>
    simp only [pair_distances, List.mem_append, List.mem_map, ih]
    constructor
    · rintro (⟨b, hb, rfl⟩ | ⟨a, b, hab, rfl⟩)
      · exact ⟨p, b, List.cons_sublist_cons.2 (List.singleton_sublist.2 hb), rfl⟩
      · exact ⟨a, b, hab.trans (List.sublist_cons_self _ _), rfl⟩
    · rintro ⟨a, b, hab, rfl⟩
      rcases List.sublist_cons_iff.1 hab with h | ⟨r, hr, hsub⟩
      · exact Or.inr ⟨a, b, h, rfl⟩
      · simp only [List.cons.injEq] at hr
        obtain ⟨rfl, rfl⟩ := hr
        exact Or.inl ⟨b, List.singleton_sublist.1 hsub, rfl⟩

theorem foldr_min_le (l : List Dist) (d : Dist) :
    l.foldr min d ≤ d ∧ ∀ x ∈ l, l.foldr min d ≤ x := by
  induction l with
  | nil => simp
  | cons a l ih =>
    simp only [List.foldr_cons, List.mem_cons]
    refine ⟨(min_le_right _ _).trans ih.1, ?_⟩
    rintro x (rfl | hx)
    · exact min_le_left _ _
    · exact (min_le_right _ _).trans (ih.2 x hx)

theorem le_foldr_min (l : List Dist) (d r : Dist) (hd : r ≤ d) (hl : ∀ x ∈ l, r ≤ x) :
    r ≤ l.foldr min d := by
  induction l with
  | nil => simpa using hd
  | cons a l ih =>
    simp only [List.foldr_cons]
    exact le_min (hl a (List.mem_cons_self _ _))
      (ih (fun x hx => hl x (List.mem_cons_of_mem _ hx)))

theorem find_strip_closest_eq_minimum (strip : List Point) (delta : Dist) (c : Int) :
    (find_strip_closest strip delta c).1.distance = strip_minimum strip delta := by
  apply le_antisymm
  · refine le_foldr_min _ _ _ (find_strip_closest_le strip delta c) ?_
    intro x hx
    obtain ⟨a, b, hab, rfl⟩ := (mem_pair_distances strip x).1 hx
    exact List.pairwise_iff_forall_sublist.1 (find_strip_closest_pairwise strip delta c) hab
  · rcases find_strip_closest_extends strip delta c with h | ⟨_, h2, h3⟩
    · rw [h]
      exact (foldr_min_le _ _).1
    · obtain ⟨l', hp, hs⟩ := h3
      have hlen : l'.length = 2 := hp.length_eq
      match l', hlen with
      | [a, b], _ =>
        have hd : distance a b =
            distance (find_strip_closest strip delta c).1.p1
              (find_strip_closest strip delta c).1.p2 := by
          rcases perm_pair hp with ⟨rfl, rfl⟩ | ⟨rfl, rfl⟩
          · rfl
          · exact distance_comm _ _
        rw [h2, ← hd]
        exact (foldr_min_le _ _).2 _ ((mem_pair_distances strip _).2 ⟨a, b, hs, rfl⟩)

theorem combine_replaces (py : List Point) (m : Point) (l r : ClosestPairResult) (c : Int) :
    let best := if Dist.lt l.distance r.distance = true then l else r
    let strip := py.filter (in_strip m best.distance)
    ((strip ≠ [] ∧ (find_strip_closest strip best.distance c).1.distance < best.distance) →
      (combine py m l r c).1 = (find_strip_closest strip best.distance c).1) ∧
    (¬ (strip ≠ [] ∧ (find_strip_closest strip best.distance c).1.distance < best.distance) →
      (combine py m l r c).1 = best) := by
  intro best strip
  have e : combine py m l r c =
      if !strip.isEmpty then
        if Dist.lt (find_strip_closest strip best.distance c).1.distance best.distance then
          ((find_strip_closest strip best.distance c).1, (find_strip_closest strip best.distance c).2)
        else (best, (find_strip_closest strip best.distance c).2)
      else (best, c) := rfl
  rw [e]
  constructor
  · rintro ⟨h1, h2⟩
    have h3 : strip.isEmpty = false := by
      cases hs : strip with
      | nil => exact absurd hs h1
      | cons _ _ => rfl
    rw [h3, (Dist.lt_iff _ _).2 h2]
    rfl
  · intro h
    by_cases h1 : strip = []
    · rw [h1]; rfl
    · have h2 : ¬ (find_strip_closest strip best.distance c).1.distance < best.distance :=
        fun h2 => h ⟨h1, h2⟩
      have h3 : Dist.lt (find_strip_closest strip best.distance c).1.distance best.distance =
          false := by
        rw [Dist.lt_eq_false_iff]
        exact not_lt.1 h2
      rw [h3]
      split <;> rfl

/-- C22.  The strip scan with the shrinking threshold loses no pair: the
distance `find_strip_closest(strip, delta)` returns is
`min(delta, minimum of distance(strip[i], strip[j]) over all i < j)`; when it
is strictly below `delta`, the returned `p1`, `p2` are the elements at two
different positions of the strip, at that distance; and the caller (lines
147-152) replaces `best_result` by the strip result exactly when the strip is
not empty and its distance is strictly below `best_result.distance`. -/
theorem strip_scan_loses_no_pair :
    (∀ (strip : List Point) (delta : Dist) (comparisons : Int),
      (find_strip_closest strip delta comparisons).1.distance = strip_minimum strip delta ∧
      ((find_strip_closest strip delta comparisons).1.distance < delta →
        ∃ (i j : ℕ) (hi : i < strip.length) (hj : j < strip.length), i ≠ j ∧
          strip[i] = (find_strip_closest strip delta comparisons).1.p1 ∧
          strip[j] = (find_strip_closest strip delta comparisons).1.p2 ∧
          distance strip[i] strip[j] =
            (find_strip_closest strip delta comparisons).1.distance)) ∧
    (∀ (points_y : List Point) (mid_point : Point) (left_result right_result : ClosestPairResult)
        (comparisons : Int),
      let best_result :=
        if Dist.lt left_result.distance right_result.distance = true then left_result
        else right_result
      let strip := points_y.filter (in_strip mid_point best_result.distance)
      ((strip ≠ [] ∧
          (find_strip_closest strip best_result.distance comparisons).1.distance <
            best_result.distance) →
        (combine points_y mid_point left_result right_result comparisons).1 =
          (find_strip_closest strip best_result.distance comparisons).1) ∧
      (¬ (strip ≠ [] ∧
          (find_strip_closest strip best_result.distance comparisons).1.distance <
            best_result.distance) →
        (combine points_y mid_point left_result right_result comparisons).1 = best_result)) := by
  refine ⟨fun strip delta c => ⟨find_strip_closest_eq_minimum strip delta c, fun hlt => ?_⟩,
    combine_replaces⟩
  rcases find_strip_closest_extends strip delta c with h | ⟨_, h2, h3⟩
  · exact absurd hlt (by rw [h]; exact lt_irrefl _)
  · obtain ⟨i, j, hi, hj, hij, h4, h5⟩ := subperm_pair_positions h3
    exact ⟨i, j, hi, hj, hij, h4, h5, by rw [h4, h5, ← h2]⟩

/-! ### The strip is built sorted -/

theorem std_sort_of_sorted (l : List Point)
    (h : l.Pairwise (fun a b => compare_y b a = false)) : std_sort compare_y l = l :=
  List.Sorted.insertionSort_eq h

/-- Two arrangements of the same points that are both sorted by `compare_y`
have the same sequence of coordinates. -/
theorem coords_eq_of_sorted {l l' : List Point} (hp : l'.Perm l)
    (hs' : l'.Pairwise (fun a b => compare_y b a = false))
    (hs : l.Pairwise (fun a b => compare_y b a = false)) : l'.map coords = l.map coords := by
  have h1 : l'.map erase_id = l.map erase_id := by
    have hs1 : (l'.map erase_id).Pairwise (fun a b => compare_y b a = false) :=
      List.pairwise_map.2 (by simpa only [compare_y_erase_id] using hs')
    have hs2 : (l.map erase_id).Pairwise (fun a b => compare_y b a = false) :=
      List.pairwise_map.2 (by simpa only [compare_y_erase_id] using hs)
    refine List.Perm.eq_of_sorted ?_ hs1 hs2 (hp.map _)
    intro a b ha hb hab hba
    obtain ⟨hx, hy⟩ := coincide_of_compare_y hba hab
    exact point_eq_of_coincide hx hy (erase_id_id_of_mem a ha) (erase_id_id_of_mem b hb)
  have h2 := congrArg (List.map coords) h1
  simpa [List.map_map, Function.comp_def, coords, erase_id] using h2

theorem strip_scans_base (px py : List Point) (c : Int) (h : px.length ≤ 3) :
    strip_scans px py c = [] := by
  rw [strip_scans]
  simp only [h, dif_pos]

theorem strip_scans_step (px py : List Point) (c : Int) (h : ¬ px.length ≤ 3) :
    strip_scans px py c =
      strip_scans (px.take (px.length / 2))
          (py.filter (fun p => left_of (px.get ⟨px.length / 2, by omega⟩) p)) c ++
        strip_scans (px.drop (px.length / 2))
          (py.filter (fun p => !left_of (px.get ⟨px.length / 2, by omega⟩) p))
          (closest_pair_recursive (px.take (px.length / 2))
            (py.filter (fun p => left_of (px.get ⟨px.length / 2, by omega⟩) p)) c).2 ++
        (combine_scan py (px.get ⟨px.length / 2, by omega⟩)
          (closest_pair_recursive (px.take (px.length / 2))
            (py.filter (fun p => left_of (px.get ⟨px.length / 2, by omega⟩) p)) c).1
          (closest_pair_recursive (px.drop (px.length / 2))
            (py.filter (fun p => !left_of (px.get ⟨px.length / 2, by omega⟩) p))
            (closest_pair_recursive (px.take (px.length / 2))
              (py.filter (fun p => left_of (px.get ⟨px.length / 2, by omega⟩) p)) c).2).1).toList := by
  rw [strip_scans]
  simp only [h, dif_neg, not_false_eq_true]

/-- The strip of the combine step is the subsequence of `points_y` of the
points that pass the strip test with `delta = best_result.distance`. -/
theorem combine_scan_eq (py : List Point) (m : Point) (l r : ClosestPairResult)
    (strip : List Point) (delta : Dist) (h : combine_scan py m l r = some (strip, delta)) :
    delta = (if Dist.lt l.distance r.distance = true then l else r).distance ∧
    strip = py.filter (in_strip m delta) ∧ strip ≠ [] := by
  unfold combine_scan at h
  simp only [] at h
  generalize (if Dist.lt l.distance r.distance = true then l else r) = best at h ⊢
  cases hf : py.filter (in_strip m best.distance) with
  | nil =>
    rw [hf] at h
    simp at h
  | cons a rest =>
    rw [hf] at h
    simp only [List.isEmpty_cons, Bool.not_false, if_true, Option.some.injEq,
      Prod.mk.injEq] at h
    obtain ⟨h1, h2⟩ := h
    subst h2
    subst h1
    exact ⟨rfl, hf.symm, by simp⟩

theorem recursive_calls_sorted_y :
    ∀ (n : ℕ) (px py : List Point), px.length ≤ n →
      py.Pairwise (fun a b => compare_y b a = false) →
      ∀ call ∈ recursive_calls px py, call.2.Pairwise (fun a b => compare_y b a = false) := by
  intro n
  induction n with
  | zero =>
    intro px py hn hsy call hc
    rw [recursive_calls_base px py (by omega), List.mem_singleton] at hc
    subst hc
    exact hsy
  | succ n ih =>
    intro px py hn hsy call hc
    by_cases hb : px.length ≤ 3
    · rw [recursive_calls_base px py hb, List.mem_singleton] at hc
      subst hc
      exact hsy
    · rw [recursive_calls_step px py hb] at hc
      rcases List.mem_cons.1 hc with rfl | hc
      · exact hsy
      · rcases List.mem_append.1 hc with hc | hc
        · exact ih _ _ (by rw [List.length_take]; omega) (hsy.sublist (List.filter_sublist _))
            call hc
        · exact ih _ _ (by rw [List.length_drop]; omega) (hsy.sublist (List.filter_sublist _))
            call hc

theorem strip_scans_sorted :
    ∀ (n : ℕ) (px py : List Point) (c : Int), px.length ≤ n →
      py.Pairwise (fun a b => compare_y b a = false) →
      ∀ scan ∈ strip_scans px py c, scan.1.Pairwise (fun a b => compare_y b a = false) := by
  intro n
  induction n with
  | zero =>
    intro px py c hn hsy scan hc
    rw [strip_scans_base px py c (by omega)] at hc
    simp at hc
  | succ n ih =>
    intro px py c hn hsy scan hc
    by_cases hb : px.length ≤ 3
    · rw [strip_scans_base px py c hb] at hc
      simp at hc
    · rw [strip_scans_step px py c hb] at hc
      rcases List.mem_append.1 hc with hc | hc
      · rcases List.mem_append.1 hc with hc | hc
        · exact ih _ _ _ (by rw [List.length_take]; omega)
            (hsy.sublist (List.filter_sublist _)) scan hc
        · exact ih _ _ _ (by rw [List.length_drop]; omega)
            (hsy.sublist (List.filter_sublist _)) scan hc
      · rw [Option.mem_toList] at hc
        obtain ⟨_, h2, _⟩ := combine_scan_eq py _ _ _ scan.1 scan.2 hc
        rw [h2]
        exact hsy.sublist (List.filter_sublist _)

theorem combine_without_sort_eq (py : List Point) (m : Point) (l r : ClosestPairResult)
    (c : Int) (hsy : py.Pairwise (fun a b => compare_y b a = false)) :
    combine_without_sort py m l r c = combine py m l r c := by
  unfold combine_without_sort combine
  simp only []
  have e : ∀ delta, find_strip_closest_without_sort (py.filter (in_strip m delta)) delta c =
      find_strip_closest (py.filter (in_strip m delta)) delta c := by
    intro delta
    simp only [find_strip_closest_without_sort, find_strip_closest]
    rw [std_sort_of_sorted _ (hsy.sublist (List.filter_sublist _))]
  rw [e]

theorem closest_pair_recursive_without_sort_eq :
    ∀ (n : ℕ) (px py : List Point) (c : Int), px.length ≤ n →
      py.Pairwise (fun a b => compare_y b a = false) →
      closest_pair_recursive_without_sort px py c = closest_pair_recursive px py c := by
  intro n
  induction n with
  | zero =>
    intro px py c hn _
    rw [closest_pair_recursive_base px py c (by omega), closest_pair_recursive_without_sort]
    simp only [show px.length ≤ 3 by omega, dif_pos]
  | succ n ih =>
    intro px py c hn hsy
    by_cases hb : px.length ≤ 3
    · rw [closest_pair_recursive_base px py c hb, closest_pair_recursive_without_sort]
      simp only [hb, dif_pos]
    · rw [closest_pair_recursive_step px py c hb, closest_pair_recursive_without_sort]
      simp only [hb, dif_neg, not_false_eq_true]
      rw [ih _ _ _ (by rw [List.length_take]; omega) (hsy.sublist (List.filter_sublist _)),
        ih _ _ _ (by rw [List.length_drop]; omega) (hsy.sublist (List.filter_sublist _)),
        combine_without_sort_eq _ _ _ _ _ hsy]

/-- C23.  At every recursive level the strip is the subsequence of `points_y`
of the points with `|p.x - mid_point.x| < delta`, strictly; `points_y` is
sorted by `compare_y` at every level, so every strip is sorted by `compare_y`
when it is built: sorting it leaves it as it is, any arrangement of it sorted
by `compare_y` has the same sequence of coordinates, and the solver returns
the same result with and without the sort of line 67. -/
theorem strip_is_built_sorted :
    (∀ (mid_point p : Point) (s : ℚ),
      in_strip mid_point (Dist.root s) p = true ↔
        ((|p.x - mid_point.x| : ℚ) : ℝ) < Real.sqrt (s : ℝ)) ∧
    (∀ (points_y : List Point) (mid_point : Point) (left_result right_result : ClosestPairResult)
        (strip : List Point) (delta : Dist),
      combine_scan points_y mid_point left_result right_result = some (strip, delta) →
        strip = points_y.filter (in_strip mid_point delta) ∧ List.Sublist strip points_y ∧
        ∀ p, p ∈ strip ↔ p ∈ points_y ∧ in_strip mid_point delta p = true) ∧
    (∀ points : List Point,
      (∀ call ∈ recursive_calls (std_sort compare_x points) (std_sort compare_y points),
        call.2.Pairwise (fun a b => compare_y b a = false)) ∧
      ∀ scan ∈ strip_scans (std_sort compare_x points) (std_sort compare_y points) 0,
        scan.1.Pairwise (fun a b => compare_y b a = false) ∧
        std_sort compare_y scan.1 = scan.1 ∧
        ∀ sorted : List Point, sorted.Perm scan.1 →
          sorted.Pairwise (fun a b => compare_y b a = false) →
          sorted.map coords = scan.1.map coords) ∧
    (∀ (elapsed : ℚ) (points : List Point),
      divide_conquer_without_sort elapsed points = divide_conquer_closest_pair elapsed points) := by
  refine ⟨fun m p s => Dist.rat_lt_root_iff_sqrt _ _, ?_, ?_, ?_⟩
  · intro py m l r strip delta h
    obtain ⟨_, h2, _⟩ := combine_scan_eq py m l r strip delta h
    refine ⟨h2, by rw [h2]; exact List.filter_sublist _, fun p => by rw [h2, List.mem_filter]⟩
  · intro points
    refine ⟨recursive_calls_sorted_y _ _ _ (le_refl _) (std_sort_compare_y_sorted points), ?_⟩
    intro scan hs
    have h := strip_scans_sorted _ _ _ 0 (le_refl _) (std_sort_compare_y_sorted points) scan hs
    exact ⟨h, std_sort_of_sorted _ h, fun l' hp hs' => coords_eq_of_sorted hp hs' h⟩
  · intro e points
    simp only [divide_conquer_without_sort, divide_conquer_closest_pair,
      divide_conquer_closest_pair_state]
    rw [closest_pair_recursive_without_sort_eq _ _ _ 0 (le_refl _)
      (std_sort_compare_y_sorted points)]
    split <;> rfl

/-! ### The pair brute force returns -/

theorem scan_pair_cases (pi pj : Point) (s : Scan) :
    (distance pi pj < s.min_dist ∧ (scan_pair pi pj s).min_dist = distance pi pj ∧
      (scan_pair pi pj s).p1 = pi ∧ (scan_pair pi pj s).p2 = pj) ∨
    (s.min_dist ≤ distance pi pj ∧ (scan_pair pi pj s).min_dist = s.min_dist ∧
      (scan_pair pi pj s).p1 = s.p1 ∧ (scan_pair pi pj s).p2 = s.p2) := by
  simp only [scan_pair]
  split
  · rename_i h
    exact Or.inl ⟨(Dist.lt_iff _ _).1 h, rfl, rfl, rfl⟩
  · rename_i h
    simp only [Bool.not_eq_true] at h
    exact Or.inr ⟨(Dist.lt_eq_false_iff _ _).1 h, rfl, rfl, rfl⟩

/-- The inner loop keeps the state when no `points[j]` is strictly closer to
`points[i]` than `min_dist`, and otherwise leaves the first `points[j]` at
the least distance from `points[i]`. -/
theorem brute_force_inner_first (pi : Point) (rest : List Point) (s : Scan) :
    ((brute_force_inner pi rest s).min_dist = s.min_dist ∧
      (brute_force_inner pi rest s).p1 = s.p1 ∧ (brute_force_inner pi rest s).p2 = s.p2 ∧
      ∀ q ∈ rest, s.min_dist ≤ distance pi q) ∨
    (∃ (j : ℕ) (hj : j < rest.length),
      (brute_force_inner pi rest s).p1 = pi ∧ (brute_force_inner pi rest s).p2 = rest[j] ∧
      (brute_force_inner pi rest s).min_dist = distance pi rest[j] ∧
      (brute_force_inner pi rest s).min_dist < s.min_dist ∧
      (∀ q ∈ rest, (brute_force_inner pi rest s).min_dist ≤ distance pi q) ∧
      ∀ (k : ℕ) (hk : k < j), (brute_force_inner pi rest s).min_dist < distance pi rest[k]) := by
  induction rest generalizing s with
  | nil => exact Or.inl ⟨rfl, rfl, rfl, by simp⟩
  | cons pj rest ih =>
    simp only [brute_force_inner]
    rcases scan_pair_cases pi pj s with ⟨hlt, e1, e2, e3⟩ | ⟨hle, e1, e2, e3⟩
    · rcases ih (scan_pair pi pj s) with ⟨f1, f2, f3, f4⟩ | ⟨j, hj, f1, f2, f3, f4, f5, f6⟩
      · refine Or.inr ⟨0, by simp, by rw [f2, e2], by rw [f3, e3]; rfl, by rw [f1, e1]; rfl,
          by rw [f1, e1]; exact hlt, ?_, by intro k hk; omega⟩
        intro q hq
        rw [f1, e1]
        rcases List.mem_cons.1 hq with rfl | hq
        · exact le_refl _
        · have := f4 q hq
          rwa [e1] at this
      · rw [e1] at f4
        refine Or.inr ⟨j + 1, by simp only [List.length_cons]; omega, f1, by simpa using f2,
          by simpa using f3, f4.trans hlt, ?_, ?_⟩
        · intro q hq
          rcases List.mem_cons.1 hq with rfl | hq
          · exact f4.le
          · exact f5 q hq
        · intro k hk
          cases k with
          | zero => simpa using f4
          | succ k => simpa using f6 k (by omega)
    · rcases ih (scan_pair pi pj s) with ⟨f1, f2, f3, f4⟩ | ⟨j, hj, f1, f2, f3, f4, f5, f6⟩
      · refine Or.inl ⟨f1.trans e1, f2.trans e2, f3.trans e3, ?_⟩
        intro q hq
        rcases List.mem_cons.1 hq with rfl | hq
        · exact hle
        · have := f4 q hq
          rwa [e1] at this
      · rw [e1] at f4
        refine Or.inr ⟨j + 1, by simp only [List.length_cons]; omega, f1, by simpa using f2,
          by simpa using f3, f4, ?_, ?_⟩
        · intro q hq
          rcases List.mem_cons.1 hq with rfl | hq
          · exact (f4.trans_le hle).le
          · exact f5 q hq
        · intro k hk
          cases k with
          | zero => simpa using f4.trans_le hle
          | succ k => simpa using f6 k (by omega)

/-- The outer loop keeps the state when no pair is strictly closer than
`min_dist`, and otherwise leaves the first pair, in the order of the scan, at
the least distance. -/
theorem brute_force_outer_first (l : List Point) (s : Scan) :
    ((brute_force_outer l s).min_dist = s.min_dist ∧
      (brute_force_outer l s).p1 = s.p1 ∧ (brute_force_outer l s).p2 = s.p2 ∧
      l.Pairwise (fun a b => s.min_dist ≤ distance a b)) ∨
    (∃ (i j : ℕ) (hij : i < j) (hj : j < l.length),
      (brute_force_outer l s).p1 = l[i] ∧ (brute_force_outer l s).p2 = l[j] ∧
      (brute_force_outer l s).min_dist = distance l[i] l[j] ∧
      (brute_force_outer l s).min_dist < s.min_dist ∧
      l.Pairwise (fun a b => (brute_force_outer l s).min_dist ≤ distance a b) ∧
      ∀ (a b : ℕ) (hab : a < b) (hb : b < l.length), (a < i ∨ (a = i ∧ b < j)) →
        (brute_force_outer l s).min_dist < distance l[a] l[b]) := by
  induction l generalizing s with
  | nil => exact Or.inl ⟨rfl, rfl, rfl, List.Pairwise.nil⟩
  | cons p rest ih =>
    simp only [brute_force_outer]
    rcases brute_force_inner_first p rest s with
      ⟨e1, e2, e3, e4⟩ | ⟨j0, hj0, e1, e2, e3, e4, e5, e6⟩
    · rcases ih (brute_force_inner p rest s) with
        ⟨f1, f2, f3, f4⟩ | ⟨i, j, hij, hj, f1, f2, f3, f4, f5, f6⟩
      · refine Or.inl ⟨f1.trans e1, f2.trans e2, f3.trans e3, List.Pairwise.cons e4 ?_⟩
        rw [e1] at f4
        exact f4
      · rw [e1] at f4
        refine Or.inr ⟨i + 1, j + 1, by omega, by simp only [List.length_cons]; omega,
          by simpa using f1, by simpa using f2, by simpa using f3, f4,
          List.Pairwise.cons (fun q hq => (f4.trans_le (e4 q hq)).le) f5, ?_⟩
        intro a b hab hb hlex
        cases b with
        | zero => omega
        | succ b =>
          cases a with
          | zero =>
            simp only [List.getElem_cons_zero, List.getElem_cons_succ]
            exact f4.trans_le (e4 _ (List.getElem_mem _))
          | succ a =>
            simp only [List.getElem_cons_succ]
            exact f6 a b (by omega) (by simpa using hb) (by omega)
    · rcases ih (brute_force_inner p rest s) with
        ⟨f1, f2, f3, f4⟩ | ⟨i, j, hij, hj, f1, f2, f3, f4, f5, f6⟩
      · refine Or.inr ⟨0, j0 + 1, by omega, by simp only [List.length_cons]; omega,
          by rw [f2, e1]; rfl, by rw [f3, e2]; rfl, by rw [f1, e3]; rfl, by rw [f1]; exact e4,
          List.Pairwise.cons (fun q hq => by rw [f1]; exact e5 q hq) (by rw [f1]; exact f4), ?_⟩
        intro a b hab hb hlex
        cases b with
        | zero => omega
        | succ b =>
          cases a with
          | zero =>
            simp only [List.getElem_cons_zero, List.getElem_cons_succ]
            rw [f1]
            exact e6 b (by omega)
          | succ a => omega
      · refine Or.inr ⟨i + 1, j + 1, by omega, by simp only [List.length_cons]; omega,
          by simpa using f1, by simpa using f2, by simpa using f3, f4.trans e4,
          List.Pairwise.cons (fun q hq => (f4.trans_le (e5 q hq)).le) f5, ?_⟩
        intro a b hab hb hlex
        cases b with
        | zero => omega
        | succ b =>
          cases a with
          | zero =>
            simp only [List.getElem_cons_zero, List.getElem_cons_succ]
            exact f4.trans_le (e5 _ (List.getElem_mem _))
          | succ a =>
            simp only [List.getElem_cons_succ]
            exact f6 a b (by omega) (by simpa using hb) (by omega)

/-- C25.  On at least two points `brute_force_closest_pair` returns the first
minimal pair in scan order: `p1 = points[i]` and `p2 = points[j]` for two
indices `i < j` whose distance, the returned one, is the least distance of two
points, and every pair of indices that comes before `(i, j)` in lexicographic
order is strictly farther apart. -/
theorem brute_force_first_minimal_pair (e : ℚ) (points : List Point)
    (h : 2 ≤ points.length) :
    ∃ (i j : ℕ) (hij : i < j) (hj : j < points.length),
      (brute_force_closest_pair e points).p1 = points[i] ∧
      (brute_force_closest_pair e points).p2 = points[j] ∧
      (brute_force_closest_pair e points).distance = distance points[i] points[j] ∧
      (∀ (a b : ℕ) (hab : a < b) (hb : b < points.length),
        distance points[i] points[j] ≤ distance points[a] points[b]) ∧
      ∀ (a b : ℕ) (hab : a < b) (hb : b < points.length), (a < i ∨ (a = i ∧ b < j)) →
        distance points[i] points[j] < distance points[a] points[b] := by
  rw [brute_force_of_ge e points h]
  simp only [brute_force_closest_pair_impl]
  rcases brute_force_outer_first points
    { min_dist := Dist.inf, p1 := default, p2 := default, comparisons := 0 } with
    ⟨_, _, _, f4⟩ | ⟨i, j, hij, hj, f1, f2, f3, _, f5, f6⟩
  · exfalso
    match points, h, f4 with
    | a :: b :: rest, _, f4 =>
      have h1 := (List.pairwise_cons.1 f4).1 b (List.mem_cons_self b rest)
      exact distance_ne_inf a b ((Dist.inf_le_iff _).1 h1)
  · refine ⟨i, j, hij, hj, f1, f2, f3, ?_, ?_⟩
    · intro a b hab hb
      rw [← f3]
      exact List.pairwise_iff_getElem.1 f5 a b (by omega) hb hab
    · intro a b hab hb hlex
      rw [← f3]
      exact f6 a b hab hb hlex

/-! ### Witnesses -/

/-- Witness for C21: five points with pairwise different coordinates; the left
call gets `left_x = [(0,3), (1,2)]` and `left_y = [(1,2), (0,3)]`. -/
theorem views_agree_on_distinct_points_witness :
    ([⟨2, 0, 0⟩, ⟨0, 3, 1⟩, ⟨4, 1, 2⟩, ⟨1, 2, 3⟩, ⟨3, 4, 4⟩] : List Point).Pairwise
      (fun a b => coords a ≠ coords b) ∧
    (([⟨0, 3, 1⟩, ⟨1, 2, 3⟩], [⟨1, 2, 3⟩, ⟨0, 3, 1⟩]) : List Point × List Point) ∈
      recursive_calls
        (std_sort compare_x [⟨2, 0, 0⟩, ⟨0, 3, 1⟩, ⟨4, 1, 2⟩, ⟨1, 2, 3⟩, ⟨3, 4, 4⟩])
        (std_sort compare_y [⟨2, 0, 0⟩, ⟨0, 3, 1⟩, ⟨4, 1, 2⟩, ⟨1, 2, 3⟩, ⟨3, 4, 4⟩]) ∧
    ([⟨1, 2, 3⟩, ⟨0, 3, 1⟩] : List Point) = std_sort compare_y [⟨0, 3, 1⟩, ⟨1, 2, 3⟩] :=
  ⟨by decide!, by decide!,
    (views_agree_on_distinct_points [⟨2, 0, 0⟩, ⟨0, 3, 1⟩, ⟨4, 1, 2⟩, ⟨1, 2, 3⟩, ⟨3, 4, 4⟩]
      (by decide!) ([⟨0, 3, 1⟩, ⟨1, 2, 3⟩], [⟨1, 2, 3⟩, ⟨0, 3, 1⟩]) (by decide!)).2.2.1⟩

/-- Witness for C24: a call on five points gives rise to at most four calls. -/
theorem recursion_well_founded_witness :
    2 ≤ ([⟨0, 3, 1⟩, ⟨1, 2, 3⟩, ⟨2, 0, 0⟩, ⟨3, 4, 4⟩, ⟨4, 1, 2⟩] : List Point).length ∧
    (recursive_calls [⟨0, 3, 1⟩, ⟨1, 2, 3⟩, ⟨2, 0, 0⟩, ⟨3, 4, 4⟩, ⟨4, 1, 2⟩]
      [⟨2, 0, 0⟩, ⟨4, 1, 2⟩, ⟨1, 2, 3⟩, ⟨0, 3, 1⟩, ⟨3, 4, 4⟩]).length ≤
      ([⟨0, 3, 1⟩, ⟨1, 2, 3⟩, ⟨2, 0, 0⟩, ⟨3, 4, 4⟩, ⟨4, 1, 2⟩] : List Point).length - 1 :=
  ⟨by decide,
    (recursion_well_founded [⟨0, 3, 1⟩, ⟨1, 2, 3⟩, ⟨2, 0, 0⟩, ⟨3, 4, 4⟩, ⟨4, 1, 2⟩]
      [⟨2, 0, 0⟩, ⟨4, 1, 2⟩, ⟨1, 2, 3⟩, ⟨0, 3, 1⟩, ⟨3, 4, 4⟩] (by decide)).2.1⟩

/-- Witness for C25: of the three points `(0,0)`, `(1,0)`, `(2,0)` the pairs at
indices `(0, 1)` and `(1, 2)` are both at the least distance `1`; brute force
returns the first. -/
theorem brute_force_first_minimal_pair_witness :
    (brute_force_closest_pair 0 [⟨0, 0, 0⟩, ⟨1, 0, 1⟩, ⟨2, 0, 2⟩]).p1 = ⟨0, 0, 0⟩ ∧
    (brute_force_closest_pair 0 [⟨0, 0, 0⟩, ⟨1, 0, 1⟩, ⟨2, 0, 2⟩]).p2 = ⟨1, 0, 1⟩ ∧
    ∃ (i j : ℕ) (_ : i < j) (hj : j < ([⟨0, 0, 0⟩, ⟨1, 0, 1⟩, ⟨2, 0, 2⟩] : List Point).length),
      (brute_force_closest_pair 0 [⟨0, 0, 0⟩, ⟨1, 0, 1⟩, ⟨2, 0, 2⟩]).p1 =
        ([⟨0, 0, 0⟩, ⟨1, 0, 1⟩, ⟨2, 0, 2⟩] : List Point)[i] ∧
      (brute_force_closest_pair 0 [⟨0, 0, 0⟩, ⟨1, 0, 1⟩, ⟨2, 0, 2⟩]).p2 =
        ([⟨0, 0, 0⟩, ⟨1, 0, 1⟩, ⟨2, 0, 2⟩] : List Point)[j] := by
  obtain ⟨i, j, hij, hj, h1, h2, _⟩ :=
    brute_force_first_minimal_pair 0 [⟨0, 0, 0⟩, ⟨1, 0, 1⟩, ⟨2, 0, 2⟩] (by decide)
  exact ⟨by decide!, by decide!, i, j, hij, hj, h1, h2⟩

end ClosestPair

namespace MaxCoverage

/-! ## Coverage of a list of indices -/

theorem foldl_union (users : List User) (l : List Int) (init : Finset Int) :
    l.foldl (fun (covered : Finset Int) idx => covered ∪ (user_at users idx).locations) init =
      init ∪ l.toFinset.biUnion (fun idx => (user_at users idx).locations) := by
  induction l generalizing init with
  | nil => simp
  | cons a l ih =>
    rw [List.foldl_cons, ih, List.toFinset_cons, Finset.biUnion_insert, Finset.union_assoc]

theorem compute_coverage_eq (users : List User) (l : List Int) :
    compute_coverage users l =
      ((l.toFinset.biUnion (fun idx => (user_at users idx).locations)).card : Int) := by
  simp only [compute_coverage, foldl_union, Finset.empty_union]

/-! ## The greedy loop -/

/-- The set `covered` is the union of the location sets of the selected users. -/
theorem greedy_loop_covered (users : List User) (m : ℕ) (st : GreedyState)
    (h : st.covered = st.selected_users.toFinset.biUnion (fun idx => (user_at users idx).locations)) :
    (greedy_loop users m st).covered =
      (greedy_loop users m st).selected_users.toFinset.biUnion
        (fun idx => (user_at users idx).locations) := by
  induction m generalizing st with
  | zero => exact h
  | succ m ih =>
    simp only [greedy_loop]
    split
    · exact h
    · apply ih
      simp only []
      rw [h]
      ext x
      simp only [Finset.mem_union, Finset.mem_biUnion, List.mem_toFinset, List.mem_append,
        List.mem_singleton]
      constructor
      · rintro (⟨i, hi, hx⟩ | hx)
        · exact ⟨i, Or.inl hi, hx⟩
        · exact ⟨_, Or.inr rfl, hx⟩
      · rintro ⟨i, hi | hi, hx⟩
        · exact Or.inl ⟨i, hi, hx⟩
        · exact Or.inr (hi ▸ hx)

theorem greedy_of_nonneg (elapsed : ℚ) (users : List User) (k : Int) (hk : 0 ≤ k) :
    greedy_max_coverage elapsed users k =
      some { selected_users := (greedy_loop users (min k.toNat users.length)
                { selected_users := [], covered := ∅,
                  selected := List.replicate users.length false }).selected_users,
             coverage := ((greedy_loop users (min k.toNat users.length)
                { selected_users := [], covered := ∅,
                  selected := List.replicate users.length false }).covered.card : Int),
             runtime_ms := elapsed } := by
  simp only [greedy_max_coverage, not_lt.2 hk, if_false]

/-- C16.  For every `k ≥ 0` the coverage returned by `greedy_max_coverage` is
the number of distinct locations in the union of the location sets of the
returned `selected_users`; it equals `compute_coverage(users, selected_users)`. -/
theorem greedy_coverage_is_computed (elapsed : ℚ) (users : List User) (k : Int) (hk : 0 ≤ k) :
    ∃ r, greedy_max_coverage elapsed users k = some r ∧
      r.coverage =
        ((r.selected_users.toFinset.biUnion (fun idx => (user_at users idx).locations)).card : Int) ∧
      r.coverage = compute_coverage users r.selected_users := by
  refine ⟨_, greedy_of_nonneg elapsed users k hk, ?_, ?_⟩
  · simp only
    rw [greedy_loop_covered users _ _ rfl]
  · simp only
    rw [compute_coverage_eq, greedy_loop_covered users _ _ rfl]

theorem marginal_gain_nonneg (covered : Finset Int) (usr : User) :
    0 ≤ marginal_gain covered usr := by
  simp [marginal_gain]

theorem marginal_gain_eq_zero_of_subset {covered : Finset Int} {usr : User}
    (h : usr.locations ⊆ covered) : marginal_gain covered usr = 0 := by
  simp only [marginal_gain, Nat.cast_eq_zero, Finset.card_eq_zero, Finset.filter_eq_empty_iff]
  intro x hx
  simpa using h hx

theorem card_union_eq_add_gain (covered : Finset Int) (usr : User) :
    ((covered ∪ usr.locations).card : Int) = covered.card + marginal_gain covered usr := by
  simp only [marginal_gain]
  rw [← Finset.sdiff_eq_filter, ← Finset.union_sdiff_self_eq_union,
    Finset.card_union_of_disjoint (Finset.disjoint_sdiff)]
  push_cast
  rfl

/-- The search loop: the gain found bounds the gain of every user that is not
selected, and it is the gain of the user found. -/
theorem find_best_user_spec (covered : Finset Int) (selected : List Bool) (rest : List User)
    (u : ℕ) (best : Int × Int) :
    best.2 ≤ (find_best_user covered selected rest u best).2 ∧
    (∀ j (hj : j < rest.length), selected.getD (u + j) false = false →
      marginal_gain covered rest[j] ≤ (find_best_user covered selected rest u best).2) ∧
    (find_best_user covered selected rest u best = best ∨
      ∃ j, ∃ hj : j < rest.length,
        (find_best_user covered selected rest u best).1 = ((u + j : ℕ) : Int) ∧
        selected.getD (u + j) false = false ∧
        (find_best_user covered selected rest u best).2 = marginal_gain covered rest[j] ∧
        best.2 < (find_best_user covered selected rest u best).2) := by
  induction rest generalizing u best with
  | nil => exact ⟨le_refl _, fun j hj => absurd hj (by simp), Or.inl rfl⟩
  | cons usr rest ih =>
    simp only [find_best_user]
    have shift : ∀ (b : Int × Int),
        (∀ j (hj : j < rest.length), selected.getD (u + 1 + j) false = false →
          marginal_gain covered rest[j] ≤ (find_best_user covered selected rest (u + 1) b).2) →
        marginal_gain covered usr ≤ (find_best_user covered selected rest (u + 1) b).2 ∨
          selected.getD u false = true →
        ∀ j (hj : j < (usr :: rest).length), selected.getD (u + j) false = false →
          marginal_gain covered (usr :: rest)[j] ≤
            (find_best_user covered selected rest (u + 1) b).2 := by
      intro b h1 h2 j hj hs
      cases j with
      | zero =>
        rcases h2 with h2 | h2
        · simpa using h2
        · simp only [add_zero] at hs
          rw [h2] at hs
          exact absurd hs (by simp)
      | succ j =>
        have := h1 j (by simpa using hj) (by rw [← hs]; congr 1; omega)
        simpa using this
    have lift : ∀ (b : Int × Int), best.2 ≤ b.2 →
        (find_best_user covered selected rest (u + 1) b = b ∨
          ∃ j, ∃ hj : j < rest.length,
            (find_best_user covered selected rest (u + 1) b).1 = ((u + 1 + j : ℕ) : Int) ∧
            selected.getD (u + 1 + j) false = false ∧
            (find_best_user covered selected rest (u + 1) b).2 = marginal_gain covered rest[j] ∧
            b.2 < (find_best_user covered selected rest (u + 1) b).2) →
        (b = best ∨ (b.1 = ((u : ℕ) : Int) ∧ selected.getD u false = false ∧
            b.2 = marginal_gain covered usr ∧ best.2 < b.2)) →
        (find_best_user covered selected rest (u + 1) b = best ∨
          ∃ j, ∃ hj : j < (usr :: rest).length,
            (find_best_user covered selected rest (u + 1) b).1 = ((u + j : ℕ) : Int) ∧
            selected.getD (u + j) false = false ∧
            (find_best_user covered selected rest (u + 1) b).2 =
              marginal_gain covered (usr :: rest)[j] ∧
            best.2 < (find_best_user covered selected rest (u + 1) b).2) := by
      intro b hb h1 h2
      rcases h1 with h1 | ⟨j, hj, e1, e2, e3, e4⟩
      · rcases h2 with h2 | ⟨f1, f2, f3, f4⟩
        · exact Or.inl (h1.trans h2)
        · refine Or.inr ⟨0, by simp, ?_, ?_, ?_, ?_⟩
          · rw [h1]; simpa using f1
          · simpa using f2
          · rw [h1]; simpa using f3
          · rw [h1]; exact f4
      · refine Or.inr ⟨j + 1, by simpa using hj, ?_, ?_, ?_, ?_⟩
        · rw [e1]; congr 1; omega
        · rw [← e2]; congr 1; omega
        · rw [e3]; simp
        · exact lt_of_le_of_lt hb e4
    split
    · rename_i hsel
      obtain ⟨i1, i2, i3⟩ := ih (u + 1) best
      exact ⟨i1, shift best i2 (Or.inr hsel), lift best (le_refl _) i3 (Or.inl rfl)⟩
    · rename_i hsel
      simp only [Bool.not_eq_true] at hsel
      split
      · rename_i hg
        obtain ⟨i1, i2, i3⟩ := ih (u + 1) ((u : Int), marginal_gain covered usr)
        exact ⟨(le_of_lt hg).trans i1, shift _ i2 (Or.inl i1),
          lift _ (le_of_lt hg) i3 (Or.inr ⟨rfl, hsel, rfl, hg⟩)⟩
      · rename_i hg
        obtain ⟨i1, i2, i3⟩ := ih (u + 1) best
        exact ⟨i1, shift best i2 (Or.inl ((not_lt.1 hg).trans i1)),
          lift best (le_refl _) i3 (Or.inl rfl)⟩

theorem user_at_natCast (users : List User) (u : ℕ) (hu : u < users.length) :
    user_at users (u : Int) = users[u] := by
  simp only [user_at, Int.toNat_ofNat]
  exact List.getD_eq_getElem _ _ hu

/-- The outcome of one search for the best user. -/
theorem find_best_user_top (users : List User) (covered : Finset Int) (selected : List Bool) :
    ((find_best_user covered selected users 0 (-1, 0)).1 = -1 ∨
        (find_best_user covered selected users 0 (-1, 0)).2 = 0 →
      ∀ u (hu : u < users.length), selected.getD u false = false →
        marginal_gain covered users[u] = 0) ∧
    (¬((find_best_user covered selected users 0 (-1, 0)).1 = -1 ∨
        (find_best_user covered selected users 0 (-1, 0)).2 = 0) →
      ∃ u, ∃ hu : u < users.length,
        (find_best_user covered selected users 0 (-1, 0)).1 = (u : Int) ∧
        selected.getD u false = false ∧
        (find_best_user covered selected users 0 (-1, 0)).2 = marginal_gain covered users[u] ∧
        0 < (find_best_user covered selected users 0 (-1, 0)).2 ∧
        ∀ v (hv : v < users.length), selected.getD v false = false →
          marginal_gain covered users[v] ≤ (find_best_user covered selected users 0 (-1, 0)).2) := by
  obtain ⟨_, h2, h3⟩ := find_best_user_spec covered selected users 0 (-1, 0)
  simp only [zero_add] at h2 h3
  rcases h3 with h3 | ⟨j, hj, e1, e2, e3, e4⟩
  · refine ⟨fun _ u hu hs => ?_, fun hn => absurd (Or.inl (by rw [h3])) hn⟩
    have := h2 u hu hs
    rw [h3] at this
    exact le_antisymm this (marginal_gain_nonneg _ _)
  · refine ⟨fun h => ?_, fun _ => ⟨j, hj, e1, e2, e3, e4, h2⟩⟩
    rcases h with h | h
    · rw [e1] at h
      omega
    · rw [h] at e4
      exact absurd e4 (lt_irrefl _)

theorem getD_set_true (l : List Bool) (u v : ℕ) (hu : u < l.length) :
    (l.set u true).getD v false = true ↔ v = u ∨ l.getD v false = true := by
  simp only [List.getD_eq_getElem?_getD, List.getElem?_set]
  by_cases h : u = v
  · subst h
    simp [hu]
  · simp only [h, if_false]
    constructor
    · exact Or.inr
    · rintro (h2 | h2)
      · exact absurd h2.symm h
      · exact h2

/-- One productive iteration keeps the invariant. -/
theorem valid_step (users : List User) (st : GreedyState) (h : st.Valid users) (u : ℕ)
    (hu : u < users.length) (hs : st.selected.getD u false = false) :
    GreedyState.Valid users
      { selected_users := st.selected_users ++ [(u : Int)],
        covered := st.covered ∪ (user_at users (u : Int)).locations,
        selected := st.selected.set u true } := by
  obtain ⟨h1, h2, h3, h4, h5⟩ := h
  have hnot : (u : Int) ∉ st.selected_users := by
    intro hm
    have := (h2 u hu).2 hm
    rw [hs] at this
    exact absurd this (by simp)
  refine ⟨by simp [h1], fun v hv => ?_, ?_, ?_, ?_⟩
  · simp only
    rw [getD_set_true _ _ _ (by rw [h1]; exact hu), List.mem_append, List.mem_singleton, h2 v hv]
    constructor
    · rintro (rfl | h)
      · exact Or.inr rfl
      · exact Or.inl h
    · rintro (h | h)
      · exact Or.inr h
      · exact Or.inl (by exact_mod_cast h)
  · exact List.nodup_append.2 ⟨h3, List.nodup_singleton _, by
      intro a ha hb
      rw [List.mem_singleton] at hb
      exact hnot (hb ▸ ha)⟩
  · intro idx hidx
    rcases List.mem_append.1 hidx with hi | hi
    · exact h4 idx hi
    · rw [List.mem_singleton] at hi
      subst hi
      exact ⟨by positivity, by exact_mod_cast hu⟩
  · simp only
    rw [h5]
    ext x
    simp only [Finset.mem_union, Finset.mem_biUnion, List.mem_toFinset, List.mem_append,
      List.mem_singleton]
    constructor
    · rintro (⟨i, hi, hx⟩ | hx)
      · exact ⟨i, Or.inl hi, hx⟩
      · exact ⟨_, Or.inr rfl, hx⟩
    · rintro ⟨i, hi | hi, hx⟩
      · exact Or.inl ⟨i, hi, hx⟩
      · exact Or.inr (hi ▸ hx)

theorem valid_initial (users : List User) :
    GreedyState.Valid users
      { selected_users := [], covered := ∅, selected := List.replicate users.length false } := by
  refine ⟨by simp, fun u hu => ?_, List.nodup_nil, fun idx h => absurd h (by simp), by simp⟩
  simp [List.getD_eq_getElem?_getD, List.getElem?_replicate, hu]

/-- One iteration of the greedy loop, unfolded with the user it selects. -/
theorem greedy_loop_succ (users : List User) (m : ℕ) (st : GreedyState) :
    (greedy_loop users (m + 1) st = st ∧
      ∀ u (hu : u < users.length), st.selected.getD u false = false →
        marginal_gain st.covered users[u] = 0) ∨
    ∃ u, ∃ hu : u < users.length, st.selected.getD u false = false ∧
      0 < marginal_gain st.covered users[u] ∧
      (∀ v (hv : v < users.length), st.selected.getD v false = false →
        marginal_gain st.covered users[v] ≤ marginal_gain st.covered users[u]) ∧
      greedy_loop users (m + 1) st = greedy_loop users m
        { selected_users := st.selected_users ++ [(u : Int)],
          covered := st.covered ∪ (user_at users (u : Int)).locations,
          selected := st.selected.set u true } := by
  obtain ⟨t1, t2⟩ := find_best_user_top users st.covered st.selected
  by_cases hb : (find_best_user st.covered st.selected users 0 (-1, 0)).1 = -1 ∨
      (find_best_user st.covered st.selected users 0 (-1, 0)).2 = 0
  · left
    refine ⟨?_, t1 hb⟩
    simp only [greedy_loop, hb, if_true]
  · right
    obtain ⟨u, hu, e1, e2, e3, e4, e5⟩ := t2 hb
    refine ⟨u, hu, e2, e3 ▸ e4, fun v hv hs => e3 ▸ e5 v hv hs, ?_⟩
    have hb2 : ¬((u : Int) = -1 ∨
        (find_best_user st.covered st.selected users 0 (-1, 0)).2 = 0) := by
      rw [← e1]; exact hb
    simp only [greedy_loop, e1, Int.toNat_ofNat, hb2, if_false]

theorem greedy_loop_valid (users : List User) (m : ℕ) (st : GreedyState)
    (h : st.Valid users) : (greedy_loop users m st).Valid users := by
  induction m generalizing st with
  | zero => exact h
  | succ m ih =>
    rcases greedy_loop_succ users m st with ⟨e, _⟩ | ⟨u, hu, hs, _, _, e⟩
    · rw [e]; exact h
    · rw [e]; exact ih _ (valid_step users st h u hu hs)

theorem greedy_loop_length (users : List User) (m : ℕ) (st : GreedyState) :
    (greedy_loop users m st).selected_users.length ≤ st.selected_users.length + m := by
  induction m generalizing st with
  | zero => exact le_refl _
  | succ m ih =>
    rcases greedy_loop_succ users m st with ⟨e, _⟩ | ⟨u, hu, hs, _, _, e⟩
    · rw [e]; omega
    · rw [e]
      refine (ih _).trans ?_
      simp only [List.length_append, List.length_singleton]
      omega

theorem isCombination_nil (n start : ℕ) : IsCombination n start [] :=
  ⟨List.sorted_nil, fun i h => absurd h (by simp)⟩

theorem isCombination_cons (n start i : ℕ) (c : List ℕ) :
    IsCombination n start (i :: c) ↔ start ≤ i ∧ i < n ∧ IsCombination n (i + 1) c := by
  constructor
  · rintro ⟨h1, h2⟩
    have h3 := List.sorted_cons.1 h1
    exact ⟨(h2 i (List.mem_cons_self _ _)).1, (h2 i (List.mem_cons_self _ _)).2, h3.2,
      fun j hj => ⟨h3.1 j hj, (h2 j (List.mem_cons_of_mem _ hj)).2⟩⟩
  · rintro ⟨h1, h2, h3, h4⟩
    refine ⟨List.sorted_cons.2 ⟨fun j hj => (h4 j hj).1, h3⟩, fun j hj => ?_⟩
    rcases List.mem_cons.1 hj with rfl | hj
    · exact ⟨h1, h2⟩
    · exact ⟨by have := (h4 j hj).1; omega, (h4 j hj).2⟩

theorem isCombination_of_le {n a b : ℕ} {c : List ℕ} (hab : a ≤ b) (h : IsCombination n b c) :
    IsCombination n a c :=
  ⟨h.1, fun i hi => ⟨hab.trans (h.2 i hi).1, (h.2 i hi).2⟩⟩

theorem visit_enumerated (users : List User) (n start : ℕ) (st : Search) :
    (visit users st).combination = st.combination ∧
    Enumerated users n 0 start st.combination st (visit users st) := by
  simp only [visit]
  split
  · rename_i h
    refine ⟨rfl, le_of_lt h, Or.inr ⟨[], rfl, isCombination_nil _ _, by simp, by simp, h⟩, ?_⟩
    intro c hc _
    rw [List.length_eq_zero] at hc
    subst hc
    simp
  · rename_i h
    refine ⟨rfl, le_refl _, Or.inl ⟨rfl, rfl⟩, ?_⟩
    intro c hc _
    rw [List.length_eq_zero] at hc
    subst hc
    simpa using not_lt.1 h

/-- Chaining two stretches of the loop over `i`: first the combinations that
start with `a`, then those from `a + 1` on. -/
theorem enumerated_step (users : List User) (n len a : ℕ) (pre : List Int) (st st1 f : Search)
    (ha : a < n)
    (h1 : Enumerated users n len (a + 1) (pre ++ [(a : Int)]) st st1)
    (h2 : Enumerated users n (len + 1) (a + 1) pre st1 f) :
    Enumerated users n (len + 1) a pre st f := by
  obtain ⟨m1, s1, c1⟩ := h1
  obtain ⟨m2, s2, c2⟩ := h2
  refine ⟨m1.trans m2, ?_, ?_⟩
  · rcases s2 with ⟨e1, e2⟩ | ⟨c, hc, hcomb, hsel, hcov, hlt⟩
    · rcases s1 with ⟨f1, f2⟩ | ⟨c, hc, hcomb, hsel, hcov, hlt⟩
      · exact Or.inl ⟨e1.trans f1, e2.trans f2⟩
      · refine Or.inr ⟨a :: c, by simp [hc], (isCombination_cons _ _ _ _).2 ⟨le_refl _, ha, hcomb⟩,
          ?_, ?_, ?_⟩
        · rw [e2, hsel]; simp
        · rw [e1, e2]; exact hcov
        · rw [e1]; exact hlt
    · exact Or.inr ⟨c, hc, isCombination_of_le (Nat.le_succ _) hcomb, hsel, hcov, lt_of_le_of_lt m1 hlt⟩
  · intro c hc hcomb
    match c, hc with
    | i :: c', hc =>
      obtain ⟨hi1, hi2, hrest⟩ := (isCombination_cons _ _ _ _).1 hcomb
      rcases Nat.eq_or_lt_of_le hi1 with rfl | hlt
      · have := c1 c' (by simpa using hc) hrest
        simp only [List.append_assoc, List.singleton_append] at this
        exact (by simpa using this : _ ≤ st1.coverage).trans m2
      · exact c2 (i :: c') hc ((isCombination_cons _ _ _ _).2 ⟨hlt, hi2, hrest⟩)

theorem enumerated_empty (users : List User) (n len : ℕ) (pre : List Int) (st : Search) :
    Enumerated users n (len + 1) n pre st st := by
  refine ⟨le_refl _, Or.inl ⟨rfl, rfl⟩, ?_⟩
  intro c hc hcomb
  match c, hc with
  | i :: c', _ =>
    have := (isCombination_cons _ _ _ _).1 hcomb
    omega

/-- The enumeration visits every combination: from `st`, with `depth` entries
of `combination` fixed, it reaches a state that accounts for every way to fill
the remaining entries with increasing indices from `start` on. -/
theorem generate_combinations_enumerated (users : List User) (n : ℕ) :
    ∀ (remaining start depth : ℕ) (st : Search),
      st.combination.length = depth + remaining →
      (generate_combinations users n remaining start depth st).combination.length =
          st.combination.length ∧
        (generate_combinations users n remaining start depth st).combination.take depth =
          st.combination.take depth ∧
        Enumerated users n remaining start (st.combination.take depth) st
          (generate_combinations users n remaining start depth st) := by
  intro remaining
  induction remaining with
  | zero =>
    intro start depth st hlen
    simp only [generate_combinations]
    obtain ⟨h1, h2⟩ := visit_enumerated users n start st
    rw [h1]
    refine ⟨rfl, rfl, ?_⟩
    rw [List.take_of_length_le (by omega)]
    exact h2
  | succ remaining ih =>
    intro start depth st hlen
    simp only [generate_combinations]
    -- the loop over `i = a, ..., n - 1`
    have loop : ∀ (m a : ℕ) (st0 : Search), a + m = n →
        st0.combination.length = depth + (remaining + 1) →
        ((List.range' a m).foldl
            (fun st i => generate_combinations users n remaining (i + 1) (depth + 1)
              { st with combination := st.combination.set depth (i : Int) }) st0).combination.length =
            st0.combination.length ∧
          ((List.range' a m).foldl
            (fun st i => generate_combinations users n remaining (i + 1) (depth + 1)
              { st with combination := st.combination.set depth (i : Int) }) st0).combination.take
              depth = st0.combination.take depth ∧
          Enumerated users n (remaining + 1) a (st0.combination.take depth) st0
            ((List.range' a m).foldl
              (fun st i => generate_combinations users n remaining (i + 1) (depth + 1)
                { st with combination := st.combination.set depth (i : Int) }) st0) := by
      intro m
      induction m with
      | zero =>
        intro a st0 ha _
        simp only [List.range'_zero, List.foldl_nil]
        have : a = n := by omega
        subst this
        exact ⟨trivial, trivial, enumerated_empty users a remaining _ st0⟩
      | succ m ihm =>
        intro a st0 ha hl0
        rw [List.range'_succ, List.foldl_cons]
        have hset : ({ st0 with combination := st0.combination.set depth (a : Int) } :
            Search).combination.length = depth + 1 + remaining := by
          simp only [List.length_set]
          omega
        obtain ⟨g1, g2, g3⟩ := ih (a + 1) (depth + 1)
          { st0 with combination := st0.combination.set depth (a : Int) } hset
        have htake : ({ st0 with combination := st0.combination.set depth (a : Int) } :
            Search).combination.take (depth + 1) = st0.combination.take depth ++ [(a : Int)] := by
          simp only
          rw [List.take_succ, List.set_take,
            List.set_eq_of_length_le (by rw [List.length_take]; exact min_le_left _ _)]
          simp [List.getElem?_set, show depth < st0.combination.length by omega]
        rw [htake] at g2 g3
        simp only [List.length_set] at g1
        obtain ⟨l1, l2, l3⟩ := ihm (a + 1) _ (by omega) (g1.trans hl0)
        have hpre : (generate_combinations users n remaining (a + 1) (depth + 1)
            { st0 with combination := st0.combination.set depth (a : Int) }).combination.take depth =
            st0.combination.take depth := by
          have hP : (st0.combination.take depth).length = depth := by
            rw [List.length_take]; omega
          calc _ = List.take depth (List.take (depth + 1) (generate_combinations users n remaining
                    (a + 1) (depth + 1)
                    { st0 with combination := st0.combination.set depth (a : Int) }).combination) := by
                  rw [List.take_take, min_eq_left (Nat.le_succ _)]
            _ = List.take depth (st0.combination.take depth ++ [(a : Int)]) := by rw [g2]
            _ = st0.combination.take depth := by
                  rw [List.take_append_of_le_length (le_of_eq hP.symm), List.take_take, min_self]
        rw [hpre] at l2 l3
        refine ⟨l1.trans g1, l2, ?_⟩
        refine enumerated_step users n remaining a _ st0 _ _ (by omega) ?_ l3
        obtain ⟨q1, q2, q3⟩ := g3
        exact ⟨q1, q2, q3⟩
    by_cases hs : start ≤ n
    · exact loop (n - start) start st (by omega) hlen
    · have h0 : n - start = 0 := by omega
      rw [h0]
      simp only [List.range'_zero, List.foldl_nil]
      refine ⟨trivial, trivial, le_refl _, Or.inl ⟨rfl, rfl⟩, ?_⟩
      intro c hc hcomb
      match c, hc with
      | i :: c', _ =>
        have := (isCombination_cons _ _ _ _).1 hcomb
        omega

/-! ## Index lists and index sets -/

theorem biUnion_user_at (users : List User) (l : List Int) :
    l.toFinset.biUnion (fun idx => (user_at users idx).locations) =
      covered_by users (l.map Int.toNat).toFinset := by
  ext x
  simp only [covered_by, Finset.mem_biUnion, List.mem_toFinset, List.mem_map, user_at]
  constructor
  · rintro ⟨i, hi, hx⟩
    exact ⟨i.toNat, ⟨i, hi, rfl⟩, hx⟩
  · rintro ⟨j, ⟨i, hi, rfl⟩, hx⟩
    exact ⟨i, hi, hx⟩

theorem compute_coverage_natCast (users : List User) (c : List ℕ) :
    compute_coverage users (c.map (fun i : ℕ => (i : Int))) =
      ((covered_by users c.toFinset).card : Int) := by
  have h : (c.map (fun i : ℕ => (i : Int))).map Int.toNat = c := by
    induction c with
    | nil => rfl
    | cons a c ih => simp only [List.map_cons, Int.toNat_ofNat, ih]
  rw [compute_coverage_eq, biUnion_user_at, h]

theorem covered_by_mono (users : List User) {S T : Finset ℕ} (h : S ⊆ T) :
    covered_by users S ⊆ covered_by users T :=
  Finset.biUnion_subset_biUnion_of_subset_left _ h

theorem isCombination_of_finset (n : ℕ) (S : Finset ℕ) (h : ∀ i ∈ S, i < n) :
    IsCombination n 0 (S.sort (· ≤ ·)) ∧ (S.sort (· ≤ ·)).length = S.card ∧
    (S.sort (· ≤ ·)).toFinset = S :=
  ⟨⟨Finset.sort_sorted_lt S, fun i hi => ⟨Nat.zero_le _, h i ((Finset.mem_sort _).1 hi)⟩⟩,
    Finset.length_sort _, Finset.sort_toFinset _ _⟩

theorem finset_of_isCombination {n start : ℕ} {c : List ℕ} (h : IsCombination n start c) :
    (∀ i ∈ c.toFinset, i < n) ∧ c.toFinset.card = c.length ∧ c.Nodup := by
  have hnd : c.Nodup := h.1.imp (fun hab => ne_of_lt hab)
  exact ⟨fun i hi => (h.2 i (List.mem_toFinset.1 hi)).2, List.toFinset_card_of_nodup hnd, hnd⟩

/-! ## The brute-force solver -/

theorem clamp_eq_min (k : Int) (n : ℕ) (hk : 0 ≤ k) :
    (if k > (n : Int) then (n : Int) else k) = ((min k.toNat n : ℕ) : Int) := by
  split
  · rename_i h
    rw [min_eq_right (by omega)]
  · rename_i h
    rw [min_eq_left (by omega)]
    omega

theorem brute_force_of_feasible (elapsed : ℚ) (users : List User) (k : Int) (hk0 : 0 ≤ k)
    (hn : users.length ≤ 20) (hk : min k.toNat users.length ≤ 15) :
    brute_force_max_coverage elapsed users k =
      some
        { selected_users := (generate_combinations users users.length
              (min k.toNat users.length) 0 0
              { combination := List.replicate (min k.toNat users.length) 0, coverage := 0,
                selected_users := [] }).selected_users,
          coverage := (generate_combinations users users.length
              (min k.toNat users.length) 0 0
              { combination := List.replicate (min k.toNat users.length) 0, coverage := 0,
                selected_users := [] }).coverage,
          runtime_ms := elapsed } := by
  simp only [brute_force_max_coverage]
  rw [clamp_eq_min k users.length hk0]
  have h1 : ¬((users.length : Int) > 20 ∨ ((min k.toNat users.length : ℕ) : Int) > 15) := by
    omega
  have h2 : ¬(((min k.toNat users.length : ℕ) : Int) < 0) := by omega
  simp only [h1, h2, if_false, Int.toNat_ofNat]

theorem brute_force_search (users : List User) (k' : ℕ) :
    Enumerated users users.length k' 0 []
      { combination := List.replicate k' 0, coverage := 0, selected_users := [] }
      (generate_combinations users users.length k' 0 0
        { combination := List.replicate k' 0, coverage := 0, selected_users := [] }) := by
  have h := (generate_combinations_enumerated users users.length k' 0 0
    { combination := List.replicate k' 0, coverage := 0, selected_users := [] }
    (by simp)).2.2
  simpa using h

/-- The coverage found by the enumeration is the maximum over all sets of
`k'` valid indices, and a set that attains it is returned when it is positive. -/
theorem search_optimal (users : List User) (k' : ℕ) (hk : k' ≤ users.length) (f : Search)
    (h : Enumerated users users.length k' 0 []
      { combination := List.replicate k' 0, coverage := 0, selected_users := [] } f) :
    (∀ S : Finset ℕ, (∀ i ∈ S, i < users.length) → S.card = k' →
      ((covered_by users S).card : Int) ≤ f.coverage) ∧
    (∃ S : Finset ℕ, (∀ i ∈ S, i < users.length) ∧ S.card = k' ∧
      ((covered_by users S).card : Int) = f.coverage) ∧
    (0 < f.coverage →
      f.selected_users.length = k' ∧ f.selected_users.Nodup ∧
      (∀ idx ∈ f.selected_users, 0 ≤ idx ∧ idx < users.length) ∧
      compute_coverage users f.selected_users = f.coverage) := by
  obtain ⟨h1, h2, h3⟩ := h
  simp only [List.nil_append] at h2 h3
  have upper : ∀ S : Finset ℕ, (∀ i ∈ S, i < users.length) → S.card = k' →
      ((covered_by users S).card : Int) ≤ f.coverage := by
    intro S hS hcard
    obtain ⟨c1, c2, c3⟩ := isCombination_of_finset users.length S hS
    have := h3 (S.sort (· ≤ ·)) (c2.trans hcard) c1
    rwa [compute_coverage_natCast, c3] at this
  refine ⟨upper, ?_, ?_⟩
  · rcases h2 with ⟨e1, _⟩ | ⟨c, hc, hcomb, hsel, hcov, _⟩
    · refine ⟨Finset.range k', fun i hi => lt_of_lt_of_le (Finset.mem_range.1 hi) hk,
        Finset.card_range _, ?_⟩
      have hu := upper (Finset.range k')
        (fun i hi => lt_of_lt_of_le (Finset.mem_range.1 hi) hk) (Finset.card_range _)
      rw [e1] at hu ⊢
      exact le_antisymm hu (by positivity)
    · obtain ⟨f1, f2, _⟩ := finset_of_isCombination hcomb
      refine ⟨c.toFinset, f1, f2.trans hc, ?_⟩
      rw [hcov, hsel, compute_coverage_natCast]
  · intro hpos
    rcases h2 with ⟨e1, _⟩ | ⟨c, hc, hcomb, hsel, hcov, _⟩
    · rw [e1] at hpos
      exact absurd hpos (lt_irrefl _)
    · obtain ⟨_, _, f3⟩ := finset_of_isCombination hcomb
      refine ⟨by rw [hsel, List.length_map, hc], ?_, ?_, hcov.symm⟩
      · rw [hsel]
        exact f3.map (fun a b hab => by exact_mod_cast hab)
      · intro idx hidx
        rw [hsel] at hidx
        obtain ⟨i, hi, rfl⟩ := List.mem_map.1 hidx
        exact ⟨by positivity, by exact_mod_cast (hcomb.2 i hi).2⟩

/-- The greedy selection is a set of at most `min(k, n)` valid indices whose
coverage is the returned coverage. -/
theorem greedy_selection (elapsed : ℚ) (users : List User) (k : Int) (g : CoverageResult)
    (hg : greedy_max_coverage elapsed users k = some g) :
    0 ≤ k ∧
    (∀ i ∈ (g.selected_users.map Int.toNat).toFinset, i < users.length) ∧
    (g.selected_users.map Int.toNat).toFinset.card ≤ min k.toNat users.length ∧
    g.coverage = ((covered_by users (g.selected_users.map Int.toNat).toFinset).card : Int) := by
  have hk : 0 ≤ k := by
    by_contra hneg
    simp [greedy_max_coverage, not_le.1 hneg] at hg
  rw [greedy_of_nonneg elapsed users k hk, Option.some.injEq] at hg
  subst hg
  have hv := greedy_loop_valid users (min k.toNat users.length) _ (valid_initial users)
  have hl := greedy_loop_length users (min k.toNat users.length)
    { selected_users := [], covered := ∅, selected := List.replicate users.length false }
  obtain ⟨_, _, _, v4, v5⟩ := hv
  refine ⟨hk, ?_, ?_, ?_⟩
  · intro i hi
    simp only [List.mem_toFinset, List.mem_map] at hi
    obtain ⟨idx, hidx, rfl⟩ := hi
    have := v4 idx hidx
    omega
  · refine (List.toFinset_card_le _).trans ?_
    rw [List.length_map]
    simpa using hl
  · simp only
    rw [v5, biUnion_user_at]

/-- C17.  For at most 20 users and `0 ≤ k` with `min(k, n) ≤ 15`,
`brute_force_max_coverage` returns the optimum: its coverage is the maximum,
over all sets of `min(k, n)` distinct user indices, of the number of distinct
locations they cover; when that maximum is positive the returned
`selected_users` is such a set attaining it; and the coverage of
`greedy_max_coverage` never exceeds it. -/
theorem brute_force_is_optimal (elapsed : ℚ) (users : List User) (k : Int) (hk0 : 0 ≤ k)
    (hn : users.length ≤ 20) (hk : min k.toNat users.length ≤ 15) :
    ∃ r, brute_force_max_coverage elapsed users k = some r ∧
      (∀ S : Finset ℕ, (∀ i ∈ S, i < users.length) → S.card = min k.toNat users.length →
        ((covered_by users S).card : Int) ≤ r.coverage) ∧
      (∃ S : Finset ℕ, (∀ i ∈ S, i < users.length) ∧ S.card = min k.toNat users.length ∧
        ((covered_by users S).card : Int) = r.coverage) ∧
      (0 < r.coverage →
        r.selected_users.length = min k.toNat users.length ∧ r.selected_users.Nodup ∧
        (∀ idx ∈ r.selected_users, 0 ≤ idx ∧ idx < users.length) ∧
        compute_coverage users r.selected_users = r.coverage) ∧
      (∀ (e : ℚ) (g : CoverageResult), greedy_max_coverage e users k = some g →
        g.coverage ≤ r.coverage) := by
  obtain ⟨o1, o2, o3⟩ := search_optimal users (min k.toNat users.length) (min_le_right _ _) _
    (brute_force_search users (min k.toNat users.length))
  refine ⟨_, brute_force_of_feasible elapsed users k hk0 hn hk, o1, o2, o3, ?_⟩
  intro e g hg
  obtain ⟨_, g1, g2, g3⟩ := greedy_selection e users k g hg
  obtain ⟨T, hT1, hT2, hT3⟩ := Finset.exists_subsuperset_card_eq
    (fun i hi => Finset.mem_range.2 (g1 i hi)) g2
    (by rw [Finset.card_range]; exact min_le_right _ _)
  rw [g3]
  refine le_trans ?_ (o1 T (fun i hi => Finset.mem_range.1 (hT2 hi)) hT3)
  exact_mod_cast Finset.card_le_card (covered_by_mono users hT1)

/-- C19.  With `n = users.size()` and `k` clamped to `n`: if `n > 20` or
`k > 15`, `brute_force_max_coverage` returns coverage `0`, no selected users and
`runtime_ms = -1`, whatever the users are; if `n ≤ 20` and the clamped
`k ≤ 15` it does not return that refusal: what it returns carries the timer
reading, which is not negative. -/
theorem brute_force_refuses (elapsed : ℚ) (users : List User) (k : Int) :
    ((users.length : Int) > 20 ∨ min k (users.length : Int) > 15 →
      brute_force_max_coverage elapsed users k =
        some { selected_users := [], coverage := 0, runtime_ms := -1 }) ∧
    ((users.length : Int) ≤ 20 → min k (users.length : Int) ≤ 15 → 0 ≤ elapsed →
      brute_force_max_coverage elapsed users k ≠
          some { selected_users := [], coverage := 0, runtime_ms := -1 } ∧
      (0 ≤ k → ∃ r, brute_force_max_coverage elapsed users k = some r) ∧
      ∀ r, brute_force_max_coverage elapsed users k = some r →
        r.runtime_ms = elapsed ∧ r.runtime_ms ≠ -1) := by
  have hclamp : (if k > (users.length : Int) then (users.length : Int) else k) =
      min k (users.length : Int) := by
    split
    · rename_i h
      exact (min_eq_right (le_of_lt h)).symm
    · rename_i h
      exact (min_eq_left (not_lt.1 h)).symm
  have hne : elapsed ≠ -1 → ∀ r, brute_force_max_coverage elapsed users k = some r →
      (users.length : Int) ≤ 20 → min k (users.length : Int) ≤ 15 → r.runtime_ms = elapsed := by
    intro _ r hr h1 h2
    simp only [brute_force_max_coverage, hclamp] at hr
    have h3 : ¬((users.length : Int) > 20 ∨ min k (users.length : Int) > 15) := by
      rintro (h | h)
      · exact absurd h1 (not_le.2 h)
      · exact absurd h2 (not_le.2 h)
    simp only [h3, if_false] at hr
    split at hr
    · exact absurd hr (by simp)
    · rw [Option.some.injEq] at hr
      rw [← hr]
  refine ⟨fun h => ?_, fun h1 h2 he => ?_⟩
  · simp only [brute_force_max_coverage, hclamp, h, if_true]
  · have hel : elapsed ≠ -1 := by
      intro h
      rw [h] at he
      exact absurd he (by norm_num)
    refine ⟨fun hr => ?_, fun hk0 => ?_, fun r hr => ?_⟩
    · have := hne hel _ hr h1 h2
      exact hel this.symm
    · have h3 : ¬((users.length : Int) > 20 ∨ min k (users.length : Int) > 15) := by
        rintro (h | h)
        · exact absurd h1 (not_le.2 h)
        · exact absurd h2 (not_le.2 h)
      have h4 : ¬ (min k (users.length : Int) < 0) := by
        rw [not_lt]
        exact le_min hk0 (by positivity)
      simp only [brute_force_max_coverage, hclamp, h3, h4, if_false]
      exact ⟨_, rfl⟩
    · have := hne hel r hr h1 h2
      exact ⟨this, this ▸ hel⟩

theorem marginal_gain_eq_card_sdiff (covered : Finset Int) (usr : User) :
    marginal_gain covered usr = ((usr.locations \ covered).card : Int) := by
  simp only [marginal_gain, Finset.sdiff_eq_filter]

/-- If no user has anything new to offer, everything any set of users covers
is covered already. -/
theorem covered_by_subset_of_no_gain (users : List User) (covered : Finset Int)
    (h : ∀ u (hu : u < users.length), marginal_gain covered users[u] = 0)
    (S : Finset ℕ) (hS : ∀ i ∈ S, i < users.length) : covered_by users S ⊆ covered := by
  intro x hx
  simp only [covered_by, Finset.mem_biUnion] at hx
  obtain ⟨i, hi, hx⟩ := hx
  have h0 := h i (hS i hi)
  rw [marginal_gain_eq_card_sdiff, Nat.cast_eq_zero, Finset.card_eq_zero,
    Finset.sdiff_eq_empty_iff_subset] at h0
  rw [List.getD_eq_getElem _ _ (hS i hi)] at hx
  exact h0 hx

/-- What a set `S` of users covers beyond `covered` is at most `|S|` times
the largest marginal gain. -/
theorem uncovered_le_card_mul_gain (users : List User) (covered : Finset Int) (G : Int)
    (h : ∀ u (hu : u < users.length), marginal_gain covered users[u] ≤ G)
    (S : Finset ℕ) (hS : ∀ i ∈ S, i < users.length) :
    ((covered_by users S).card : Int) - covered.card ≤ S.card * G := by
  have h1 : (covered_by users S).card - covered.card ≤ (covered_by users S \ covered).card :=
    Finset.le_card_sdiff _ _
  have h2 : covered_by users S \ covered =
      S.biUnion (fun i => (users.getD i default).locations \ covered) := by
    ext x
    simp only [covered_by, Finset.mem_sdiff, Finset.mem_biUnion]
    constructor
    · rintro ⟨⟨i, hi, hx⟩, hn⟩
      exact ⟨i, hi, hx, hn⟩
    · rintro ⟨i, hi, hx, hn⟩
      exact ⟨⟨i, hi, hx⟩, hn⟩
  have h3 : ((covered_by users S \ covered).card : Int) ≤ S.card * G := by
    rw [h2]
    have h4 : ((S.biUnion (fun i => (users.getD i default).locations \ covered)).card : Int) ≤
        ∑ i in S, (((users.getD i default).locations \ covered).card : Int) := by
      exact_mod_cast Finset.card_biUnion_le
    refine h4.trans ?_
    have h5 : ∑ i in S, (((users.getD i default).locations \ covered).card : Int) ≤
        ∑ _i in S, G := by
      refine Finset.sum_le_sum (fun i hi => ?_)
      have := h i (hS i hi)
      rw [marginal_gain_eq_card_sdiff] at this
      rw [List.getD_eq_getElem _ _ (hS i hi)]
      exact this
    refine h5.trans ?_
    rw [Finset.sum_const, nsmul_eq_mul]
  omega

/-- Under the invariant a selected user has no marginal gain. -/
theorem no_gain_of_selected (users : List User) (st : GreedyState) (h : st.Valid users)
    (u : ℕ) (hu : u < users.length) (hs : st.selected.getD u false = true) :
    marginal_gain st.covered users[u] = 0 := by
  obtain ⟨_, h2, _, _, h5⟩ := h
  apply marginal_gain_eq_zero_of_subset
  rw [h5]
  intro x hx
  rw [Finset.mem_biUnion]
  exact ⟨(u : Int), List.mem_toFinset.2 ((h2 u hu).1 hs), by
    rw [user_at_natCast users u hu]; exact hx⟩

theorem gain_le_of_max (users : List User) (st : GreedyState) (h : st.Valid users) (G : Int)
    (hG : 0 ≤ G)
    (hmax : ∀ v (hv : v < users.length), st.selected.getD v false = false →
      marginal_gain st.covered users[v] ≤ G) :
    ∀ v (hv : v < users.length), marginal_gain st.covered users[v] ≤ G := by
  intro v hv
  cases hs : st.selected.getD v false with
  | false => exact hmax v hv hs
  | true => rw [no_gain_of_selected users st h v hv hs]; exact hG

/-- The greedy loop stops early only when nothing is left to gain. -/
theorem greedy_loop_stops (users : List User) (m : ℕ) (st : GreedyState) (h : st.Valid users) :
    (∀ u (hu : u < users.length),
        marginal_gain (greedy_loop users m st).covered users[u] = 0) ∨
      (greedy_loop users m st).selected_users.length = st.selected_users.length + m := by
  induction m generalizing st with
  | zero => exact Or.inr rfl
  | succ m ih =>
    rcases greedy_loop_succ users m st with ⟨e, hz⟩ | ⟨u, hu, hs, _, _, e⟩
    · left
      rw [e]
      exact gain_le_of_max users st h 0 (le_refl _) (fun v hv hsv => (hz v hv hsv).le) |>
        fun hle v hv => le_antisymm (hle v hv) (marginal_gain_nonneg _ _)
    · rw [e]
      rcases ih _ (valid_step users st h u hu hs) with h1 | h1
      · exact Or.inl h1
      · right
        rw [h1]
        simp only [List.length_append, List.length_singleton]
        omega

theorem gap_step (d g K : ℝ) (hK : 1 ≤ K) (hg : 0 ≤ g) (h : d ≤ K * g) :
    max 0 (d - g) ≤ (1 - 1 / K) * max 0 d := by
  have hK0 : 0 < K := lt_of_lt_of_le one_pos hK
  have hf : 0 ≤ 1 - 1 / K := by
    rw [sub_nonneg, div_le_one hK0]
    exact hK
  by_cases hd : d ≤ 0
  · rw [max_eq_left hd, max_eq_left (by linarith), mul_zero]
  · have hd' : 0 < d := not_le.1 hd
    rw [max_eq_right hd'.le]
    refine max_le (mul_nonneg hf hd'.le) ?_
    have h1 : d / K ≤ g := by
      rw [div_le_iff₀ hK0]
      linarith
    have h2 : (1 - 1 / K) * d = d - d / K := by ring
    rw [h2]
    linarith

/-- The gap to the coverage of any `K` users shrinks by the factor
`1 - 1/K` with every iteration. -/
theorem greedy_loop_gap (users : List User) (S : Finset ℕ) (hS : ∀ i ∈ S, i < users.length)
    (K : ℕ) (hK : 1 ≤ K) (hSK : S.card ≤ K) (m : ℕ) (st : GreedyState) (h : st.Valid users) :
    ((covered_by users S).card : ℝ) - ((greedy_loop users m st).covered.card : ℝ) ≤
      (1 - 1 / (K : ℝ)) ^ m * max 0 (((covered_by users S).card : ℝ) - (st.covered.card : ℝ)) := by
  have hK0 : (0 : ℝ) < K := by exact_mod_cast hK
  have hf : (0 : ℝ) ≤ 1 - 1 / (K : ℝ) := by
    rw [sub_nonneg, div_le_one hK0]
    exact_mod_cast hK
  induction m generalizing st with
  | zero =>
    simp only [greedy_loop, pow_zero, one_mul]
    exact le_max_right _ _
  | succ m ih =>
    rcases greedy_loop_succ users m st with ⟨e, hz⟩ | ⟨u, hu, hs, hpos, hmax, e⟩
    · rw [e]
      have hall := gain_le_of_max users st h 0 (le_refl _) (fun v hv hsv => (hz v hv hsv).le)
      have hsub := covered_by_subset_of_no_gain users st.covered
        (fun v hv => le_antisymm (hall v hv) (marginal_gain_nonneg _ _)) S hS
      have hle : ((covered_by users S).card : ℝ) ≤ (st.covered.card : ℝ) := by
        exact_mod_cast Finset.card_le_card hsub
      exact (sub_nonpos.2 hle).trans (mul_nonneg (pow_nonneg hf _) (le_max_left _ _))
    · rw [e]
      refine (ih _ (valid_step users st h u hu hs)).trans ?_
      rw [pow_succ, mul_assoc]
      refine mul_le_mul_of_nonneg_left ?_ (pow_nonneg hf _)
      -- one step
      have hall := gain_le_of_max users st h _ hpos.le hmax
      have hgap := uncovered_le_card_mul_gain users st.covered _ hall S hS
      have hcard : (((st.covered ∪ (user_at users (u : Int)).locations).card : ℤ) : ℝ) =
          (st.covered.card : ℝ) + ((marginal_gain st.covered users[u] : ℤ) : ℝ) := by
        rw [card_union_eq_add_gain, user_at_natCast users u hu]
        push_cast
        rfl
      have hcard' : ((st.covered ∪ (user_at users (u : Int)).locations).card : ℝ) =
          (st.covered.card : ℝ) + ((marginal_gain st.covered users[u] : ℤ) : ℝ) := by
        rw [← hcard]
        push_cast
        rfl
      simp only
      rw [hcard']
      have hgapR : ((covered_by users S).card : ℝ) - (st.covered.card : ℝ) ≤
          (K : ℝ) * ((marginal_gain st.covered users[u] : ℤ) : ℝ) := by
        have h1 : (((covered_by users S).card : ℤ) : ℝ) - ((st.covered.card : ℤ) : ℝ) ≤
            ((S.card : ℤ) : ℝ) * ((marginal_gain st.covered users[u] : ℤ) : ℝ) := by
          exact_mod_cast hgap
        have h2 : ((S.card : ℤ) : ℝ) * ((marginal_gain st.covered users[u] : ℤ) : ℝ) ≤
            (K : ℝ) * ((marginal_gain st.covered users[u] : ℤ) : ℝ) := by
          refine mul_le_mul_of_nonneg_right ?_ (by exact_mod_cast hpos.le)
          exact_mod_cast hSK
        push_cast at h1
        exact h1.trans h2
      have hg0 : (0 : ℝ) ≤ ((marginal_gain st.covered users[u] : ℤ) : ℝ) := by
        exact_mod_cast hpos.le
      have hdg : ((covered_by users S).card : ℝ) -
            ((st.covered.card : ℝ) + ((marginal_gain st.covered users[u] : ℤ) : ℝ)) =
          ((covered_by users S).card : ℝ) - (st.covered.card : ℝ) -
            ((marginal_gain st.covered users[u] : ℤ) : ℝ) := by ring
      rw [hdg]
      exact gap_step _ _ _ (by exact_mod_cast hK) hg0 hgapR

theorem pow_le_exp_neg_one (K : ℕ) (hK : 1 ≤ K) :
    (1 - 1 / (K : ℝ)) ^ K ≤ Real.exp (-1) := by
  have hK0 : (0 : ℝ) < K := by exact_mod_cast hK
  have hf : (0 : ℝ) ≤ 1 - 1 / (K : ℝ) := by
    rw [sub_nonneg, div_le_one hK0]
    exact_mod_cast hK
  have h1 : 1 - 1 / (K : ℝ) ≤ Real.exp (-(1 / (K : ℝ))) := Real.one_sub_le_exp_neg _
  have h2 := pow_le_pow_left₀ hf h1 K
  have h3 : Real.exp (-(1 / (K : ℝ))) ^ K = Real.exp (-1) := by
    rw [← Real.exp_nat_mul]
    congr 1
    field_simp
  rw [h3] at h2
  exact h2

/-- Once as many users are selected as there are users, all are selected. -/
theorem all_selected (users : List User) (st : GreedyState) (h : st.Valid users)
    (hlen : st.selected_users.length = users.length) (u : ℕ) (hu : u < users.length) :
    st.selected.getD u false = true := by
  obtain ⟨_, h2, h3, h4, _⟩ := h
  rw [h2 u hu]
  have hinj : ∀ a ∈ st.selected_users, ∀ b ∈ st.selected_users,
      Int.toNat a = Int.toNat b → a = b := by
    intro a ha b hb hab
    have := (h4 a ha).1
    have := (h4 b hb).1
    omega
  have hnd : (st.selected_users.map Int.toNat).Nodup :=
    (List.nodup_map_iff_inj_on h3).2 hinj
  have hsub : (st.selected_users.map Int.toNat).toFinset ⊆ Finset.range users.length := by
    intro i hi
    simp only [List.mem_toFinset, List.mem_map] at hi
    obtain ⟨idx, hidx, rfl⟩ := hi
    have := h4 idx hidx
    rw [Finset.mem_range]
    omega
  have hcard : (st.selected_users.map Int.toNat).toFinset.card = users.length := by
    rw [List.toFinset_card_of_nodup hnd, List.length_map, hlen]
  have heq := Finset.eq_of_subset_of_card_le hsub (by rw [Finset.card_range, hcard])
  have hmem : u ∈ (st.selected_users.map Int.toNat).toFinset := by
    rw [heq]
    exact Finset.mem_range.2 hu
  simp only [List.mem_toFinset, List.mem_map] at hmem
  obtain ⟨idx, hidx, hidxu⟩ := hmem
  have := (h4 idx hidx).1
  have hcast : idx = (u : Int) := by omega
  rw [← hcast]
  exact hidx

/-- C18.  For every `k ≥ 0` the greedy coverage is at least `(1 - 1/e)` times
the number of distinct locations covered by any set of at most `k` users, hence
at least `(1 - 1/e) · OPT`. -/
theorem greedy_approximation (elapsed : ℚ) (users : List User) (k : Int) (hk : 0 ≤ k) :
    ∃ r, greedy_max_coverage elapsed users k = some r ∧
      ∀ S : Finset ℕ, (∀ i ∈ S, i < users.length) → (S.card : Int) ≤ k →
        (1 - Real.exp (-1)) * ((covered_by users S).card : ℝ) ≤ (r.coverage : ℝ) := by
  refine ⟨_, greedy_of_nonneg elapsed users k hk, fun S hS hcard => ?_⟩
  simp only
  have hv0 := valid_initial users
  have hvf := greedy_loop_valid users (min k.toNat users.length) _ hv0
  have hcardK : S.card ≤ k.toNat := by omega
  have hopt0 : (0 : ℝ) ≤ ((covered_by users S).card : ℝ) := by positivity
  have hexp : (0 : ℝ) ≤ Real.exp (-1) := (Real.exp_pos _).le
  -- when nothing is left to gain, the greedy coverage is at least that of `S`
  have hfull : (∀ u (hu : u < users.length),
      marginal_gain (greedy_loop users (min k.toNat users.length)
        { selected_users := [], covered := ∅,
          selected := List.replicate users.length false }).covered users[u] = 0) →
      (1 - Real.exp (-1)) * ((covered_by users S).card : ℝ) ≤
        (((greedy_loop users (min k.toNat users.length)
          { selected_users := [], covered := ∅,
            selected := List.replicate users.length false }).covered.card : ℤ) : ℝ) := by
    intro hz
    have hsub := covered_by_subset_of_no_gain users _ hz S hS
    have hle : ((covered_by users S).card : ℝ) ≤
        (((greedy_loop users (min k.toNat users.length)
          { selected_users := [], covered := ∅,
            selected := List.replicate users.length false }).covered.card : ℤ) : ℝ) := by
      exact_mod_cast Finset.card_le_card hsub
    nlinarith
  by_cases hkn : k.toNat ≤ users.length
  · rw [min_eq_left hkn] at hvf hfull ⊢
    by_cases hK : 1 ≤ k.toNat
    · have hgap := greedy_loop_gap users S hS k.toNat hK hcardK k.toNat _ hv0
      simp only [Finset.card_empty, Nat.cast_zero, sub_zero] at hgap
      rw [max_eq_right hopt0] at hgap
      have hpow := pow_le_exp_neg_one k.toNat hK
      have := mul_le_mul_of_nonneg_right hpow hopt0
      push_cast
      linarith
    · have hS0 : S.card = 0 := by omega
      rw [Finset.card_eq_zero] at hS0
      subst hS0
      simp only [covered_by, Finset.biUnion_empty, Finset.card_empty, Nat.cast_zero, mul_zero]
      positivity
  · rw [min_eq_right (by omega)] at hvf hfull ⊢
    rcases greedy_loop_stops users users.length _ hv0 with hz | hlen
    · exact hfull hz
    · refine hfull (fun u hu => ?_)
      exact no_gain_of_selected users _ hvf u hu
        (all_selected users _ hvf (by simpa using hlen) u hu)

/-! ## Witnesses -/

/-- Witness for C16: four users, `k = 2`. -/
theorem greedy_coverage_is_computed_witness :
    (0 : Int) ≤ 2 ∧
    ∃ r, greedy_max_coverage 0
        [⟨0, {1, 2, 3}⟩, ⟨1, {3, 4}⟩, ⟨2, {5, 6, 7, 8}⟩, ⟨3, {1, 5}⟩] 2 = some r ∧
      r.coverage =
        ((r.selected_users.toFinset.biUnion (fun idx =>
          (user_at [⟨0, {1, 2, 3}⟩, ⟨1, {3, 4}⟩, ⟨2, {5, 6, 7, 8}⟩, ⟨3, {1, 5}⟩]
            idx).locations)).card : Int) ∧
      r.coverage = compute_coverage
        [⟨0, {1, 2, 3}⟩, ⟨1, {3, 4}⟩, ⟨2, {5, 6, 7, 8}⟩, ⟨3, {1, 5}⟩] r.selected_users :=
  ⟨by decide, greedy_coverage_is_computed 0
    [⟨0, {1, 2, 3}⟩, ⟨1, {3, 4}⟩, ⟨2, {5, 6, 7, 8}⟩, ⟨3, {1, 5}⟩] 2 (by decide)⟩

/-- Witness for C17: on four users with `k = 2` brute force selects users `0`
and `2`, covering seven locations, and greedy cannot cover more. -/
theorem brute_force_is_optimal_witness :
    brute_force_max_coverage 0
        [⟨0, {1, 2, 3}⟩, ⟨1, {3, 4}⟩, ⟨2, {5, 6, 7, 8}⟩, ⟨3, {1, 5}⟩] 2 =
      some ⟨[0, 2], 7, 0⟩ ∧
    ∃ r, brute_force_max_coverage 0
        [⟨0, {1, 2, 3}⟩, ⟨1, {3, 4}⟩, ⟨2, {5, 6, 7, 8}⟩, ⟨3, {1, 5}⟩] 2 = some r ∧
      ∀ (e : ℚ) (g : CoverageResult),
        greedy_max_coverage e
          [⟨0, {1, 2, 3}⟩, ⟨1, {3, 4}⟩, ⟨2, {5, 6, 7, 8}⟩, ⟨3, {1, 5}⟩] 2 = some g →
        g.coverage ≤ r.coverage := by
  refine ⟨by decide!, ?_⟩
  obtain ⟨r, h1, _, _, _, h5⟩ := brute_force_is_optimal 0
    [⟨0, {1, 2, 3}⟩, ⟨1, {3, 4}⟩, ⟨2, {5, 6, 7, 8}⟩, ⟨3, {1, 5}⟩] 2 (by decide) (by decide)
    (by decide)
  exact ⟨r, h1, h5⟩

/-- Witness for C18: four users, `k = 2`, compared with the users `0` and `2`. -/
theorem greedy_approximation_witness :
    (0 : Int) ≤ 2 ∧
    ∃ r, greedy_max_coverage 0
        [⟨0, {1, 2, 3}⟩, ⟨1, {3, 4}⟩, ⟨2, {5, 6, 7, 8}⟩, ⟨3, {1, 5}⟩] 2 = some r ∧
      (1 - Real.exp (-1)) *
          ((covered_by [⟨0, {1, 2, 3}⟩, ⟨1, {3, 4}⟩, ⟨2, {5, 6, 7, 8}⟩, ⟨3, {1, 5}⟩]
            {0, 2}).card : ℝ) ≤ (r.coverage : ℝ) := by
  obtain ⟨r, h1, h2⟩ := greedy_approximation 0
    [⟨0, {1, 2, 3}⟩, ⟨1, {3, 4}⟩, ⟨2, {5, 6, 7, 8}⟩, ⟨3, {1, 5}⟩] 2 (by decide)
  exact ⟨by decide, r, h1, h2 {0, 2} (by decide) (by decide)⟩

/-- Witness for C19: twenty-one users are refused, four users are not. -/
theorem brute_force_refuses_witness :
    brute_force_max_coverage 5 (List.replicate 21 ⟨0, {1}⟩) 1 =
      some { selected_users := [], coverage := 0, runtime_ms := -1 } ∧
    brute_force_max_coverage 5
        [⟨0, {1, 2, 3}⟩, ⟨1, {3, 4}⟩, ⟨2, {5, 6, 7, 8}⟩, ⟨3, {1, 5}⟩] 2 ≠
      some { selected_users := [], coverage := 0, runtime_ms := -1 } :=
  ⟨(brute_force_refuses 5 (List.replicate 21 ⟨0, {1}⟩) 1).1 (Or.inl (by decide)),
    ((brute_force_refuses 5 [⟨0, {1, 2, 3}⟩, ⟨1, {3, 4}⟩, ⟨2, {5, 6, 7, 8}⟩, ⟨3, {1, 5}⟩]
      2).2 (by decide) (by decide) (by norm_num)).1⟩

/-! ## Every selected user adds a location -/

theorem gaining_step (users : List User) (st : GreedyState) (hv : st.Valid users)
    (hg : st.Gaining users) (u : ℕ) (hu : u < users.length)
    (hpos : 0 < marginal_gain st.covered users[u]) :
    GreedyState.Gaining users
      { selected_users := st.selected_users ++ [(u : Int)],
        covered := st.covered ∪ (user_at users (u : Int)).locations,
        selected := st.selected.set u true } := by
  intro i hi
  simp only [List.length_append, List.length_singleton] at hi
  simp only []
  by_cases h : i < st.selected_users.length
  · rw [List.take_append_of_le_length (by omega), List.take_append_of_le_length (by omega)]
    exact hg i h
  · have hi2 : i = st.selected_users.length := by omega
    subst hi2
    rw [List.take_append_of_le_length (le_refl _), List.take_length,
      List.take_of_length_le (by simp)]
    rw [compute_coverage_eq, compute_coverage_eq, ← hv.2.2.2.2]
    have e : (st.selected_users ++ [(u : Int)]).toFinset.biUnion
        (fun idx => (user_at users idx).locations) =
        st.covered ∪ (user_at users (u : Int)).locations := by
      rw [hv.2.2.2.2]
      ext x
      simp only [List.toFinset_append, List.toFinset_cons, List.toFinset_nil,
        Finset.mem_biUnion, Finset.mem_union, Finset.mem_insert, Finset.not_mem_empty,
        or_false, insert_emptyc_eq, Finset.mem_singleton]
      constructor
      · rintro ⟨a, ha | ha, hx⟩
        · exact Or.inl ⟨a, ha, hx⟩
        · exact Or.inr (ha ▸ hx)
      · rintro (⟨a, ha, hx⟩ | hx)
        · exact ⟨a, Or.inl ha, hx⟩
        · exact ⟨_, Or.inr rfl, hx⟩
    rw [e, card_union_eq_add_gain, user_at_natCast users u hu]
    omega

theorem greedy_loop_gaining (users : List User) (m : ℕ) (st : GreedyState)
    (hv : st.Valid users) (hg : st.Gaining users) : (greedy_loop users m st).Gaining users := by
  induction m generalizing st with
  | zero => exact hg
  | succ m ih =>
    rcases greedy_loop_succ users m st with ⟨h, _⟩ | ⟨u, hu, hs, hpos, _, h⟩
    · rw [h]; exact hg
    · rw [h]
      exact ih _ (valid_step users st hv u hu hs) (gaining_step users st hv hg u hu hpos)

/-- A selection in which every user adds a location covers at least as many
locations as it has users. -/
theorem length_le_coverage (users : List User) (l : List Int)
    (h : ∀ i, i < l.length →
      compute_coverage users (l.take i) < compute_coverage users (l.take (i + 1))) :
    ∀ i, i ≤ l.length → (i : Int) ≤ compute_coverage users (l.take i) := by
  intro i
  induction i with
  | zero =>
    intro _
    simp [compute_coverage]
  | succ i ih =>
    intro hi
    have h1 := ih (by omega)
    have h2 := h i (by omega)
    push_cast
    omega

/-- C27.  For `k ≥ 0` the selection returned by `greedy_max_coverage` holds
only valid indices, holds no index twice and has at most `min(k, users.size())`
entries; every selected user covers a location that the users selected before
it do not cover, so `coverage ≥ selected_users.size()`. -/
theorem greedy_selection_sound (elapsed : ℚ) (users : List User) (k : Int) (hk : 0 ≤ k) :
    ∃ r, greedy_max_coverage elapsed users k = some r ∧
      (∀ idx ∈ r.selected_users, 0 ≤ idx ∧ idx < (users.length : Int)) ∧
      r.selected_users.Nodup ∧
      (r.selected_users.length : Int) ≤ min k (users.length : Int) ∧
      (∀ i, i < r.selected_users.length →
        compute_coverage users (r.selected_users.take i) <
          compute_coverage users (r.selected_users.take (i + 1))) ∧
      (r.selected_users.length : Int) ≤ r.coverage := by
  refine ⟨_, greedy_of_nonneg elapsed users k hk, ?_⟩
  have hv := greedy_loop_valid users (min k.toNat users.length) _ (valid_initial users)
  have hl := greedy_loop_length users (min k.toNat users.length)
    { selected_users := [], covered := ∅, selected := List.replicate users.length false }
  have hg := greedy_loop_gaining users (min k.toNat users.length) _ (valid_initial users)
    (by intro i hi; simp at hi)
  simp only []
  refine ⟨hv.2.2.2.1, hv.2.2.1, ?_, hg, ?_⟩
  · simp only [List.length_nil, zero_add] at hl
    have h1 : ((min k.toNat users.length : ℕ) : Int) = min k (users.length : Int) := by
      rw [Nat.cast_min, Int.toNat_of_nonneg hk]
    rw [← h1]
    exact_mod_cast hl
  · have h1 := length_le_coverage users _ hg _ (le_refl _)
    rw [List.take_length, compute_coverage_eq, ← hv.2.2.2.2] at h1
    exact h1

/-- Witness for C27: four users, `k = 2`; greedy selects the users `2` and `0`
and covers seven locations. -/
theorem greedy_selection_sound_witness :
    greedy_max_coverage 0
        [⟨0, {1, 2, 3}⟩, ⟨1, {3, 4}⟩, ⟨2, {5, 6, 7, 8}⟩, ⟨3, {1, 5}⟩] 2 =
      some ⟨[2, 0], 7, 0⟩ ∧
    ∃ r, greedy_max_coverage 0
        [⟨0, {1, 2, 3}⟩, ⟨1, {3, 4}⟩, ⟨2, {5, 6, 7, 8}⟩, ⟨3, {1, 5}⟩] 2 = some r ∧
      r.selected_users.Nodup ∧ (r.selected_users.length : Int) ≤ r.coverage := by
  obtain ⟨r, h1, _, h3, _, _, h6⟩ := greedy_selection_sound 0
    [⟨0, {1, 2, 3}⟩, ⟨1, {3, 4}⟩, ⟨2, {5, 6, 7, 8}⟩, ⟨3, {1, 5}⟩] 2 (by decide)
  exact ⟨by decide!, r, h1, h3, h6⟩

end MaxCoverage
